import Mathlib

/-!
# ipatool: the HTTP client and its plist body normalizer

A shallow embedding of `pkg/http/client.go` and `pkg/appstore/appstore_bag.go`.

Byte slices (`[]byte`) are lists of natural numbers below 256.  The three
compiled patterns are kept as syntax trees and run by a small backtracking
matcher that follows the leftmost-first rule of Go's `regexp` package.
-/

set_option autoImplicit false

namespace Ipatool

/-- A byte slice; every element stands for one byte. -/
abbrev Bytes := List Nat

/-- Bytes of an ASCII string literal (for ASCII text the code point of a
character is its single UTF-8 byte). -/
def ascii (s : String) : Bytes := s.data.map Char.toNat

/-! ## `bytes.TrimSpace` and `bytes.Contains` -/

/-- The six ASCII bytes `bytes.TrimSpace` drops on its fast path:
`\t`, `\n`, `\v`, `\f`, `\r` and the blank. -/
def asciiSpace (b : Nat) : Bool :=
  b == 0x09 || b == 0x0A || b == 0x0B || b == 0x0C || b == 0x0D || b == 0x20

/-- Second byte of a two-byte white-space rune that starts with `0xC2`:
U+0085 (NEL) and U+00A0 (NBSP). -/
def spaceAfterC2 (b : Nat) : Bool := b == 0x85 || b == 0xA0

/-- Third byte of a white-space rune that starts with `0xE2 0x80`:
U+2000..U+200A, U+2028, U+2029 and U+202F. -/
def spaceAfterE280 (b : Nat) : Bool :=
  (0x80 ≤ b && b ≤ 0x8A) || b == 0xA8 || b == 0xA9 || b == 0xAF

/-- Drop the leading white space of a byte slice: every rune `unicode.IsSpace`
accepts, read in its UTF-8 encoding (`bytes.TrimLeftFunc`). -/
def trimLeft : Bytes → Bytes
  | [] => []
  | b :: s =>
    if asciiSpace b then trimLeft s
    else match s with
      | c :: d :: s2 =>
        if b == 0xC2 && spaceAfterC2 c then trimLeft (d :: s2)
        else if b == 0xE1 && c == 0x9A && d == 0x80 then trimLeft s2
        else if b == 0xE2 && c == 0x80 && spaceAfterE280 d then trimLeft s2
        else if b == 0xE2 && c == 0x81 && d == 0x9F then trimLeft s2
        else if b == 0xE3 && c == 0x80 && d == 0x80 then trimLeft s2
        else b :: s
      | [c] => if b == 0xC2 && spaceAfterC2 c then [] else b :: s
      | [] => b :: s

/-- The trailing white space, seen on the reversed slice: the same runes with
their bytes in reverse order (`utf8.DecodeLastRune` accepts a rune exactly when
the slice ends with its encoding). -/
def trimLeftRev : Bytes → Bytes
  | [] => []
  | b :: s =>
    if asciiSpace b then trimLeftRev s
    else match s with
      | c :: d :: s2 =>
        if spaceAfterC2 b && c == 0xC2 then trimLeftRev (d :: s2)
        else if b == 0x80 && c == 0x9A && d == 0xE1 then trimLeftRev s2
        else if spaceAfterE280 b && c == 0x80 && d == 0xE2 then trimLeftRev s2
        else if b == 0x9F && c == 0x81 && d == 0xE2 then trimLeftRev s2
        else if b == 0x80 && c == 0x80 && d == 0xE3 then trimLeftRev s2
        else b :: s
      | [c] => if spaceAfterC2 b && c == 0xC2 then [] else b :: s
      | [] => b :: s

/-- Drop the trailing white space of a byte slice (`bytes.TrimRightFunc`). -/
def trimRight (s : Bytes) : Bytes := (trimLeftRev s.reverse).reverse

/-- Go's `bytes.TrimSpace`: the slice without leading and trailing white space. -/
def TrimSpace (s : Bytes) : Bytes := trimRight (trimLeft s)

/-- Remainder of `s` after the prefix `p`, when `s` starts with `p`. -/
def stripPrefix : Bytes → Bytes → Option Bytes
  | [], s => some s
  | _ :: _, [] => none
  | p :: ps, b :: s => if p = b then stripPrefix ps s else none

/-- Go's `bytes.Contains`: `sub` occurs in `b` as a contiguous run. -/
def Contains : Bytes → Bytes → Bool
  | [], sub => (stripPrefix sub []).isSome
  | b :: s, sub => (stripPrefix sub (b :: s)).isSome || Contains s sub

/-! ## The fragment of `regexp` the three patterns use

Go's `regexp` reads a byte slice rune by rune and takes a byte that is not valid
UTF-8 for one rune of width one.  The patterns name ASCII runes only, a folded
literal accepts the UTF-8 form of each rune in its fold orbit, and the two
classes `[^>]` and `.` accept every rune that is not the ASCII `>`, so taking
the text byte by byte gives the same matches.
-/

/-- Nodes of a pattern, in the order they are written.  All three patterns are
compiled with the flags `(?is)`: literals fold case and `.` matches every rune. -/
inductive Node where
  /-- One literal rune, compared under case folding. -/
  | literal (r : Nat)
  /-- The assertion `\b`: an ASCII word boundary. -/
  | wordBoundary
  /-- A starred one-rune class; `greedy` is false for `*?`. -/
  | star (cls : Nat → Bool) (greedy : Bool)
  /-- The opening or closing parenthesis of a capture group. -/
  | mark

/-- A compiled pattern. -/
abbrev Regexp := List Node

/-- UTF-8 encodings of the runes `unicode.SimpleFold` puts in the orbit of the
ASCII rune `r`: both cases of a letter, and for `k` and `s` also the Kelvin
sign U+212A and the long s U+017F. -/
def foldEncodings (r : Nat) : List Bytes :=
  let lower := if 0x41 ≤ r ∧ r ≤ 0x5A then r + 0x20 else r
  if 0x61 ≤ lower ∧ lower ≤ 0x7A then
    [[lower], [lower - 0x20]] ++
      (if lower = 0x6B then [[0xE2, 0x84, 0xAA]]
       else if lower = 0x73 then [[0xC5, 0xBF]] else [])
  else [[r]]

/-- Word characters of `\b`: `[0-9A-Za-z_]`. -/
def isWordChar (b : Nat) : Bool :=
  (0x30 ≤ b && b ≤ 0x39) || (0x41 ≤ b && b ≤ 0x5A) || (0x61 ≤ b && b ≤ 0x7A) || b == 0x5F

/-- Whether the byte before (or after) a position is a word character; the
ends of the text are not. -/
def isWordAt : Option Nat → Bool
  | none => false
  | some b => isWordChar b

/-- The class `[^>]`. -/
def notGt (b : Nat) : Bool := b != 0x3E

/-- The class `.` under the flag `s`. -/
def anyChar (_ : Nat) : Bool := true

/-- Run a starred class in front of the continuation `k`: a greedy star first
tries to take one more byte, a lazy one first tries to stop. -/
def starLoop {α : Type} (cls : Nat → Bool) (greedy : Bool)
    (k : Option Nat → Bytes → Option α) : Option Nat → Bytes → Option α
  | prev, [] => k prev []
  | prev, b :: s =>
    if cls b then
      if greedy then
        match starLoop cls greedy k (some b) s with
        | some r => some r
        | none => k prev (b :: s)
      else
        match k prev (b :: s) with
        | some r => some r
        | none => starLoop cls greedy k (some b) s
    else k prev (b :: s)

/-- Try the alternatives of a folded literal in order. -/
def firstAlt {α : Type} (k : Option Nat → Bytes → Option α) (s : Bytes) : List Bytes → Option α
  | [] => none
  | enc :: encs =>
    match stripPrefix enc s with
    | some rest =>
      (match k enc.getLast? rest with
       | some r => some r
       | none => firstAlt k s encs)
    | none => firstAlt k s encs

/-- Match the pattern at the start of `s`, `prev` being the byte just before.
The first match in backtracking order is returned as the list of remainders:
the text left after the match, then the text left at each group mark, the
last mark first. -/
def matchHere : Regexp → Option Nat → Bytes → Option (List Bytes)
  | [], _, s => some [s]
  | .literal r :: ns, _, s =>
    firstAlt (fun p t => matchHere ns p t) s (foldEncodings r)
  | .wordBoundary :: ns, prev, s =>
    if isWordAt prev != isWordAt s.head? then matchHere ns prev s else none
  | .star cls greedy :: ns, prev, s =>
    starLoop cls greedy (fun p t => matchHere ns p t) prev s
  | .mark :: ns, prev, s =>
    (matchHere ns prev s).map (fun m => m ++ [s])

/-- Leftmost match: the first start position at which the pattern matches,
given as the text from that position on, with the remainders of `matchHere`. -/
def findAt (re : Regexp) : Option Nat → Bytes → Option (Bytes × List Bytes)
  | prev, [] => (matchHere re prev []).map (fun m => ([], m))
  | prev, b :: s =>
    match matchHere re prev (b :: s) with
    | some m => some (b :: s, m)
    | none => findAt re (some b) s

/-- The bytes between two positions given by their remainders. -/
def span (fromRest toRest : Bytes) : Bytes :=
  fromRest.take (fromRest.length - toRest.length)

/-- Go's `(*Regexp).Match`. -/
def Regexp.Match (re : Regexp) (b : Bytes) : Bool := (findAt re none b).isSome

/-- Go's `(*Regexp).Find`: the leftmost match, nil when there is none. -/
def Regexp.Find (re : Regexp) (b : Bytes) : Bytes :=
  match findAt re none b with
  | some (start, m) => span start (m.headD [])
  | none => []

/-- Pair up the group marks of a match, outermost text first. -/
def groups : List Bytes → List Bytes
  | close :: opn :: ms => groups ms ++ [span opn close]
  | _ => []

/-- Go's `(*Regexp).FindSubmatch`: the leftmost match followed by the text of
each capture group, nil when there is no match. -/
def Regexp.FindSubmatch (re : Regexp) (b : Bytes) : List Bytes :=
  match findAt re none b with
  | some (start, m) => span start (m.headD []) :: groups m.tail
  | none => []

/-- The nodes of a literal string. -/
def lit (s : String) : Regexp := (ascii s).map Node.literal

/-- The pattern `(?is)<Document\b[^>]*>(.*)</Document>`. -/
def documentXMLPattern : Regexp :=
  lit "<Document" ++ [.wordBoundary, .star notGt true] ++ lit ">" ++
    [.mark, .star anyChar true, .mark] ++ lit "</Document>"

/-- The pattern `(?is)<plist\b[^>]*>.*?</plist>`. -/
def plistXMLPattern : Regexp :=
  lit "<plist" ++ [.wordBoundary, .star notGt true] ++ lit ">" ++
    [.star anyChar false] ++ lit "</plist>"

/-- The pattern `(?is)<dict\b[^>]*>.*</dict>`. -/
def dictXMLPattern : Regexp :=
  lit "<dict" ++ [.wordBoundary, .star notGt true] ++ lit ">" ++
    [.star anyChar true] ++ lit "</dict>"

/-- The byte strings a run of literals matches under case folding: one folded
form of each rune, one after the other. -/
def LitEnc : List Nat → Bytes → Prop
  | [], e => e = []
  | r :: rs, e => ∃ enc ∈ foldEncodings r, ∃ e2, e = enc ++ e2 ∧ LitEnc rs e2

/-- The runes of `<dic`, the part of the opening tag before its last letter. -/
def dictOpenRunes : List Nat := [0x3C, 0x64, 0x69, 0x63]

/-- The runes of `</dict>`. -/
def dictCloseRunes : List Nat := [0x3C, 0x2F, 0x64, 0x69, 0x63, 0x74, 0x3E]

/-- The runes of `<plis`, the part of the opening tag before its last letter. -/
def plistOpenRunes : List Nat := [0x3C, 0x70, 0x6C, 0x69, 0x73]

/-- The runes of `</plist>`. -/
def plistCloseRunes : List Nat := [0x3C, 0x2F, 0x70, 0x6C, 0x69, 0x73, 0x74, 0x3E]

/-- An opening tag as the patterns read it: the runes of the name in any letter
case (the last one is a `t`), then no word character, then everything up to the
first `>`. -/
def TagOpen (openRunes : List Nat) (o : Bytes) : Prop :=
  ∃ e1 enc tag, o = e1 ++ enc ++ tag ++ [0x3E] ∧ LitEnc openRunes e1 ∧
    enc ∈ foldEncodings 0x74 ∧ (∀ b ∈ tag, b ≠ 0x3E) ∧ isWordAt (tag ++ [0x3E]).head? = false

/-- An opening tag as the dict pattern reads it. -/
def DictOpen (o : Bytes) : Prop := TagOpen dictOpenRunes o

/-- An opening tag as the plist pattern reads it. -/
def PlistOpen (o : Bytes) : Prop := TagOpen plistOpenRunes o

/-- Every plist element inside the text ends where the text ends. -/
def PlistTight (w : Bytes) : Prop :=
  ∀ x o u c z, w = x ++ (o ++ u ++ c) ++ z → PlistOpen o → LitEnc plistCloseRunes c → z = []

/-- No start inside `x` lets the continuation succeed on `x` followed by `y`. -/
def NoHit {α : Type} (k : Bytes → Option α) (x y : Bytes) : Prop :=
  ∀ x1 x2, x = x1 ++ x2 → x2 ≠ [] → k (x2 ++ y) = none

/-- The pattern `(?i)<NAME\b[^>]*>`: an opening tag the way the three patterns
read it. -/
def openTag (name : String) : Regexp :=
  lit ("<" ++ name) ++ [.wordBoundary, .star notGt true] ++ lit ">"

/-- The pattern `(?i)</NAME>`: a closing tag the way the three patterns read it. -/
def closeTag (name : String) : Regexp := lit ("</" ++ name ++ ">")

/-- Whether the text holds an opening or a closing tag of that name, in any
letter case. -/
def hasTag (name : String) (s : Bytes) : Bool :=
  (openTag name).Match s || (closeTag name).Match s

/-! ## The normalizer -/

/-- The function `extractEmbeddedPlist` of `client.go`. -/
def extractEmbeddedPlist (body : Bytes) : Bytes :=
  let plistMatch := plistXMLPattern.Find body
  if plistMatch.length = 0 then [] else TrimSpace plistMatch

/-- The function `extractEmbeddedDict` of `client.go`. -/
def extractEmbeddedDict (body : Bytes) : Bytes :=
  let dictMatch := dictXMLPattern.Find body
  if dictMatch.length = 0 then [] else TrimSpace dictMatch

/-- The function `extractDocumentInnerBody` of `client.go`. -/
def extractDocumentInnerBody (body : Bytes) : Bytes :=
  let documentMatch := documentXMLPattern.FindSubmatch body
  if documentMatch.length < 2 then []
  else
    let documentBody := TrimSpace (documentMatch.getD 1 [])
    if documentBody.length = 0 then [] else documentBody

/-- The value of the local variable `normalized` of `normalizeXMLPlistBody`
once the Document step and the plist step have run on a trimmed body. -/
def workingBody (trimmed : Bytes) : Bytes :=
  let documentBody := extractDocumentInnerBody trimmed
  let normalized := if 0 < documentBody.length then documentBody else trimmed
  let embeddedPlist := extractEmbeddedPlist normalized
  if 0 < embeddedPlist.length then embeddedPlist else normalized

/-- The function `normalizeXMLPlistBody` of `client.go`. -/
def normalizeXMLPlistBody (body : Bytes) : Bytes :=
  let normalized := TrimSpace body
  if normalized.length = 0 then normalized
  else
    let documentBody := extractDocumentInnerBody normalized
    let normalized := if 0 < documentBody.length then documentBody else normalized
    let embeddedPlist := extractEmbeddedPlist normalized
    let normalized := if 0 < embeddedPlist.length then embeddedPlist else normalized
    let dictBody := extractEmbeddedDict normalized
    if 0 < dictBody.length then dictBody
    else if Contains normalized (ascii "<key>") then
      ascii "<dict>" ++ normalized ++ ascii "</dict>"
    else normalized

/-! ## Errors, headers, requests and results -/

/-- A Go `error`: a message of its own, or a context wrapped around a cause
with `fmt.Errorf("<context>: %w", cause)`. -/
inductive Error where
  | new (msg : String)
  | wrap (context : String) (cause : Error)
deriving DecidableEq, Repr

/-- The text `err.Error()` returns. -/
def Error.message : Error → String
  | .new msg => msg
  | .wrap context cause => context ++ ": " ++ cause.message

/-- The cause `errors.Unwrap` returns. -/
def Error.unwrap : Error → Option Error
  | .new _ => none
  | .wrap _ cause => some cause

/-- Whether `sub` occurs in `s` (`strings.Contains`, gomega's `ContainSubstring`). -/
def containsSubstring (s sub : String) : Prop := sub.data <:+: s.data

/-- ASCII upper case of one character. -/
def upperASCII (c : Char) : Char :=
  if 0x61 ≤ c.toNat ∧ c.toNat ≤ 0x7A then Char.ofNat (c.toNat - 0x20) else c

/-- ASCII lower case of one character. -/
def lowerASCII (c : Char) : Char :=
  if 0x41 ≤ c.toNat ∧ c.toNat ≤ 0x5A then Char.ofNat (c.toNat + 0x20) else c

/-- The bytes `textproto` accepts in a header field name: letters, digits and
the token punctuation of RFC 7230. -/
def validHeaderFieldByte (c : Char) : Bool :=
  let n := c.toNat
  (0x30 ≤ n && n ≤ 0x39) || (0x41 ≤ n && n ≤ 0x5A) || (0x61 ≤ n && n ≤ 0x7A) ||
    [0x21, 0x23, 0x24, 0x25, 0x26, 0x27, 0x2A, 0x2B, 0x2D, 0x2E, 0x5E, 0x5F, 0x60, 0x7C, 0x7E].contains n

/-- The letter-case pass of `textproto.CanonicalMIMEHeaderKey`: upper case at
the start and after a hyphen, lower case elsewhere. -/
def canonicalCase : Bool → List Char → List Char
  | _, [] => []
  | upper, c :: cs =>
    let c2 := if upper then upperASCII c else lowerASCII c
    c2 :: canonicalCase (c2 == '-') cs

/-- Go's `textproto.CanonicalMIMEHeaderKey`; a name with a byte outside the
token set is returned unchanged. -/
def CanonicalMIMEHeaderKey (key : String) : String :=
  if key.data.all validHeaderFieldByte then String.mk (canonicalCase true key.data) else key

/-- Go's `http.Header`, a map from canonical field name to its values. -/
abbrev Header := List (String × List String)

/-- Go's `Header.Get`: the first value of the field, `""` when there is none. -/
def Header.Get (h : Header) (key : String) : String :=
  match h.lookup (CanonicalMIMEHeaderKey key) with
  | some (v :: _) => v
  | _ => ""

/-- Go's `Header.Set`: the field holds exactly the one value afterwards. -/
def Header.Set (h : Header) (key value : String) : Header :=
  (CanonicalMIMEHeaderKey key, [value]) ::
    h.filter (fun e => e.1 != CanonicalMIMEHeaderKey key)

/-- The part of Go's `*http.Request` the client touches. -/
structure HttpRequest where
  Method : String
  URL : String
  Header : Header
  Body : Bytes
deriving DecidableEq, Repr

/-- Go's `(*http.Request).Referer`. -/
def HttpRequest.Referer (req : HttpRequest) : String := req.Header.Get "Referer"

/-- The part of Go's `*http.Response` the client touches; `Body` is what
`io.ReadAll(res.Body)` returns. -/
structure HttpResponse where
  StatusCode : Int
  Header : Header
  Body : Except Error Bytes

/-- The endpoint named by the constant `appStoreAuthURL`. -/
def appStoreAuthURL : String :=
  "https://buy.itunes.apple.com/WebObjects/MZFinance.woa/wa/authenticate"

/-- Go's `http.ErrUseLastResponse`. -/
def ErrUseLastResponse : Error := .new "net/http: use last response"

/-- Modelled from the spec: the type `ResponseFormat` and its two constants are
declared in a file of the package that is not under src/; a string type with
one constant for JSON and one for XML. -/
abbrev ResponseFormat := String

/-- Modelled from the spec: the JSON constant of `ResponseFormat`. -/
def ResponseFormatJSON : ResponseFormat := "json"

/-- Modelled from the spec: the XML constant of `ResponseFormat`. -/
def ResponseFormatXML : ResponseFormat := "xml"

/-- Modelled from the spec: the constant `MethodGET`, declared outside src/. -/
def MethodGET : String := "GET"

/-- The capability `Payload`: the outcome of its `data()` method. -/
structure Payload where
  data : Except Error Bytes

/-- The struct `Request`; `Headers` lists the map in the order the loop of
`Send` visits it. -/
structure Request where
  URL : String
  Method : String
  Headers : List (String × String) := []
  ResponseFormat : ResponseFormat
  Payload : Option Payload := none

/-- The struct `Result[R]`; a nil map is the empty list. -/
structure Result (R : Type) where
  StatusCode : Int
  Headers : List (String × String)
  Data : R

/-- The zero value `Result[R]{}`. -/
def Result.zero (R : Type) [Inhabited R] : Result R :=
  { StatusCode := 0, Headers := [], Data := default }

/-! ## The header transport and the redirect policy -/

/-- What `AddHeaderTransport.RoundTrip` does: the request as handed to the
underlying transport `t.T`, and what is returned to the caller. -/
structure RoundTripOutcome where
  handed : HttpRequest
  res : Option HttpResponse
  err : Option Error

/-- The method `AddHeaderTransport.RoundTrip` of `client.go`; `T` is the underlying
transport and `DefaultUserAgent` the constant of that name, which is declared
outside src/. -/
def AddHeaderTransport.RoundTrip (DefaultUserAgent : String)
    (T : HttpRequest → Except Error HttpResponse) (req : HttpRequest) : RoundTripOutcome :=
  let req :=
    if req.Header.Get "User-Agent" = "" then
      { req with Header := req.Header.Set "User-Agent" DefaultUserAgent }
    else req
  match T req with
  | .error err => { handed := req, res := none, err := some (.wrap "failed to make round trip" err) }
  | .ok res => { handed := req, res := some res, err := none }

/-- The `CheckRedirect` function `NewClient` installs. -/
def CheckRedirect (req : HttpRequest) (_via : List HttpRequest) : Option Error :=
  if req.Referer = appStoreAuthURL then some ErrUseLastResponse else none

/-! ## `Send` and the two decode paths -/

/-- What a `Send` does to the outside world, in order. -/
inductive Event where
  /-- The call `c.internalClient.Do(request)` with this request. -/
  | networkCall (request : HttpRequest)
  /-- The call `c.cookieJar.Save()`. -/
  | cookieSave
deriving DecidableEq, Repr

/-- The collaborators of the struct `client[R]`, each given by its outcome. -/
structure client (R : Type) where
  /-- The outcome of `http.NewRequest(method, url, body)`. -/
  NewRequest : String → String → Bytes → Except Error HttpRequest
  /-- The outcome of `c.internalClient.Do`. -/
  Do : HttpRequest → Except Error HttpResponse
  /-- The outcome of `c.cookieJar.Save()`, `none` when it returns nil. -/
  Save : Option Error
  /-- The outcome of `json.Unmarshal(body, &data)`. -/
  jsonUnmarshal : Bytes → Except Error R
  /-- The outcome of `plist.Unmarshal(normalizedBody, &data)`. -/
  plistUnmarshal : Bytes → Except Error R

/-- The two values a `Send` returns, and the events it caused. -/
structure SendOutcome (R : Type) where
  result : Result R
  err : Option Error
  events : List Event

/-- The method `client.handleJSONResponse` of `client.go`. -/
def client.handleJSONResponse {R : Type} [Inhabited R] (c : client R)
    (res : HttpResponse) : Result R × Option Error :=
  match res.Body with
  | .error err => (Result.zero R, some (.wrap "failed to read response body" err))
  | .ok body =>
    match c.jsonUnmarshal body with
    | .error err => (Result.zero R, some (.wrap "failed to unmarshal json" err))
    | .ok data => ({ StatusCode := res.StatusCode, Headers := [], Data := data }, none)

/-- The method `client.handleXMLResponse` of `client.go`. -/
def client.handleXMLResponse {R : Type} [Inhabited R] (c : client R)
    (res : HttpResponse) : Result R × Option Error :=
  match res.Body with
  | .error err => (Result.zero R, some (.wrap "failed to read response body" err))
  | .ok body =>
    let normalizedBody := normalizeXMLPlistBody body
    match c.plistUnmarshal normalizedBody with
    | .error err => (Result.zero R, some (.wrap "failed to unmarshal xml" err))
    | .ok data =>
      let headers := res.Header.map (fun e => (e.1, "; ".intercalate e.2))
      ({ StatusCode := res.StatusCode, Headers := headers, Data := data }, none)

/-- The headers of a `Request` set one by one on the outgoing request. -/
def applyHeaders (request : HttpRequest) (headers : List (String × String)) : HttpRequest :=
  headers.foldl (fun r kv => { r with Header := r.Header.Set kv.1 kv.2 }) request

/-- The first step of `Send`: the bytes of the payload when there is one, the
nil slice when there is none. -/
def Request.payloadData (req : Request) : Except Error Bytes :=
  match req.Payload with
  | some p => p.data
  | none => .ok []

/-- The method `client.Send` of `client.go`. -/
def client.Send {R : Type} [Inhabited R] (c : client R) (req : Request) : SendOutcome R :=
  match req.payloadData with
  | .error err =>
    { result := Result.zero R, err := some (.wrap "failed to get payload data" err), events := [] }
  | .ok data =>
    match c.NewRequest req.Method req.URL data with
    | .error err =>
      { result := Result.zero R, err := some (.wrap "failed to create request" err), events := [] }
    | .ok request =>
      let request := applyHeaders request req.Headers
      match c.Do request with
      | .error err =>
        { result := Result.zero R, err := some (.wrap "request failed" err),
          events := [.networkCall request] }
      | .ok res =>
        match c.Save with
        | some err =>
          { result := Result.zero R, err := some (.wrap "failed to save cookies" err),
            events := [.networkCall request, .cookieSave] }
        | none =>
          if req.ResponseFormat = ResponseFormatJSON then
            { result := (c.handleJSONResponse res).1, err := (c.handleJSONResponse res).2,
              events := [.networkCall request, .cookieSave] }
          else if req.ResponseFormat = ResponseFormatXML then
            { result := (c.handleXMLResponse res).1, err := (c.handleXMLResponse res).2,
              events := [.networkCall request, .cookieSave] }
          else
            { result := Result.zero R,
              err := some (.new ("content type is not supported (" ++ req.ResponseFormat ++ ")")),
              events := [.networkCall request, .cookieSave] }

/-! ## The bag endpoint -/

/-- The constant `iTunesAPIDomain`. -/
def iTunesAPIDomain : String := "itunes.apple.com"

/-- The constant `PrivateInitDomain`. -/
def PrivateInitDomain : String := "init." ++ iTunesAPIDomain

/-- The constant `PrivateInitPath`. -/
def PrivateInitPath : String := "/bag.xml"

/-- Replace every occurrence of `old` found from left to right, none of them
overlapping; `skip` counts the characters of an occurrence still to drop. -/
def replaceAllAux (old new : List Char) : Nat → List Char → List Char
  | _, [] => []
  | skip + 1, _ :: s => replaceAllAux old new skip s
  | 0, c :: s =>
    if old.isPrefixOf (c :: s) then new ++ replaceAllAux old new (old.length - 1) s
    else c :: replaceAllAux old new 0 s

/-- Go's `strings.ReplaceAll` for a non-empty `old`. -/
def ReplaceAll (s old new : String) : String :=
  String.mk (replaceAllAux old.data new.data 0 s.data)

/-- The struct `urlBag`. -/
structure urlBag where
  AuthEndpoint : String := ""
deriving Inhabited

/-- The struct `bagResult`. -/
structure bagResult where
  URLBag : urlBag := {}
deriving Inhabited

/-- The struct `BagInput`. -/
structure BagInput where

/-- The struct `BagOutput`. -/
structure BagOutput where
  AuthEndpoint : String := ""
deriving DecidableEq, Repr

/-- The collaborators of the struct `appstore` that `Bag` uses; `ToUpper` is
Go's `strings.ToUpper`. -/
structure appstore where
  /-- The outcome of `t.machine.MacAddress()`. -/
  MacAddress : Except Error String
  /-- The method `t.bagClient.Send`. -/
  bagSend : Request → Result bagResult × Option Error
  /-- The function `strings.ToUpper`. -/
  ToUpper : String → String

/-- The method `appstore.bagRequest` of `appstore_bag.go`. -/
def appstore.bagRequest (guid : String) : Request :=
  { URL := "https://" ++ PrivateInitDomain ++ PrivateInitPath ++ "?guid=" ++ guid,
    Method := MethodGET,
    ResponseFormat := ResponseFormatXML,
    Headers := [("Accept", "application/xml")] }

/-- The two values `Bag` returns, and the requests it passed to `Send`. -/
structure BagOutcome where
  out : BagOutput
  err : Option Error
  sent : List Request

/-- The method `appstore.Bag` of `appstore_bag.go`. -/
def appstore.Bag (t : appstore) (_input : BagInput) : BagOutcome :=
  match t.MacAddress with
  | .error err => { out := {}, err := some (.wrap "failed to get mac address" err), sent := [] }
  | .ok macAddr =>
    let guid := ReplaceAll (t.ToUpper macAddr) ":" ""
    let req := appstore.bagRequest guid
    match t.bagSend req with
    | (_, some err) =>
      { out := {}, err := some (.wrap "failed to send http request" err), sent := [req] }
    | (res, none) =>
      if res.StatusCode ≠ 200 then
        { out := {},
          err := some (.new ("received unexpected status code: " ++ toString res.StatusCode)),
          sent := [req] }
      else { out := { AuthEndpoint := res.Data.URLBag.AuthEndpoint }, err := none, sent := [req] }

/-! ## Sample collaborators and inputs -/

/-- A client whose collaborators all succeed, decoding every body to `()`. -/
def happyClient : client Unit :=
  { NewRequest := fun method url body => .ok { Method := method, URL := url, Header := [], Body := body },
    Do := fun _ => .ok { StatusCode := 200, Header := [("Content-Type", ["text/plain"])], Body := .ok [] },
    Save := none,
    jsonUnmarshal := fun _ => .ok (),
    plistUnmarshal := fun _ => .ok () }

/-- A request that asks for a format the client does not know. -/
def yamlRequest : Request :=
  { URL := "https://example.com", Method := "GET", ResponseFormat := "yaml" }

/-- A client whose network call fails. -/
def offlineClient : client Unit :=
  { happyClient with Do := fun _ => .error (.new "offline") }

/-- A well-formed JSON request. -/
def lookupLikeRequest : Request :=
  { URL := "https://example.com", Method := "GET", ResponseFormat := ResponseFormatJSON }

/-- A transport that is offline. -/
def offlineTransport : HttpRequest → Except Error HttpResponse :=
  fun _ => .error (.new "offline")

/-- A request whose caller set the User-Agent header to the empty string. -/
def emptyAgentRequest : HttpRequest :=
  { Method := "GET", URL := "https://example.com", Header := [("User-Agent", [""])], Body := [] }

/-- A request whose caller set a User-Agent of its own. -/
def ownAgentRequest : HttpRequest :=
  { Method := "GET", URL := "https://example.com", Header := [("User-Agent", ["curl/8.0"])], Body := [] }

/-- A request with the given Referer and no other header. -/
def refererRequest (referer : String) : HttpRequest :=
  { Method := "GET", URL := "https://example.com", Header := [("Referer", [referer])], Body := [] }

/-- A JSON response with the status 200, one header and the body `{}`. -/
def jsonResponse : HttpResponse :=
  { StatusCode := 200, Header := [("Content-Type", ["application/json"])], Body := .ok (ascii "{}") }

/-- An app store whose machine reports the MAC address `aa:bb:cc:dd:ee:ff`,
with an upper-casing that covers the ASCII letters. -/
def sampleStore : appstore :=
  { MacAddress := .ok "aa:bb:cc:dd:ee:ff",
    bagSend := fun _ => (Result.zero bagResult, none),
    ToUpper := fun s => String.mk (s.data.map upperASCII) }

/-! ## The lookup endpoint -/

/-- The constant `iTunesAPIPathLookup`. -/
def iTunesAPIPathLookup : String := "/lookup"

/-- The decoded body of a lookup, a struct declared outside src/ of which
`lookup` reads the field `Results` only. -/
structure searchResult (App : Type) where
  Results : List App

/-- What `lookup` takes from its package and from the struct `appstore`: the
table `StoreFronts`, the device family constants and the error values are
declared outside src/ and are parameters here; `Encode` is Go's
`url.Values.Encode` on the parameters in the order they were added. -/
structure lookupStore (App : Type) where
  /-- The value of `StoreFronts[countryCode]`, `""` for a missing key. -/
  StoreFronts : String → String
  DeviceFamilyPhone : String
  DeviceFamilyPad : String
  ErrInvalidCountryCode : Error
  ErrInvalidDeviceFamily : Error
  ErrURL : Error
  ErrCreateRequest : Error
  ErrRequest : Error
  ErrAppNotFound : Error
  /-- The outcome of `params.Encode()`. -/
  Encode : List (String × String) → String
  /-- The method `a.searchClient.Send`. -/
  searchSend : Request → Result (searchResult App) × Option Error

/-- The function `errors.Wrap(err, message)` of `github.com/pkg/errors`. -/
def Wrap (err : Error) (message : String) : Error := .wrap message err

/-- The method `appstore.lookupURL` of `appstore_lookup.go`. -/
def appstore.lookupURL {App : Type} (a : lookupStore App)
    (bundleID countryCode deviceFamily : String) : Except Error String :=
  let entity : Except Error String :=
    if deviceFamily = a.DeviceFamilyPhone then .ok "software"
    else if deviceFamily = a.DeviceFamilyPad then .ok "iPadSoftware"
    else .error a.ErrInvalidDeviceFamily
  match entity with
  | .error err => .error err
  | .ok entity =>
    let params := [("entity", entity), ("limit", "1"), ("media", "software"),
      ("bundleId", bundleID), ("country", countryCode)]
    .ok ("https://" ++ iTunesAPIDomain ++ iTunesAPIPathLookup ++ "?" ++ a.Encode params)

/-- The method `appstore.lookupRequest` of `appstore_lookup.go`. -/
def appstore.lookupRequest {App : Type} (a : lookupStore App)
    (bundleID countryCode deviceFamily : String) : Except Error Request :=
  match appstore.lookupURL a bundleID countryCode deviceFamily with
  | .error err => .error (Wrap err a.ErrURL.message)
  | .ok lookupURL =>
    .ok { URL := lookupURL, Method := MethodGET, ResponseFormat := ResponseFormatJSON }

/-- The two values `lookup` returns, and the requests it passed to `Send`. -/
structure LookupOutcome (App : Type) where
  app : App
  err : Option Error
  sent : List Request

/-- The method `appstore.lookup` of `appstore_lookup.go`; the log line written
on an unexpected status code is left out. -/
def appstore.lookup {App : Type} [Inhabited App] (a : lookupStore App)
    (bundleID countryCode deviceFamily : String) : LookupOutcome App :=
  if a.StoreFronts countryCode = "" then
    { app := default, err := some a.ErrInvalidCountryCode, sent := [] }
  else
    match appstore.lookupRequest a bundleID countryCode deviceFamily with
    | .error err =>
      { app := default, err := some (Wrap err a.ErrCreateRequest.message), sent := [] }
    | .ok request =>
      match a.searchSend request with
      | (_, some err) =>
        { app := default, err := some (Wrap err a.ErrRequest.message), sent := [request] }
      | (res, none) =>
        if res.StatusCode ≠ 200 then
          { app := default, err := some a.ErrRequest, sent := [request] }
        else
          match res.Data.Results with
          | [] => { app := default, err := some a.ErrAppNotFound, sent := [request] }
          | app :: _ => { app := app, err := none, sent := [request] }

/-- An app store whose machine reports a MAC address and whose bag endpoint
answers 200 with the authentication endpoint `https://example.com`. -/
def bagStore : appstore :=
  { MacAddress := .ok "aa:bb:cc:dd:ee:ff",
    bagSend := fun _ =>
      ({ StatusCode := 200, Headers := [],
         Data := { URLBag := { AuthEndpoint := "https://example.com" } } }, none),
    ToUpper := fun s => String.mk (s.data.map upperASCII) }

/-- A request whose payload cannot be serialized. -/
def brokenPayloadRequest : Request :=
  { URL := "https://example.com", Method := "POST", ResponseFormat := ResponseFormatXML,
    Payload := some { data := .error (.new "no data") } }

/-- An XML response with a header of two values and a header of one. -/
def xmlResponse : HttpResponse :=
  { StatusCode := 200, Header := [("Set-Cookie", ["a=1", "b=2"]), ("Pod", ["25"])],
    Body := .ok (ascii "<dict></dict>") }

/-- A lookup store with the country code `US`, whose search answers 200 with
the two apps 7 and 9. -/
def sampleLookupStore : lookupStore Nat :=
  { StoreFronts := fun cc => if cc = "US" then "143441" else "",
    DeviceFamilyPhone := "iPhone",
    DeviceFamilyPad := "iPad",
    ErrInvalidCountryCode := .new "invalid country code",
    ErrInvalidDeviceFamily := .new "invalid device family",
    ErrURL := .new "failed to create URL",
    ErrCreateRequest := .new "failed to create HTTP request",
    ErrRequest := .new "failed to send HTTP request",
    ErrAppNotFound := .new "app not found",
    Encode := fun params => "&".intercalate (params.map (fun kv => kv.1 ++ "=" ++ kv.2)),
    searchSend := fun _ => ({ StatusCode := 200, Headers := [], Data := { Results := [7, 9] } }, none) }

/-! ## White space -/

/-- The UTF-8 forms of the runes `unicode.IsSpace` accepts: the six ASCII
blanks, U+0085, U+00A0, U+1680, U+2000 to U+200A, U+2028, U+2029, U+202F,
U+205F and U+3000. -/
def spaceEncodings : List Bytes :=
  [[0x09], [0x0A], [0x0B], [0x0C], [0x0D], [0x20], [0xC2, 0x85], [0xC2, 0xA0],
   [0xE1, 0x9A, 0x80],
   [0xE2, 0x80, 0x80], [0xE2, 0x80, 0x81], [0xE2, 0x80, 0x82], [0xE2, 0x80, 0x83],
   [0xE2, 0x80, 0x84], [0xE2, 0x80, 0x85], [0xE2, 0x80, 0x86], [0xE2, 0x80, 0x87],
   [0xE2, 0x80, 0x88], [0xE2, 0x80, 0x89], [0xE2, 0x80, 0x8A],
   [0xE2, 0x80, 0xA8], [0xE2, 0x80, 0xA9], [0xE2, 0x80, 0xAF], [0xE2, 0x81, 0x9F],
   [0xE3, 0x80, 0x80]]

/-- A text that consists of white space only (the empty text included). -/
inductive OnlySpace : Bytes → Prop where
  | nil : OnlySpace []
  | cons (e s : Bytes) : e ∈ spaceEncodings → OnlySpace s → OnlySpace (e ++ s)

/-- The text starts with a white-space rune. -/
def LeadingSpace (s : Bytes) : Prop := ∃ e ∈ spaceEncodings, e <+: s

/-- The text ends with a white-space rune. -/
def TrailingSpace (s : Bytes) : Prop := ∃ e ∈ spaceEncodings, e <:+ s

/-- A plist document whose root is an array of two dicts. -/
def arrayPlistBody : Bytes := ascii "<plist><array><dict>a</dict><dict>b</dict></array></plist>"

end Ipatool

namespace Ipatool

/-! ## Facts about errors and headers -/

theorem message_wrap (context : String) (cause : Error) :
    (Error.wrap context cause).message = context ++ ": " ++ cause.message := rfl

theorem containsSubstring_append_left (s t sub : String) (h : containsSubstring s sub) :
    containsSubstring (s ++ t) sub := by
  unfold containsSubstring at *
  rw [String.data_append]
  exact List.IsInfix.trans h (List.infix_append' [] s.data t.data)

theorem header_get_set (h : Header) (key value : String) :
    (h.Set key value).Get key = value := by
  simp [Header.Get, Header.Set, List.lookup]


/-! ## Facts about byte slices -/

theorem stripPrefix_eq_some_iff (p s r : Bytes) : stripPrefix p s = some r ↔ s = p ++ r := by
  induction p generalizing s with
  | nil =>
    simp only [stripPrefix, List.nil_append, Option.some.injEq]
  | cons a p ih =>
    cases s with
    | nil => simp [stripPrefix]
    | cons b s =>
      by_cases h : a = b
      · subst h; simp [stripPrefix, ih]
      · have h2 : ¬ b = a := fun e => h e.symm
        simp [stripPrefix, h, h2]

theorem stripPrefix_append (p r : Bytes) : stripPrefix p (p ++ r) = some r :=
  (stripPrefix_eq_some_iff p (p ++ r) r).2 rfl

theorem trimLeft_lt (s : Bytes) : trimLeft (0x3C :: s) = 0x3C :: s := by
  rcases s with _ | ⟨c, _ | ⟨d, s⟩⟩ <;> simp [trimLeft, asciiSpace]

theorem trimLeftRev_gt (s : Bytes) : trimLeftRev (0x3E :: s) = 0x3E :: s := by
  rcases s with _ | ⟨c, _ | ⟨d, s⟩⟩ <;> simp [trimLeftRev, asciiSpace, spaceAfterC2, spaceAfterE280]

/-- A slice that starts with `<` and ends with `>` has no white space to trim. -/
theorem TrimSpace_tagged (s : Bytes) : TrimSpace (0x3C :: (s ++ [0x3E])) = 0x3C :: (s ++ [0x3E]) := by
  unfold TrimSpace trimRight
  rw [trimLeft_lt]
  have : (0x3C :: (s ++ [0x3E])).reverse = 0x3E :: (0x3C :: s).reverse := by simp
  rw [this, trimLeftRev_gt]
  simp

example : TrimSpace (ascii "<a>") = ascii "<a>" := TrimSpace_tagged (ascii "a")

/-! ## Facts about the matcher -/

theorem starLoop_any_greedy_cons {α : Type} (k : Option Nat → Bytes → Option α)
    (p : Option Nat) (b : Nat) (s : Bytes) :
    starLoop anyChar true k p (b :: s) =
      match starLoop anyChar true k (some b) s with
      | some r => some r
      | none => k p (b :: s) := rfl

theorem starLoop_any_lazy_cons {α : Type} (k : Option Nat → Bytes → Option α)
    (p : Option Nat) (b : Nat) (s : Bytes) :
    starLoop anyChar false k p (b :: s) =
      match k p (b :: s) with
      | some r => some r
      | none => starLoop anyChar false k (some b) s := rfl

theorem starLoop_prev {α : Type} (cls : Nat → Bool) (greedy : Bool)
    (k : Option Nat → Bytes → Option α) (hk : ∀ p q s, k p s = k q s) (s : Bytes) (p q : Option Nat) :
    starLoop cls greedy k p s = starLoop cls greedy k q s := by
  cases s with
  | nil => exact hk p q []
  | cons b s => simp only [starLoop, hk p q (b :: s)]

/-- A greedy `.*` that can finish on a tail of the text finishes the same way
on the whole text. -/
theorem starLoop_greedy_append {α : Type} (k : Option Nat → Bytes → Option α)
    (hk : ∀ p q s, k p s = k q s) (x y : Bytes) (p : Option Nat) (r : α)
    (h : starLoop anyChar true k p y = some r) :
    starLoop anyChar true k p (x ++ y) = some r := by
  induction x generalizing p with
  | nil => exact h
  | cons b x ih =>
    have h2 : starLoop anyChar true k (some b) y = some r := by
      rw [starLoop_prev anyChar true k hk y (some b) p]; exact h
    rw [List.cons_append, starLoop_any_greedy_cons, ih (some b) h2]

/-- A lazy `.*?` skips a stretch of text on which the continuation never
succeeds. -/
theorem starLoop_lazy_append {α : Type} (k : Option Nat → Bytes → Option α)
    (hk : ∀ p q s, k p s = k q s) (x y : Bytes) (p : Option Nat)
    (h : ∀ x1 x2, x = x1 ++ x2 → x2 ≠ [] → k p (x2 ++ y) = none) :
    starLoop anyChar false k p (x ++ y) = starLoop anyChar false k p y := by
  induction x generalizing p with
  | nil => rfl
  | cons b x ih =>
    have h0 : k p (b :: (x ++ y)) = none := h [] (b :: x) rfl (by simp)
    have h1 : ∀ x1 x2, x = x1 ++ x2 → x2 ≠ [] → k (some b) (x2 ++ y) = none := by
      intro x1 x2 e ne
      rw [hk (some b) p]
      exact h (b :: x1) x2 (by rw [e]; rfl) ne
    rw [List.cons_append, starLoop_any_lazy_cons, h0, ih (some b) h1]
    exact starLoop_prev anyChar false k hk y (some b) p

theorem matchHere_literal_prev (r : Nat) (ns : Regexp) (p q : Option Nat) (s : Bytes) :
    matchHere (.literal r :: ns) p s = matchHere (.literal r :: ns) q s := by
  simp only [matchHere]


/-! ## Steps of the normalizer that find nothing -/

theorem find_of_not_match (re : Regexp) (b : Bytes) (h : re.Match b = false) : re.Find b = [] := by
  unfold Regexp.Match at h
  unfold Regexp.Find
  cases hf : findAt re none b with
  | none => rfl
  | some m => rw [hf] at h; simp at h

theorem findSubmatch_of_not_match (re : Regexp) (b : Bytes) (h : re.Match b = false) :
    re.FindSubmatch b = [] := by
  unfold Regexp.Match at h
  unfold Regexp.FindSubmatch
  cases hf : findAt re none b with
  | none => rfl
  | some m => rw [hf] at h; simp at h

theorem extractDocumentInnerBody_of_not_match (b : Bytes)
    (h : documentXMLPattern.Match b = false) : extractDocumentInnerBody b = [] := by
  simp [extractDocumentInnerBody, findSubmatch_of_not_match _ _ h]

theorem extractEmbeddedPlist_of_not_match (b : Bytes)
    (h : plistXMLPattern.Match b = false) : extractEmbeddedPlist b = [] := by
  simp [extractEmbeddedPlist, find_of_not_match _ _ h]

theorem extractEmbeddedDict_of_not_match (b : Bytes)
    (h : dictXMLPattern.Match b = false) : extractEmbeddedDict b = [] := by
  simp [extractEmbeddedDict, find_of_not_match _ _ h]

/-- The normalizer on a non-empty trimmed body whose Document and plist steps
find nothing: the dict step and the two fallbacks run on the trimmed body. -/
theorem normalize_of_no_wrapper (body : Bytes) (hne : TrimSpace body ≠ [])
    (hd : extractDocumentInnerBody (TrimSpace body) = [])
    (hp : extractEmbeddedPlist (TrimSpace body) = []) :
    normalizeXMLPlistBody body =
      if 0 < (extractEmbeddedDict (TrimSpace body)).length then extractEmbeddedDict (TrimSpace body)
      else if Contains (TrimSpace body) (ascii "<key>") then
        ascii "<dict>" ++ TrimSpace body ++ ascii "</dict>"
      else TrimSpace body := by
  have hlen : (TrimSpace body).length ≠ 0 := by
    intro h; exact hne (List.length_eq_zero.mp h)
  unfold normalizeXMLPlistBody
  simp only [hlen, if_false, hd, hp, List.length_nil, Nat.lt_irrefl]

/-! ## C4: a raw fragment is wrapped -/

/-- C4: a body whose trimmed form contains `<key>` and matches none of the
three patterns is returned as `<dict>`, the trimmed form, `</dict>`. -/
theorem raw_fragment_wrapped (body : Bytes)
    (hk : Contains (TrimSpace body) (ascii "<key>") = true)
    (hd : documentXMLPattern.Match (TrimSpace body) = false)
    (hp : plistXMLPattern.Match (TrimSpace body) = false)
    (hdict : dictXMLPattern.Match (TrimSpace body) = false) :
    normalizeXMLPlistBody body = ascii "<dict>" ++ TrimSpace body ++ ascii "</dict>" := by
  have hne : TrimSpace body ≠ [] := by
    intro h
    rw [h] at hk
    revert hk
    decide
  rw [normalize_of_no_wrapper body hne (extractDocumentInnerBody_of_not_match _ hd)
    (extractEmbeddedPlist_of_not_match _ hp), extractEmbeddedDict_of_not_match _ hdict]
  simp [hk]

set_option maxRecDepth 100000 in
/-- Witness of `raw_fragment_wrapped`: the body `<key>x</key><string>y</string>`. -/
theorem raw_fragment_wrapped_witness :
    Contains (TrimSpace (ascii "<key>x</key><string>y</string>")) (ascii "<key>") = true ∧
      documentXMLPattern.Match (TrimSpace (ascii "<key>x</key><string>y</string>")) = false ∧
      plistXMLPattern.Match (TrimSpace (ascii "<key>x</key><string>y</string>")) = false ∧
      dictXMLPattern.Match (TrimSpace (ascii "<key>x</key><string>y</string>")) = false ∧
      normalizeXMLPlistBody (ascii "<key>x</key><string>y</string>")
        = ascii "<dict><key>x</key><string>y</string></dict>" := by
  refine ⟨by decide, by decide, by decide, by decide, ?_⟩
  have h := raw_fragment_wrapped (ascii "<key>x</key><string>y</string>")
    (by decide) (by decide) (by decide) (by decide)
  rw [h]
  decide


/-! ## C5: a bare dict passes through -/

theorem ascii_dict_open : ascii "<dict>" = [0x3C, 0x64, 0x69, 0x63, 0x74, 0x3E] := by decide

theorem ascii_dict_close : ascii "</dict>" = [0x3C, 0x2F, 0x64, 0x69, 0x63, 0x74, 0x3E] := by decide

/-- A slice that starts with `<dict>` and ends with `</dict>` holds the two
tags one after the other: they cannot overlap. -/
theorem dict_tags_apart (t : Bytes) (hs : ascii "<dict>" <+: t) (he : ascii "</dict>" <:+ t) :
    ∃ x, t = ascii "<dict>" ++ x ++ ascii "</dict>" := by
  obtain ⟨u, hu⟩ := hs
  obtain ⟨v, hv⟩ := he
  rw [ascii_dict_open] at hu ⊢
  rw [ascii_dict_close] at hv ⊢
  have h := hu.trans hv.symm
  rcases List.append_eq_append_iff.mp h with ⟨a, ha, hb⟩ | ⟨c, hc, hd⟩
  · exact ⟨a, by rw [← hu, hb]; simp⟩
  · rcases c with _ | ⟨c0, c⟩
    · refine ⟨[], ?_⟩
      simp at hc hd
      rw [← hu, ← hd]
      simp
    · exfalso
      rcases v with _ | ⟨v0, _ | ⟨v1, _ | ⟨v2, _ | ⟨v3, _ | ⟨v4, _ | ⟨v5, v⟩⟩⟩⟩⟩⟩ <;>
        simp at hc <;> simp at hd <;>
        first
          | omega
          | (obtain ⟨_, rfl⟩ := hc
             simp at hd)

theorem lit_dict_open : lit "<dict" =
    [.literal 0x3C, .literal 0x64, .literal 0x69, .literal 0x63, .literal 0x74] := rfl

theorem lit_gt : lit ">" = [.literal 0x3E] := rfl

theorem matchHere_open_dict (rest : Regexp) (p : Option Nat) (x : Bytes) :
    matchHere (lit "<dict" ++ [.wordBoundary, .star notGt true] ++ lit ">" ++ rest) p
        (ascii "<dict>" ++ x)
      = matchHere rest (some 0x3E) x := by
  rw [lit_dict_open, lit_gt, ascii_dict_open]
  simp [matchHere, firstAlt, foldEncodings, stripPrefix, isWordAt, isWordChar, starLoop, notGt]
  cases matchHere rest (some 62) x <;> rfl

theorem matchHere_dict_bare (p : Option Nat) (x : Bytes) :
    matchHere dictXMLPattern p (ascii "<dict>" ++ x ++ ascii "</dict>") = some [[]] := by
  have hk : ∀ (p q : Option Nat) (s : Bytes),
      (fun p t => matchHere (lit "</dict>") p t) p s
        = (fun p t => matchHere (lit "</dict>") p t) q s := by
    intro p q s
    exact matchHere_literal_prev _ _ p q s
  have hy : starLoop anyChar true (fun p t => matchHere (lit "</dict>") p t) (some 0x3E)
      (ascii "</dict>") = some [[]] := by decide
  have h := starLoop_greedy_append _ hk x (ascii "</dict>") (some 0x3E) [[]] hy
  unfold dictXMLPattern
  rw [List.append_assoc (ascii "<dict>"), List.append_assoc _ _ (lit "</dict>"), matchHere_open_dict]
  exact h

theorem span_nil (s : Bytes) : span s [] = s := by simp [span]

theorem span_append (m rest : Bytes) : span (m ++ rest) rest = m := by simp [span]

/-- When the pattern matches at the very start of a non-empty text, `Find`
returns the text up to the remainder of that match. -/
theorem find_of_matchHere (re : Regexp) (b : Nat) (s : Bytes) (rest : Bytes) (ms : List Bytes)
    (h : matchHere re none (b :: s) = some (rest :: ms)) :
    re.Find (b :: s) = span (b :: s) rest := by
  simp [Regexp.Find, findAt, h]

theorem find_dict_bare (x : Bytes) :
    dictXMLPattern.Find (ascii "<dict>" ++ x ++ ascii "</dict>")
      = ascii "<dict>" ++ x ++ ascii "</dict>" := by
  have h := matchHere_dict_bare none x
  have hc : ascii "<dict>" ++ x ++ ascii "</dict>"
      = 0x3C :: ([0x64, 0x69, 0x63, 0x74, 0x3E] ++ x ++ ascii "</dict>") := by
    rw [ascii_dict_open]; rfl
  rw [hc] at h ⊢
  rw [find_of_matchHere _ _ _ _ _ h, span_nil]

theorem trimSpace_dict_bare (x : Bytes) :
    TrimSpace (ascii "<dict>" ++ x ++ ascii "</dict>") = ascii "<dict>" ++ x ++ ascii "</dict>" := by
  have hc : ascii "<dict>" ++ x ++ ascii "</dict>"
      = 0x3C :: (([0x64, 0x69, 0x63, 0x74, 0x3E] ++ x ++ [0x3C, 0x2F, 0x64, 0x69, 0x63, 0x74])
          ++ [0x3E]) := by
    rw [ascii_dict_open, ascii_dict_close]; simp
  rw [hc]
  exact TrimSpace_tagged _

theorem extractEmbeddedDict_bare (x : Bytes) :
    extractEmbeddedDict (ascii "<dict>" ++ x ++ ascii "</dict>")
      = ascii "<dict>" ++ x ++ ascii "</dict>" := by
  unfold extractEmbeddedDict
  simp only [find_dict_bare, trimSpace_dict_bare]
  rw [ascii_dict_open]
  simp

/-- C5: a body whose trimmed form starts with `<dict>`, ends with `</dict>` and
matches neither the Document pattern nor the plist pattern is returned as that
trimmed form, whatever lies between the two tags, nested dicts included. -/
theorem bare_dict_passthrough (body : Bytes)
    (hs : ascii "<dict>" <+: TrimSpace body) (he : ascii "</dict>" <:+ TrimSpace body)
    (hd : documentXMLPattern.Match (TrimSpace body) = false)
    (hp : plistXMLPattern.Match (TrimSpace body) = false) :
    normalizeXMLPlistBody body = TrimSpace body := by
  obtain ⟨x, hx⟩ := dict_tags_apart _ hs he
  have hne : TrimSpace body ≠ [] := by
    rw [hx, ascii_dict_open]; simp
  rw [normalize_of_no_wrapper body hne (extractDocumentInnerBody_of_not_match _ hd)
    (extractEmbeddedPlist_of_not_match _ hp)]
  rw [hx, extractEmbeddedDict_bare]
  have hlen : 0 < (ascii "<dict>" ++ x ++ ascii "</dict>").length := by
    rw [ascii_dict_open]; simp
  simp only [hlen, if_true]

set_option maxRecDepth 100000 in
/-- Witness of `bare_dict_passthrough`: a dict that holds a nested dict, with
white space around it. -/
theorem bare_dict_passthrough_witness :
    ascii "<dict>" <+: TrimSpace (ascii " <dict><key>a</key><dict><key>x</key><string>y</string></dict></dict>\n") ∧
      ascii "</dict>" <:+ TrimSpace (ascii " <dict><key>a</key><dict><key>x</key><string>y</string></dict></dict>\n") ∧
      normalizeXMLPlistBody (ascii " <dict><key>a</key><dict><key>x</key><string>y</string></dict></dict>\n")
        = ascii "<dict><key>a</key><dict><key>x</key><string>y</string></dict></dict>" := by
  have h1 : ascii "<dict>" <+: TrimSpace (ascii " <dict><key>a</key><dict><key>x</key><string>y</string></dict></dict>\n") := by
    decide
  have h2 : ascii "</dict>" <:+ TrimSpace (ascii " <dict><key>a</key><dict><key>x</key><string>y</string></dict></dict>\n") := by
    decide
  refine ⟨h1, h2, ?_⟩
  rw [bare_dict_passthrough _ h1 h2 (by decide) (by decide)]
  decide


/-! ## C3: the Document wrapper is removed -/

theorem ascii_document_open :
    ascii "<Document>" = [0x3C, 0x44, 0x6F, 0x63, 0x75, 0x6D, 0x65, 0x6E, 0x74, 0x3E] := by decide

theorem ascii_plist_open : ascii "<plist>" = [0x3C, 0x70, 0x6C, 0x69, 0x73, 0x74, 0x3E] := by decide

theorem ascii_plist_close :
    ascii "</plist>" = [0x3C, 0x2F, 0x70, 0x6C, 0x69, 0x73, 0x74, 0x3E] := by decide

theorem ascii_document_close :
    ascii "</Document>" = [0x3C, 0x2F, 0x44, 0x6F, 0x63, 0x75, 0x6D, 0x65, 0x6E, 0x74, 0x3E] := by
  decide

theorem lit_document_open : lit "<Document" =
    [.literal 0x3C, .literal 0x44, .literal 0x6F, .literal 0x63, .literal 0x75, .literal 0x6D,
     .literal 0x65, .literal 0x6E, .literal 0x74] := rfl

theorem lit_plist_open : lit "<plist" =
    [.literal 0x3C, .literal 0x70, .literal 0x6C, .literal 0x69, .literal 0x73, .literal 0x74] := rfl

theorem lit_plist_close : lit "</plist>" =
    [.literal 0x3C, .literal 0x2F, .literal 0x70, .literal 0x6C, .literal 0x69, .literal 0x73,
     .literal 0x74, .literal 0x3E] := rfl

theorem matchHere_open_document (rest : Regexp) (p : Option Nat) (x : Bytes) :
    matchHere (lit "<Document" ++ [.wordBoundary, .star notGt true] ++ lit ">" ++ rest) p
        (ascii "<Document>" ++ x)
      = matchHere rest (some 0x3E) x := by
  rw [lit_document_open, lit_gt, ascii_document_open]
  simp [matchHere, firstAlt, foldEncodings, stripPrefix, isWordAt, isWordChar, starLoop, notGt]
  cases matchHere rest (some 62) x <;> rfl

theorem matchHere_open_plist (rest : Regexp) (p : Option Nat) (x : Bytes) :
    matchHere (lit "<plist" ++ [.wordBoundary, .star notGt true] ++ lit ">" ++ rest) p
        (ascii "<plist>" ++ x)
      = matchHere rest (some 0x3E) x := by
  rw [lit_plist_open, lit_gt, ascii_plist_open]
  simp [matchHere, firstAlt, foldEncodings, stripPrefix, isWordAt, isWordChar, starLoop, notGt]
  cases matchHere rest (some 62) x <;> rfl


/-- Which alternative of a folded literal let the match go on. -/
theorem firstAlt_some {α : Type} (k : Option Nat → Bytes → Option α) (s : Bytes)
    (encs : List Bytes) (m : α) (h : firstAlt k s encs = some m) :
    ∃ enc ∈ encs, ∃ rest, s = enc ++ rest ∧ k enc.getLast? rest = some m := by
  induction encs with
  | nil => simp [firstAlt] at h
  | cons enc encs ih =>
    unfold firstAlt at h
    cases hs : stripPrefix enc s with
    | none =>
      rw [hs] at h
      obtain ⟨e, he, rest, h1, h2⟩ := ih h
      exact ⟨e, List.mem_cons_of_mem _ he, rest, h1, h2⟩
    | some rest =>
      rw [hs] at h
      simp only [] at h
      cases hk : k enc.getLast? rest with
      | none =>
        rw [hk] at h
        obtain ⟨e, he, rest2, h1, h2⟩ := ih h
        exact ⟨e, List.mem_cons_of_mem _ he, rest2, h1, h2⟩
      | some m2 =>
        rw [hk] at h
        simp only [Option.some.injEq] at h
        subst h
        exact ⟨enc, List.mem_cons_self _ _, rest, (stripPrefix_eq_some_iff _ _ _).1 hs, hk⟩

/-- An alternative that strips and lets the match go on makes the literal match. -/
theorem firstAlt_isSome {α : Type} (k : Option Nat → Bytes → Option α) (s : Bytes)
    (encs : List Bytes) (enc rest : Bytes) (he : enc ∈ encs) (hs : s = enc ++ rest)
    (hk : (k enc.getLast? rest).isSome = true) : (firstAlt k s encs).isSome = true := by
  induction encs with
  | nil => simp at he
  | cons e encs ih =>
    unfold firstAlt
    cases hse : stripPrefix e s with
    | none =>
      simp only []
      rcases List.mem_cons.mp he with rfl | h2
      · rw [hs, stripPrefix_append] at hse
        simp at hse
      · exact ih h2
    | some r =>
      simp only []
      cases hkr : k e.getLast? r with
      | some m => rfl
      | none =>
        simp only []
        rcases List.mem_cons.mp he with rfl | h2
        · have : r = rest := by
            have := (stripPrefix_eq_some_iff _ _ _).1 hse
            rw [hs] at this
            exact (List.append_cancel_left this).symm
          subst this
          rw [hkr] at hk
          simp at hk
        · exact ih h2

/-- Only the literal `<` itself has `<` among the bytes of its folded forms. -/
theorem foldEncodings_lt (r : Nat) (enc : Bytes) (he : enc ∈ foldEncodings r)
    (h : 0x3C ∈ enc) : r = 0x3C := by
  unfold foldEncodings at he
  simp only at he
  repeat' split at he
  all_goals simp at he
  all_goals
    first
      | (subst he; simp at h; omega)
      | (rcases he with rfl | rfl <;> simp at h <;> omega)
      | (rcases he with rfl | rfl | rfl <;> simp at h <;> omega)


/-- A run of literals none of which is `<` never reads past a `<` of the text:
if it matches in front of one, it matches without what follows. -/
theorem literals_stop_at_lt (rs : List Nat) (hrs : ∀ r ∈ rs, r ≠ 0x3C) (u v : Bytes)
    (p : Option Nat)
    (h : (matchHere (rs.map Node.literal) p (u ++ 0x3C :: v)).isSome = true) :
    (matchHere (rs.map Node.literal) p u).isSome = true := by
  induction rs generalizing u p with
  | nil => rfl
  | cons r rs ih =>
    simp only [List.map, matchHere] at h ⊢
    cases hf : firstAlt (fun p t => matchHere (List.map Node.literal rs) p t) (u ++ 0x3C :: v)
        (foldEncodings r) with
    | none => rw [hf] at h; simp at h
    | some m =>
      obtain ⟨enc, he, rest, h1, h2⟩ := firstAlt_some _ _ _ _ hf
      have hr : r ≠ 0x3C := hrs r (List.mem_cons_self _ _)
      have hno : 0x3C ∉ enc := fun hmem => hr (foldEncodings_lt r enc he hmem)
      rcases List.append_eq_append_iff.mp h1 with ⟨a, ha, hb⟩ | ⟨c, hc, hd⟩
      · rcases a with _ | ⟨a0, a⟩
        · simp only [List.append_nil] at ha
          simp only [List.nil_append] at hb
          subst ha
          refine firstAlt_isSome _ _ _ enc [] he (by simp) ?_
          have := ih (fun x hx => hrs x (List.mem_cons_of_mem _ hx)) [] enc.getLast?
            (by rw [List.nil_append, hb, h2]; rfl)
          exact this
        · exfalso
          simp only [List.cons_append, List.cons.injEq] at hb
          apply hno
          rw [ha, ← hb.1]
          simp
      · refine firstAlt_isSome _ _ _ enc c he hc ?_
        have := ih (fun x hx => hrs x (List.mem_cons_of_mem _ hx)) c enc.getLast?
          (by rw [← hd, h2]; rfl)
        exact this


theorem findAt_cons (re : Regexp) (p : Option Nat) (b : Nat) (s : Bytes) :
    findAt re p (b :: s) =
      match matchHere re p (b :: s) with
      | some m => some (b :: s, m)
      | none => findAt re (some b) s := rfl

theorem findAt_nil (re : Regexp) (p : Option Nat) :
    findAt re p [] = (matchHere re p []).map (fun m => ([], m)) := rfl

/-- A pattern that finds nothing in a text matches at none of its positions. -/
theorem matchHere_none_of_findAt_none (re : Regexp)
    (hre : ∀ p q s, matchHere re p s = matchHere re q s) (x1 x2 : Bytes) (p q : Option Nat)
    (h : findAt re p (x1 ++ x2) = none) : matchHere re q x2 = none := by
  induction x1 generalizing p with
  | nil =>
    cases x2 with
    | nil =>
      rw [List.nil_append, findAt_nil, Option.map_eq_none'] at h
      rw [hre q p]; exact h
    | cons b x2 =>
      rw [List.nil_append, findAt_cons] at h
      cases hm : matchHere re p (b :: x2) with
      | none => rw [hre q p]; exact hm
      | some m => rw [hm] at h; simp at h
  | cons b x1 ih =>
    rw [List.cons_append, findAt_cons] at h
    cases hm : matchHere re p (b :: (x1 ++ x2)) with
    | none =>
      rw [hm] at h
      exact ih (some b) h
    | some m => rw [hm] at h; simp at h

theorem noHit_nil {α : Type} (k : Bytes → Option α) (y : Bytes) : NoHit k [] y := by
  intro x1 x2 e ne
  have := List.append_eq_nil.mp e.symm
  exact absurd this.2 ne

theorem noHit_cons {α : Type} (k : Bytes → Option α) (b : Nat) (x y : Bytes)
    (h0 : k (b :: (x ++ y)) = none) (h : NoHit k x y) : NoHit k (b :: x) y := by
  intro x1 x2 e ne
  rcases x1 with _ | ⟨c, x1⟩
  · simp only [List.nil_append] at e
    subst e
    exact h0
  · simp only [List.cons_append, List.cons.injEq] at e
    exact h x1 x2 e.2 ne

theorem noHit_append {α : Type} (k : Bytes → Option α) (a b y : Bytes)
    (ha : NoHit k a (b ++ y)) (hb : NoHit k b y) : NoHit k (a ++ b) y := by
  intro x1 x2 e ne
  rcases List.append_eq_append_iff.mp e with ⟨c, hc, hd⟩ | ⟨c, hc, hd⟩
  · -- `x1 = a ++ c`, `b = c ++ x2`
    exact hb c x2 hd ne
  · -- `a = x1 ++ c`, `x2 = c ++ b`
    rcases c with _ | ⟨c0, c⟩
    · simp only [List.nil_append] at hd
      subst hd
      exact hb [] x2 rfl ne
    · rw [hd, List.append_assoc]
      exact ha x1 (c0 :: c) hc (by simp)

theorem closeTag_plist : closeTag "plist" = lit "</plist>" := rfl

theorem noHit_plist_close_dict_open (p : Option Nat) (y : Bytes) :
    NoHit (fun t => matchHere (lit "</plist>") p t) (ascii "<dict>") y := by
  rw [ascii_dict_open, lit_plist_close]
  repeat' apply noHit_cons
  all_goals first
    | exact noHit_nil _ _
    | simp [matchHere, firstAlt, foldEncodings, stripPrefix]

theorem noHit_plist_close_dict_close (p : Option Nat) :
    NoHit (fun t => matchHere (lit "</plist>") p t) (ascii "</dict>") (ascii "</plist>") := by
  rw [ascii_dict_close, lit_plist_close, ascii_plist_close]
  repeat' apply noHit_cons
  all_goals first
    | exact noHit_nil _ _
    | simp [matchHere, firstAlt, foldEncodings, stripPrefix]


theorem foldEncodings_lt_self : foldEncodings 0x3C = [[0x3C]] := by decide

/-- A closing tag never reads past the `<` that follows a non-empty text: if it
matches in front of that `<`, it matches without it. -/
theorem closing_stops_at_lt (rs : List Nat) (hrs : ∀ r ∈ rs, r ≠ 0x3C) (u v : Bytes)
    (hu : u ≠ []) (p : Option Nat)
    (h : (matchHere ((0x3C :: rs).map Node.literal) p (u ++ 0x3C :: v)).isSome = true) :
    (matchHere ((0x3C :: rs).map Node.literal) p u).isSome = true := by
  simp only [List.map, matchHere] at h ⊢
  cases hf : firstAlt (fun p t => matchHere (List.map Node.literal rs) p t) (u ++ 0x3C :: v)
      (foldEncodings 0x3C) with
  | none => rw [hf] at h; simp at h
  | some m =>
    obtain ⟨enc, he, rest, h1, h2⟩ := firstAlt_some _ _ _ _ hf
    rw [foldEncodings_lt_self] at he
    simp only [List.mem_singleton] at he
    subst he
    rcases u with _ | ⟨b, u⟩
    · exact absurd rfl hu
    · simp only [List.cons_append, List.nil_append, List.cons.injEq] at h1
      obtain ⟨hb, hrest⟩ := h1
      subst hb
      refine firstAlt_isSome _ _ _ [0x3C] u (by rw [foldEncodings_lt_self]; simp) rfl ?_
      exact literals_stop_at_lt rs hrs u v _ (by rw [hrest, h2]; rfl)

theorem matchHere_lit_prev (s : String) (p q : Option Nat) (t : Bytes)
    (h : ascii s ≠ []) : matchHere (lit s) p t = matchHere (lit s) q t := by
  unfold lit
  rcases hs : ascii s with _ | ⟨r, rs⟩
  · exact absurd hs h
  · exact matchHere_literal_prev r _ p q t

/-- In a text without a closing plist tag, followed by a `<`, the closing tag
matches at no position. -/
theorem noHit_plist_close_inner (inner v : Bytes) (p : Option Nat)
    (h : (closeTag "plist").Match inner = false) :
    NoHit (fun t => matchHere (lit "</plist>") p t) inner (0x3C :: v) := by
  intro x1 x2 e ne
  have hnone : matchHere (lit "</plist>") p x2 = none := by
    apply matchHere_none_of_findAt_none (lit "</plist>")
      (fun p q s => matchHere_lit_prev "</plist>" p q s (by decide)) x1 x2 none p
    unfold Regexp.Match at h
    rw [closeTag_plist, e] at h
    cases hf : findAt (lit "</plist>") none (x1 ++ x2) with
    | none => rfl
    | some m => rw [hf] at h; simp at h
  cases hm : matchHere (lit "</plist>") p (x2 ++ 0x3C :: v) with
  | none => exact hm
  | some m =>
    exfalso
    have hs := closing_stops_at_lt [0x2F, 0x70, 0x6C, 0x69, 0x73, 0x74, 0x3E] (by decide)
      x2 v ne p (by
        have : lit "</plist>" = (0x3C :: [0x2F, 0x70, 0x6C, 0x69, 0x73, 0x74, 0x3E]).map
          Node.literal := rfl
        rw [← this, hm]; rfl)
    have : lit "</plist>" = (0x3C :: [0x2F, 0x70, 0x6C, 0x69, 0x73, 0x74, 0x3E]).map
      Node.literal := rfl
    rw [← this, hnone] at hs
    simp at hs


theorem findAt_prev (re : Regexp) (hre : ∀ p q s, matchHere re p s = matchHere re q s)
    (s : Bytes) (p q : Option Nat) : findAt re p s = findAt re q s := by
  cases s with
  | nil => rw [findAt_nil, findAt_nil, hre p q]
  | cons b s => rw [findAt_cons, findAt_cons, hre p q]

/-- The search skips a stretch of text in which the pattern matches nowhere. -/
theorem findAt_skip (re : Regexp) (hre : ∀ p q s, matchHere re p s = matchHere re q s)
    (pre s : Bytes) (p : Option Nat)
    (h : NoHit (fun t => matchHere re none t) pre s) :
    findAt re p (pre ++ s) = findAt re none s := by
  induction pre generalizing p with
  | nil => exact findAt_prev re hre s p none
  | cons b pre ih =>
    have h0 : matchHere re p (b :: (pre ++ s)) = none := by
      rw [hre p none]
      exact h [] (b :: pre) rfl (by simp)
    have h1 : NoHit (fun t => matchHere re none t) pre s := by
      intro x1 x2 e ne
      exact h (b :: x1) x2 (by rw [e]; rfl) ne
    rw [List.cons_append, findAt_cons, h0]
    exact ih (some b) h1

theorem dictXMLPattern_prev (p q : Option Nat) (s : Bytes) :
    matchHere dictXMLPattern p s = matchHere dictXMLPattern q s := by
  unfold dictXMLPattern
  rw [lit_dict_open]
  exact matchHere_literal_prev _ _ p q s

theorem noHit_dict_plist_open (y : Bytes) :
    NoHit (fun t => matchHere dictXMLPattern none t) (ascii "<plist>") y := by
  unfold dictXMLPattern
  rw [ascii_plist_open, lit_dict_open]
  repeat' apply noHit_cons
  all_goals first
    | exact noHit_nil _ _
    | simp [matchHere, firstAlt, foldEncodings, stripPrefix]

theorem document_greedy_tail :
    starLoop anyChar true (fun p t => matchHere (.mark :: lit "</Document>") p t) (some 0x3E)
      (ascii "</Document>") = some [[], ascii "</Document>"] := by decide

theorem plist_lazy_tail :
    starLoop anyChar false (fun p t => matchHere (lit "</plist>") p t) (some 0x3E)
      (ascii "</plist>") = some [[]] := by decide

theorem dict_greedy_tail :
    starLoop anyChar true (fun p t => matchHere (lit "</dict>") p t) (some 0x3E)
      (ascii "</dict>" ++ ascii "</plist>") = some [ascii "</plist>"] := by decide

/-- The Document step on `<Document>`, a text, `</Document>` captures the text. -/
theorem matchHere_document_wrapped (x : Bytes) :
    matchHere documentXMLPattern none (ascii "<Document>" ++ x ++ ascii "</Document>")
      = some [[], ascii "</Document>", x ++ ascii "</Document>"] := by
  have hk : ∀ (p q : Option Nat) (s : Bytes),
      (fun p t => matchHere (.mark :: lit "</Document>") p t) p s
        = (fun p t => matchHere (.mark :: lit "</Document>") p t) q s := by
    intro p q s
    show matchHere (.mark :: lit "</Document>") p s = matchHere (.mark :: lit "</Document>") q s
    simp only [matchHere]
  have h := starLoop_greedy_append _ hk x (ascii "</Document>") (some 0x3E) _ document_greedy_tail
  unfold documentXMLPattern
  rw [List.append_assoc (ascii "<Document>"), List.append_assoc _ _ (lit "</Document>"),
    matchHere_open_document]
  show Option.map (fun m => m ++ [x ++ ascii "</Document>"])
    (starLoop anyChar true (fun p t => matchHere (.mark :: lit "</Document>") p t) (some 0x3E)
      (x ++ ascii "</Document>")) = _
  rw [h]
  rfl


theorem span_cons_nil (b : Nat) (s : Bytes) : span (b :: s) [] = b :: s := span_nil _

theorem extractDocumentInnerBody_wrapped (x : Bytes) :
    extractDocumentInnerBody
        (ascii "<Document>" ++ (ascii "<plist>" ++ x ++ ascii "</plist>") ++ ascii "</Document>")
      = ascii "<plist>" ++ x ++ ascii "</plist>" := by
  have hm := matchHere_document_wrapped (ascii "<plist>" ++ x ++ ascii "</plist>")
  have hc : ascii "<Document>" ++ (ascii "<plist>" ++ x ++ ascii "</plist>") ++ ascii "</Document>"
      = 0x3C :: ([0x44, 0x6F, 0x63, 0x75, 0x6D, 0x65, 0x6E, 0x74, 0x3E] ++
          (ascii "<plist>" ++ x ++ ascii "</plist>") ++ ascii "</Document>") := by
    rw [ascii_document_open]; rfl
  have hf : documentXMLPattern.FindSubmatch
      (ascii "<Document>" ++ (ascii "<plist>" ++ x ++ ascii "</plist>") ++ ascii "</Document>")
      = [ascii "<Document>" ++ (ascii "<plist>" ++ x ++ ascii "</plist>") ++ ascii "</Document>",
         ascii "<plist>" ++ x ++ ascii "</plist>"] := by
    rw [hc] at hm ⊢
    simp only [Regexp.FindSubmatch, findAt_cons, hm, List.headD, List.tail, groups, span_nil,
      span_append, List.nil_append]
  have ht : TrimSpace (ascii "<plist>" ++ x ++ ascii "</plist>")
      = ascii "<plist>" ++ x ++ ascii "</plist>" := by
    have hx : ascii "<plist>" ++ x ++ ascii "</plist>"
        = 0x3C :: (([0x70, 0x6C, 0x69, 0x73, 0x74, 0x3E] ++ x ++
            [0x3C, 0x2F, 0x70, 0x6C, 0x69, 0x73, 0x74]) ++ [0x3E]) := by
      rw [ascii_plist_open, ascii_plist_close]; simp
    rw [hx]
    exact TrimSpace_tagged _
  unfold extractDocumentInnerBody
  simp only [hf, List.getD, List.get?, Option.getD, ht]
  rw [ascii_plist_open]
  simp


theorem trimSpace_plist_wrapped (x : Bytes) :
    TrimSpace (ascii "<plist>" ++ x ++ ascii "</plist>")
      = ascii "<plist>" ++ x ++ ascii "</plist>" := by
  have hx : ascii "<plist>" ++ x ++ ascii "</plist>"
      = 0x3C :: (([0x70, 0x6C, 0x69, 0x73, 0x74, 0x3E] ++ x ++
          [0x3C, 0x2F, 0x70, 0x6C, 0x69, 0x73, 0x74]) ++ [0x3E]) := by
    rw [ascii_plist_open, ascii_plist_close]; simp
  rw [hx]
  exact TrimSpace_tagged _

/-- The plist step on `<plist>`, a dict without a closing plist tag inside,
`</plist>` keeps the whole text. -/
theorem extractEmbeddedPlist_wrapped (inner : Bytes)
    (h : (closeTag "plist").Match inner = false) :
    extractEmbeddedPlist
        (ascii "<plist>" ++ (ascii "<dict>" ++ inner ++ ascii "</dict>") ++ ascii "</plist>")
      = ascii "<plist>" ++ (ascii "<dict>" ++ inner ++ ascii "</dict>") ++ ascii "</plist>" := by
  have hk : ∀ (p q : Option Nat) (s : Bytes),
      (fun p t => matchHere (lit "</plist>") p t) p s
        = (fun p t => matchHere (lit "</plist>") p t) q s :=
    fun p q s => matchHere_lit_prev "</plist>" p q s (by decide)
  have hno : NoHit (fun t => matchHere (lit "</plist>") (some 0x3E) t)
      (ascii "<dict>" ++ inner ++ ascii "</dict>") (ascii "</plist>") := by
    apply noHit_append
    · apply noHit_append
      · exact noHit_plist_close_dict_open _ _
      · have := noHit_plist_close_inner inner
          ([0x2F, 0x64, 0x69, 0x63, 0x74, 0x3E] ++ ascii "</plist>") (some 0x3E) h
        rw [ascii_dict_close]
        exact this
    · exact noHit_plist_close_dict_close _
  have hm : matchHere plistXMLPattern none
      (ascii "<plist>" ++ (ascii "<dict>" ++ inner ++ ascii "</dict>") ++ ascii "</plist>")
      = some [[]] := by
    unfold plistXMLPattern
    rw [List.append_assoc (ascii "<plist>"), List.append_assoc _ _ (lit "</plist>"),
      matchHere_open_plist]
    show starLoop anyChar false (fun p t => matchHere (lit "</plist>") p t) (some 0x3E)
      ((ascii "<dict>" ++ inner ++ ascii "</dict>") ++ ascii "</plist>") = _
    rw [starLoop_lazy_append _ hk _ _ _ hno]
    exact plist_lazy_tail
  have hc : ascii "<plist>" ++ (ascii "<dict>" ++ inner ++ ascii "</dict>") ++ ascii "</plist>"
      = 0x3C :: ([0x70, 0x6C, 0x69, 0x73, 0x74, 0x3E] ++
          (ascii "<dict>" ++ inner ++ ascii "</dict>") ++ ascii "</plist>") := by
    rw [ascii_plist_open]; rfl
  have hf : plistXMLPattern.Find
      (ascii "<plist>" ++ (ascii "<dict>" ++ inner ++ ascii "</dict>") ++ ascii "</plist>")
      = ascii "<plist>" ++ (ascii "<dict>" ++ inner ++ ascii "</dict>") ++ ascii "</plist>" := by
    rw [hc] at hm ⊢
    rw [find_of_matchHere _ _ _ _ _ hm, span_nil]
  unfold extractEmbeddedPlist
  simp only [hf, trimSpace_plist_wrapped]
  rw [ascii_plist_open]
  simp

/-- The dict step on `<plist>`, a dict, `</plist>` returns the dict. -/
theorem extractEmbeddedDict_in_plist (inner : Bytes) :
    extractEmbeddedDict
        (ascii "<plist>" ++ (ascii "<dict>" ++ inner ++ ascii "</dict>") ++ ascii "</plist>")
      = ascii "<dict>" ++ inner ++ ascii "</dict>" := by
  have hk : ∀ (p q : Option Nat) (s : Bytes),
      (fun p t => matchHere (lit "</dict>") p t) p s
        = (fun p t => matchHere (lit "</dict>") p t) q s :=
    fun p q s => matchHere_lit_prev "</dict>" p q s (by decide)
  have hm : matchHere dictXMLPattern none
      (ascii "<dict>" ++ (inner ++ (ascii "</dict>" ++ ascii "</plist>")))
      = some [ascii "</plist>"] := by
    unfold dictXMLPattern
    rw [List.append_assoc _ _ (lit "</dict>"), matchHere_open_dict]
    exact starLoop_greedy_append _ hk inner _ (some 0x3E) _ dict_greedy_tail
  have hc : ascii "<dict>" ++ (inner ++ (ascii "</dict>" ++ ascii "</plist>"))
      = 0x3C :: ([0x64, 0x69, 0x63, 0x74, 0x3E] ++
          (inner ++ (ascii "</dict>" ++ ascii "</plist>"))) := by
    rw [ascii_dict_open]; rfl
  have hf : dictXMLPattern.Find
      (ascii "<plist>" ++ (ascii "<dict>" ++ inner ++ ascii "</dict>") ++ ascii "</plist>")
      = ascii "<dict>" ++ inner ++ ascii "</dict>" := by
    unfold Regexp.Find
    rw [List.append_assoc (ascii "<plist>"),
      findAt_skip dictXMLPattern dictXMLPattern_prev _ _ none (noHit_dict_plist_open _)]
    have e : ascii "<dict>" ++ inner ++ ascii "</dict>" ++ ascii "</plist>"
        = ascii "<dict>" ++ (inner ++ (ascii "</dict>" ++ ascii "</plist>")) := by simp
    rw [e, hc]
    rw [hc] at hm
    rw [findAt_cons, hm]
    simp only [List.headD]
    rw [← hc, ← e]
    exact span_append _ _
  unfold extractEmbeddedDict
  simp only [hf, trimSpace_dict_bare]
  rw [ascii_dict_open]
  simp

theorem ascii_document_plist_open :
    ascii "<Document><plist>" = ascii "<Document>" ++ ascii "<plist>" := by decide

theorem ascii_plist_document_close :
    ascii "</plist></Document>" = ascii "</plist>" ++ ascii "</Document>" := by decide

/-- C3: `<Document><plist>`, a dict element, `</plist></Document>` normalizes to
the dict element whenever the text inside the dict holds no Document tag and no
plist tag, in any letter case. -/
theorem document_unwrap (inner : Bytes)
    (_hdoc : hasTag "Document" inner = false) (hplist : hasTag "plist" inner = false) :
    normalizeXMLPlistBody
        (ascii "<Document><plist>" ++ (ascii "<dict>" ++ inner ++ ascii "</dict>")
          ++ ascii "</plist></Document>")
      = ascii "<dict>" ++ inner ++ ascii "</dict>" := by
  have hclose : (closeTag "plist").Match inner = false := by
    unfold hasTag at hplist
    simp only [Bool.or_eq_false_iff] at hplist
    exact hplist.2
  have hbody : ascii "<Document><plist>" ++ (ascii "<dict>" ++ inner ++ ascii "</dict>")
        ++ ascii "</plist></Document>"
      = ascii "<Document>" ++
          (ascii "<plist>" ++ (ascii "<dict>" ++ inner ++ ascii "</dict>") ++ ascii "</plist>")
          ++ ascii "</Document>" := by
    rw [ascii_document_plist_open, ascii_plist_document_close]
    simp only [List.append_assoc]
  have htrim : TrimSpace (ascii "<Document>" ++
          (ascii "<plist>" ++ (ascii "<dict>" ++ inner ++ ascii "</dict>") ++ ascii "</plist>")
          ++ ascii "</Document>")
      = ascii "<Document>" ++
          (ascii "<plist>" ++ (ascii "<dict>" ++ inner ++ ascii "</dict>") ++ ascii "</plist>")
          ++ ascii "</Document>" := by
    have hx : ascii "<Document>" ++
          (ascii "<plist>" ++ (ascii "<dict>" ++ inner ++ ascii "</dict>") ++ ascii "</plist>")
          ++ ascii "</Document>"
        = 0x3C :: (([0x44, 0x6F, 0x63, 0x75, 0x6D, 0x65, 0x6E, 0x74, 0x3E] ++
            (ascii "<plist>" ++ (ascii "<dict>" ++ inner ++ ascii "</dict>") ++ ascii "</plist>")
            ++ [0x3C, 0x2F, 0x44, 0x6F, 0x63, 0x75, 0x6D, 0x65, 0x6E, 0x74]) ++ [0x3E]) := by
      rw [ascii_document_open, ascii_document_close]; simp
    rw [hx]
    exact TrimSpace_tagged _
  have hlen1 : 0 < (ascii "<plist>" ++ (ascii "<dict>" ++ inner ++ ascii "</dict>")
      ++ ascii "</plist>").length := by
    rw [ascii_plist_open]; simp
  have hlen2 : 0 < (ascii "<dict>" ++ inner ++ ascii "</dict>").length := by
    rw [ascii_dict_open]; simp
  have hlen0 : ¬ (ascii "<Document>" ++
          (ascii "<plist>" ++ (ascii "<dict>" ++ inner ++ ascii "</dict>") ++ ascii "</plist>")
          ++ ascii "</Document>").length = 0 := by
    rw [ascii_document_open]; simp
  rw [hbody]
  unfold normalizeXMLPlistBody
  simp only [htrim, hlen0, if_false, extractDocumentInnerBody_wrapped, hlen1, if_true,
    extractEmbeddedPlist_wrapped inner hclose, extractEmbeddedDict_in_plist, hlen2]

set_option maxRecDepth 100000 in
/-- Witness of `document_unwrap`: the inner text `<key>x</key><string>y</string>`. -/
theorem document_unwrap_witness :
    hasTag "Document" (ascii "<key>x</key><string>y</string>") = false ∧
      hasTag "plist" (ascii "<key>x</key><string>y</string>") = false ∧
      normalizeXMLPlistBody
          (ascii "<Document><plist><dict><key>x</key><string>y</string></dict></plist></Document>")
        = ascii "<dict><key>x</key><string>y</string></dict>" := by
  refine ⟨by decide, by decide, ?_⟩
  have h := document_unwrap (ascii "<key>x</key><string>y</string>") (by decide) (by decide)
  have e1 : ascii "<Document><plist><dict><key>x</key><string>y</string></dict></plist></Document>"
      = ascii "<Document><plist>" ++
          (ascii "<dict>" ++ ascii "<key>x</key><string>y</string>" ++ ascii "</dict>")
          ++ ascii "</plist></Document>" := by decide
  have e2 : ascii "<dict><key>x</key><string>y</string></dict>"
      = ascii "<dict>" ++ ascii "<key>x</key><string>y</string>" ++ ascii "</dict>" := by decide
  rw [e1, e2]
  exact h


/-! ## What a match of the dict pattern looks like -/

/-- Two folded forms of one rune that both start a text are the same form. -/
theorem foldEncodings_unique (r : Nat) (e1 e2 r1 r2 : Bytes)
    (h1 : e1 ∈ foldEncodings r) (h2 : e2 ∈ foldEncodings r) (h : e1 ++ r1 = e2 ++ r2) :
    e1 = e2 := by
  unfold foldEncodings at h1 h2
  simp only at h1 h2
  split_ifs at h1 h2
  all_goals simp at h1 h2
  all_goals
    first
      | (subst h1; subst h2; rfl)
      | (rcases h1 with rfl | rfl <;> rcases h2 with rfl | rfl <;> simp at h ⊢ <;> omega)
      | (rcases h1 with rfl | rfl | rfl <;> rcases h2 with rfl | rfl | rfl <;>
          simp at h ⊢ <;> omega)

/-- A folded literal in front of a text it matches hands over to the continuation. -/
theorem firstAlt_eq {α : Type} (k : Option Nat → Bytes → Option α) (r : Nat) (enc rest : Bytes)
    (he : enc ∈ foldEncodings r) :
    firstAlt k (enc ++ rest) (foldEncodings r) = k enc.getLast? rest := by
  cases hf : firstAlt k (enc ++ rest) (foldEncodings r) with
  | some m =>
    obtain ⟨e2, he2, rest2, h1, h2⟩ := firstAlt_some _ _ _ _ hf
    have := foldEncodings_unique r enc e2 rest rest2 he he2 h1
    subst this
    have := List.append_cancel_left h1
    subst this
    exact h2.symm
  | none =>
    cases hk : k enc.getLast? rest with
    | none => rfl
    | some m =>
      have := firstAlt_isSome k (enc ++ rest) (foldEncodings r) enc rest he rfl (by rw [hk]; rfl)
      rw [hf] at this
      simp at this

theorem matchHere_literal_cons (r : Nat) (ns : Regexp) (p : Option Nat) (s : Bytes) :
    matchHere (.literal r :: ns) p s
      = firstAlt (fun p t => matchHere ns p t) s (foldEncodings r) := by
  simp only [matchHere]

/-- What a matching run of literals consumed. -/
theorem matchHere_literals_inv (rs : List Nat) (ns : Regexp) (p : Option Nat) (s : Bytes)
    (mk : List Bytes) (h : matchHere (rs.map Node.literal ++ ns) p s = some mk) :
    ∃ e rest q, LitEnc rs e ∧ s = e ++ rest ∧ matchHere ns q rest = some mk := by
  induction rs generalizing p s with
  | nil => exact ⟨[], s, p, rfl, rfl, h⟩
  | cons r rs ih =>
    rw [List.map, List.cons_append, matchHere_literal_cons] at h
    obtain ⟨enc, he, rest, h1, h2⟩ := firstAlt_some _ _ _ _ h
    obtain ⟨e, rest2, q, hl, hs, hm⟩ := ih _ _ h2
    exact ⟨enc ++ e, rest2, q, ⟨enc, he, e, rfl, hl⟩, by rw [h1, hs, List.append_assoc], hm⟩

/-- A run of literals in front of a text it matches hands over to the rest of
the pattern. -/
theorem matchHere_literals_intro (rs : List Nat) (ns : Regexp)
    (hns : ∀ p q s, matchHere ns p s = matchHere ns q s) (p q : Option Nat) (e rest : Bytes)
    (hl : LitEnc rs e) :
    matchHere (rs.map Node.literal ++ ns) p (e ++ rest) = matchHere ns q rest := by
  induction rs generalizing p e with
  | nil =>
    simp only [LitEnc] at hl
    subst hl
    exact hns p q rest
  | cons r rs ih =>
    obtain ⟨enc, he, e2, h1, h2⟩ := hl
    subst h1
    rw [List.map, List.cons_append, matchHere_literal_cons, List.append_assoc,
      firstAlt_eq _ r enc (e2 ++ rest) he]
    exact ih _ _ h2


theorem foldEncodings_gt_self : foldEncodings 0x3E = [[0x3E]] := by decide

theorem matchHere_gt_cons (ns : Regexp) (p : Option Nat) (s : Bytes) :
    matchHere (.literal 0x3E :: ns) p (0x3E :: s) = matchHere ns (some 0x3E) s := by
  rw [matchHere_literal_cons]
  exact firstAlt_eq _ 0x3E [0x3E] s (by rw [foldEncodings_gt_self]; simp)

theorem matchHere_gt_other (ns : Regexp) (p : Option Nat) (b : Nat) (s : Bytes) (h : b ≠ 0x3E) :
    matchHere (.literal 0x3E :: ns) p (b :: s) = none := by
  rw [matchHere_literal_cons, foldEncodings_gt_self]
  have : ¬ (0x3E = b) := fun e => h e.symm
  simp [firstAlt, stripPrefix, this]

theorem matchHere_gt_nil (ns : Regexp) (p : Option Nat) :
    matchHere (.literal 0x3E :: ns) p [] = none := by
  rw [matchHere_literal_cons, foldEncodings_gt_self]
  simp [firstAlt, stripPrefix]

/-- The class `[^>]*` in front of a literal `>` runs to the first `>`. -/
theorem starLoop_notGt (ns : Regexp) (p : Option Nat) (s : Bytes) :
    starLoop notGt true (fun p t => matchHere (.literal 0x3E :: ns) p t) p s
      = match s.dropWhile notGt with
        | [] => none
        | _ :: t => matchHere ns (some 0x3E) t := by
  induction s generalizing p with
  | nil => simp only [starLoop, List.dropWhile]; exact matchHere_gt_nil ns p
  | cons b s ih =>
    by_cases hb : b = 0x3E
    · subst hb
      have h1 : notGt 0x3E = false := by decide
      simp only [starLoop, h1, List.dropWhile, Bool.false_eq_true, if_false]
      exact matchHere_gt_cons ns p s
    · have h1 : notGt b = true := by simp [notGt, hb]
      simp only [starLoop, h1, List.dropWhile, if_true, ih (some b), matchHere_gt_other ns p b s hb]
      cases h2 : List.dropWhile notGt s with
      | nil => rfl
      | cons c t => simp only []; cases matchHere ns (some 0x3E) t <;> rfl

/-- A greedy `.*` that fails on a text fails at every position of it. -/
theorem starLoop_greedy_none {α : Type} (k : Option Nat → Bytes → Option α)
    (hk : ∀ p q s, k p s = k q s) (s : Bytes) (p q : Option Nat)
    (h : starLoop anyChar true k p s = none) (v1 v2 : Bytes) (e : s = v1 ++ v2) :
    k q v2 = none := by
  induction s generalizing p v1 with
  | nil =>
    have := List.append_eq_nil.mp e.symm
    rw [this.2, hk q p]
    exact h
  | cons b s ih =>
    rw [starLoop_any_greedy_cons] at h
    cases hs : starLoop anyChar true k (some b) s with
    | some r => rw [hs] at h; simp at h
    | none =>
      rw [hs] at h
      simp only [] at h
      rcases v1 with _ | ⟨c, v1⟩
      · simp only [List.nil_append] at e
        rw [← e, hk q p]; exact h
      · simp only [List.cons_append, List.cons.injEq] at e
        exact ih (some b) hs v1 e.2

/-- A greedy `.*` fails on a text when the continuation fails at every position. -/
theorem starLoop_greedy_none_intro {α : Type} (k : Option Nat → Bytes → Option α)
    (hk : ∀ p q s, k p s = k q s) (s : Bytes) (p q : Option Nat)
    (h : ∀ v1 v2, s = v1 ++ v2 → k q v2 = none) : starLoop anyChar true k p s = none := by
  induction s generalizing p with
  | nil => rw [starLoop, hk p q]; exact h [] [] rfl
  | cons b s ih =>
    rw [starLoop_any_greedy_cons, ih (some b) (fun v1 v2 e => h (b :: v1) v2 (by rw [e]; rfl))]
    simp only []
    rw [hk p q]
    exact h [] (b :: s) rfl

/-- Where a greedy `.*` stops: at the last position the continuation accepts. -/
theorem starLoop_greedy_some {α : Type} (k : Option Nat → Bytes → Option α)
    (hk : ∀ p q s, k p s = k q s) (s : Bytes) (p q : Option Nat) (r : α)
    (h : starLoop anyChar true k p s = some r) :
    ∃ u v, s = u ++ v ∧ k q v = some r ∧
      ∀ v1 v2, v = v1 ++ v2 → v1 ≠ [] → k q v2 = none := by
  induction s generalizing p with
  | nil =>
    refine ⟨[], [], rfl, by rw [hk q p]; exact h, ?_⟩
    intro v1 v2 e ne
    exact absurd (List.append_eq_nil.mp e.symm).1 ne
  | cons b s ih =>
    rw [starLoop_any_greedy_cons] at h
    cases hs : starLoop anyChar true k (some b) s with
    | some r2 =>
      rw [hs] at h
      simp only [Option.some.injEq] at h
      subst h
      obtain ⟨u, v, e, hv, hlast⟩ := ih (some b) hs
      exact ⟨b :: u, v, by rw [e]; rfl, hv, hlast⟩
    | none =>
      rw [hs] at h
      simp only [] at h
      refine ⟨[], b :: s, rfl, by rw [hk q p]; exact h, ?_⟩
      intro v1 v2 e ne
      rcases v1 with _ | ⟨c, v1⟩
      · exact absurd rfl ne
      · simp only [List.cons_append, List.cons.injEq] at e
        exact starLoop_greedy_none k hk s (some b) q hs v1 v2 e.2

/-- A greedy `.*` stops at a position the continuation accepts when it accepts
no later one. -/
theorem starLoop_greedy_intro {α : Type} (k : Option Nat → Bytes → Option α)
    (hk : ∀ p q s, k p s = k q s) (u v : Bytes) (p q : Option Nat) (r : α)
    (hv : k q v = some r) (hlast : ∀ v1 v2, v = v1 ++ v2 → v1 ≠ [] → k q v2 = none) :
    starLoop anyChar true k p (u ++ v) = some r := by
  apply starLoop_greedy_append k hk u v p r
  cases v with
  | nil => rw [starLoop, hk p q]; exact hv
  | cons b v =>
    rw [starLoop_any_greedy_cons,
      starLoop_greedy_none_intro k hk v (some b) q
        (fun v1 v2 e => hlast (b :: v1) v2 (by rw [e]; rfl) (by simp))]
    simp only []
    rw [hk p q]; exact hv


theorem dropWhile_notGt_cons (s : Bytes) (c : Nat) (t : Bytes)
    (h : s.dropWhile notGt = c :: t) :
    c = 0x3E ∧ ∃ tag, s = tag ++ 0x3E :: t ∧ ∀ b ∈ tag, b ≠ 0x3E := by
  induction s with
  | nil => simp at h
  | cons b s ih =>
    by_cases hb : b = 0x3E
    · subst hb
      have h1 : notGt 0x3E = false := by decide
      simp only [List.dropWhile, h1, List.cons.injEq] at h
      exact ⟨h.1.symm, [], by rw [h.2]; rfl, by simp⟩
    · have h1 : notGt b = true := by simp [notGt, hb]
      simp only [List.dropWhile, h1] at h
      obtain ⟨hc, tag, hs, htag⟩ := ih h
      refine ⟨hc, b :: tag, by rw [hs]; rfl, ?_⟩
      intro x hx
      rcases List.mem_cons.mp hx with rfl | hx
      · exact hb
      · exact htag x hx

theorem dropWhile_notGt_append (tag t : Bytes) (h : ∀ b ∈ tag, b ≠ 0x3E) :
    (tag ++ 0x3E :: t).dropWhile notGt = 0x3E :: t := by
  induction tag with
  | nil =>
    have h1 : notGt 0x3E = false := by decide
    simp [List.dropWhile, h1]
  | cons b tag ih =>
    have hb : notGt b = true := by simp [notGt, h b (List.mem_cons_self _ _)]
    simp only [List.cons_append, List.dropWhile, hb]
    exact ih (fun x hx => h x (List.mem_cons_of_mem _ hx))

theorem dictXMLPattern_nodes : dictXMLPattern =
    dictOpenRunes.map Node.literal ++
      (.literal 0x74 :: .wordBoundary :: .star notGt true :: .literal 0x3E ::
        .star anyChar true :: (dictCloseRunes.map Node.literal ++ [])) := rfl

theorem lit_dict_close : lit "</dict>" = dictCloseRunes.map Node.literal := rfl

theorem isWordAt_fold_t (enc : Bytes) (h : enc ∈ foldEncodings 0x74) :
    isWordAt enc.getLast? = true := by
  have : foldEncodings 0x74 = [[0x74], [0x54]] := by decide
  rw [this] at h
  simp only [List.mem_cons, List.mem_singleton, List.not_mem_nil, or_false] at h
  rcases h with rfl | rfl <;> decide

theorem matchHere_nil_prev (p q : Option Nat) (s : Bytes) : matchHere [] p s = matchHere [] q s := by
  simp only [matchHere]

/-- What the opening part of a tag pattern consumed. -/
theorem tag_open_inv (openRunes : List Nat) (R : Regexp) (p : Option Nat) (st : Bytes)
    (mk : List Bytes)
    (h : matchHere (openRunes.map Node.literal ++
        (.literal 0x74 :: .wordBoundary :: .star notGt true :: .literal 0x3E :: R)) p st
      = some mk) :
    ∃ o t, st = o ++ t ∧ TagOpen openRunes o ∧ matchHere R (some 0x3E) t = some mk := by
  obtain ⟨e1, r1, q, hl1, hs1, hm1⟩ := matchHere_literals_inv _ _ _ _ _ h
  rw [matchHere_literal_cons] at hm1
  obtain ⟨enc, he, r2, hs2, hm2⟩ := firstAlt_some _ _ _ _ hm1
  have hw := isWordAt_fold_t enc he
  simp only [matchHere, hw] at hm2
  split at hm2
  swap
  · simp at hm2
  rename_i hwb
  have hm3 : starLoop notGt true (fun p t => matchHere (.literal 0x3E :: R) p t)
      enc.getLast? r2 = some mk := by
    simpa only [matchHere] using hm2
  rw [starLoop_notGt] at hm3
  cases hdw : List.dropWhile notGt r2 with
  | nil => rw [hdw] at hm3; simp at hm3
  | cons c0 t =>
    rw [hdw] at hm3
    simp only [] at hm3
    obtain ⟨hc0, tag, hs3, htag⟩ := dropWhile_notGt_cons r2 c0 t hdw
    refine ⟨e1 ++ enc ++ tag ++ [0x3E], t, ?_, ⟨e1, enc, tag, rfl, hl1, he, htag, ?_⟩, hm3⟩
    · rw [hs1, hs2, hs3]
      simp
    · rw [hs3] at hwb
      have e : (tag ++ 0x3E :: t).head? = (tag ++ [0x3E]).head? := by
        cases tag <;> rfl
      rw [e] at hwb
      simpa using hwb

/-- The opening part of a tag pattern in front of an opening tag hands over to
the rest of the pattern. -/
theorem tag_open_intro (openRunes : List Nat) (R : Regexp) (p : Option Nat) (o t : Bytes)
    (ho : TagOpen openRunes o) :
    matchHere (openRunes.map Node.literal ++
        (.literal 0x74 :: .wordBoundary :: .star notGt true :: .literal 0x3E :: R)) p (o ++ t)
      = matchHere R (some 0x3E) t := by
  obtain ⟨e1, enc, tag, rfl, hl1, he, htag, hwb⟩ := ho
  have hw := isWordAt_fold_t enc he
  have e0 : e1 ++ enc ++ tag ++ [0x3E] ++ t = e1 ++ (enc ++ (tag ++ 0x3E :: t)) := by simp
  rw [e0, matchHere_literals_intro openRunes _ (fun p q s => matchHere_literal_prev _ _ p q s)
      p none e1 _ hl1,
    matchHere_literal_cons, firstAlt_eq _ 0x74 enc _ he]
  have e : (tag ++ 0x3E :: t).head? = (tag ++ [0x3E]).head? := by
    cases tag <;> rfl
  have hcond : (isWordAt enc.getLast? != isWordAt (tag ++ 0x3E :: t).head?) = true := by
    rw [e, hw, hwb]; rfl
  have step1 : matchHere (.wordBoundary :: .star notGt true :: .literal 0x3E :: R) enc.getLast?
        (tag ++ 0x3E :: t)
      = starLoop notGt true (fun p t => matchHere (.literal 0x3E :: R) p t) enc.getLast?
          (tag ++ 0x3E :: t) := by
    simp only [matchHere, hcond, if_true]
  rw [step1, starLoop_notGt, dropWhile_notGt_append tag _ htag]

/-- What a match of the dict pattern is made of: an opening tag, any text, a
closing tag after which no other closing tag starts. -/
theorem dict_match_shape (p : Option Nat) (st : Bytes) (mk : List Bytes)
    (h : matchHere dictXMLPattern p st = some mk) :
    ∃ o u c rest, st = o ++ u ++ c ++ rest ∧ mk = [rest] ∧ DictOpen o ∧
      LitEnc dictCloseRunes c ∧
      ∀ v1 v2, c ++ rest = v1 ++ v2 → v1 ≠ [] → matchHere (lit "</dict>") none v2 = none := by
  rw [dictXMLPattern_nodes] at h
  obtain ⟨o, t, hst, ho, hm3⟩ := tag_open_inv _ _ _ _ _ h
  have hm4 : starLoop anyChar true
      (fun p t => matchHere (dictCloseRunes.map Node.literal ++ []) p t) (some 0x3E) t
      = some mk := by
    simpa only [matchHere] using hm3
  have hk : ∀ (p q : Option Nat) (s : Bytes),
      (fun p t => matchHere (dictCloseRunes.map Node.literal ++ []) p t) p s
        = (fun p t => matchHere (dictCloseRunes.map Node.literal ++ []) p t) q s :=
    fun p q s => matchHere_literal_prev _ _ p q s
  obtain ⟨u, v, hs4, hv, hlast⟩ := starLoop_greedy_some _ hk t (some 0x3E) none mk hm4
  obtain ⟨c, rest, q2, hl3, hs5, hm5⟩ := matchHere_literals_inv _ _ _ _ _ hv
  simp only [matchHere, Option.some.injEq] at hm5
  refine ⟨o, u, c, rest, ?_, hm5.symm, ho, hl3, ?_⟩
  · rw [hst, hs4, hs5]
    simp
  · intro v1 v2 e ne
    rw [lit_dict_close, ← List.append_nil (List.map Node.literal dictCloseRunes)]
    exact hlast v1 v2 (by rw [hs5, e]) ne

theorem matchHere_dict_close_intro (c rest : Bytes) (p : Option Nat)
    (hc : LitEnc dictCloseRunes c) : matchHere (lit "</dict>") p (c ++ rest) = some [rest] := by
  rw [lit_dict_close, ← List.append_nil (List.map Node.literal dictCloseRunes),
    matchHere_literals_intro dictCloseRunes [] matchHere_nil_prev p none c rest hc]
  simp only [matchHere]

/-- A closing tag that matches a text matches it whatever follows. -/
theorem matchHere_dict_close_mono (v rest : Bytes) (p : Option Nat)
    (h : matchHere (lit "</dict>") p (v ++ rest) = none) : matchHere (lit "</dict>") p v = none := by
  cases hm : matchHere (lit "</dict>") p v with
  | none => rfl
  | some mk =>
    exfalso
    rw [lit_dict_close, ← List.append_nil (List.map Node.literal dictCloseRunes)] at hm
    obtain ⟨c, r, q, hl, hs, _⟩ := matchHere_literals_inv _ _ _ _ _ hm
    rw [hs, List.append_assoc, matchHere_dict_close_intro c (r ++ rest) p hl] at h
    simp at h

/-- An opening tag, any text and a closing tag after which no other closing tag
starts make a match of the dict pattern. -/
theorem dict_match_intro (p : Option Nat) (o u c rest : Bytes) (ho : DictOpen o)
    (hc : LitEnc dictCloseRunes c)
    (hlast : ∀ v1 v2, c ++ rest = v1 ++ v2 → v1 ≠ [] → matchHere (lit "</dict>") none v2 = none) :
    matchHere dictXMLPattern p (o ++ u ++ c ++ rest) = some [rest] := by
  have hk : ∀ (p q : Option Nat) (s : Bytes),
      (fun p t => matchHere (lit "</dict>") p t) p s
        = (fun p t => matchHere (lit "</dict>") p t) q s :=
    fun p q s => matchHere_lit_prev "</dict>" p q s (by decide)
  have e0 : o ++ u ++ c ++ rest = o ++ (u ++ (c ++ rest)) := by simp
  rw [e0, dictXMLPattern_nodes, tag_open_intro dictOpenRunes _ p o _ ho]
  show starLoop anyChar true (fun p t => matchHere (lit "</dict>") p t) (some 0x3E)
    (u ++ (c ++ rest)) = some [rest]
  exact starLoop_greedy_intro _ hk u (c ++ rest) (some 0x3E) none [rest]
    (matchHere_dict_close_intro c rest none hc) hlast

/-- Where the search found its match: at a tail of the text. -/
theorem findAt_some (re : Regexp) (s : Bytes) (p : Option Nat) (st : Bytes) (mk : List Bytes)
    (h : findAt re p s = some (st, mk)) :
    ∃ pre q, s = pre ++ st ∧ matchHere re q st = some mk := by
  induction s generalizing p with
  | nil =>
    rw [findAt_nil] at h
    cases hm : matchHere re p [] with
    | none => rw [hm] at h; simp at h
    | some m =>
      rw [hm] at h
      simp only [Option.map_some', Option.some.injEq, Prod.mk.injEq] at h
      exact ⟨[], p, by rw [← h.1]; rfl, by rw [← h.1, ← h.2]; exact hm⟩
  | cons b s ih =>
    rw [findAt_cons] at h
    cases hm : matchHere re p (b :: s) with
    | none =>
      rw [hm] at h
      obtain ⟨pre, q, e, hq⟩ := ih (some b) h
      exact ⟨b :: pre, q, by rw [e]; rfl, hq⟩
    | some m =>
      rw [hm] at h
      simp only [Option.some.injEq, Prod.mk.injEq] at h
      exact ⟨[], p, by rw [← h.1]; rfl, by rw [← h.1, ← h.2]; exact hm⟩

/-- The text `Find` returns for the dict pattern, when it returns one: an
opening tag, any text, a closing tag, found at some place of the searched text. -/
theorem find_dict_shape (w : Bytes) (h : dictXMLPattern.Find w ≠ []) :
    ∃ pre o u c rest, w = pre ++ (o ++ u ++ c) ++ rest ∧ dictXMLPattern.Find w = o ++ u ++ c ∧
      DictOpen o ∧ LitEnc dictCloseRunes c ∧
      ∀ v1 v2, c ++ rest = v1 ++ v2 → v1 ≠ [] → matchHere (lit "</dict>") none v2 = none := by
  unfold Regexp.Find at h ⊢
  cases hf : findAt dictXMLPattern none w with
  | none => rw [hf] at h; exact absurd rfl h
  | some r =>
    obtain ⟨st, mk⟩ := r
    obtain ⟨pre, q, hw, hm⟩ := findAt_some _ _ _ _ _ hf
    obtain ⟨o, u, c, rest, hst, hmk, ho, hc, hlast⟩ := dict_match_shape q st mk hm
    refine ⟨pre, o, u, c, rest, by rw [hw, hst]; simp, ?_, ho, hc, hlast⟩
    simp only [hmk, hst, List.headD]
    exact span_append _ _

/-- The dict pattern finds the whole of a text it once returned. -/
theorem find_dict_of_shape (o u c : Bytes) (ho : DictOpen o) (hc : LitEnc dictCloseRunes c)
    (hlast : ∀ v1 v2, c = v1 ++ v2 → v1 ≠ [] → matchHere (lit "</dict>") none v2 = none) :
    dictXMLPattern.Find (o ++ u ++ c) = o ++ u ++ c := by
  have hm := dict_match_intro none o u c [] ho hc (by simpa using hlast)
  rw [List.append_nil] at hm
  obtain ⟨e1, enc, tag, ho2, hl1, _, _, _⟩ := ho
  obtain ⟨x, hx, e2, he1, _⟩ := hl1
  have hx2 : x = [0x3C] := by
    have : foldEncodings 0x3C = [[0x3C]] := by decide
    rw [this] at hx
    simpa using hx
  have hcons : o ++ u ++ c = 0x3C :: (e2 ++ enc ++ tag ++ [0x3E] ++ u ++ c) := by
    rw [ho2, he1, hx2]; simp
  rw [hcons] at hm ⊢
  rw [find_of_matchHere _ _ _ _ _ hm, span_nil]


theorem litEnc_dictClose_last (c : Bytes) (h : LitEnc dictCloseRunes c) :
    ∃ c2, c = c2 ++ [0x3E] := by
  obtain ⟨x1, _, r1, rfl, h⟩ := h
  obtain ⟨x2, _, r2, rfl, h⟩ := h
  obtain ⟨x3, _, r3, rfl, h⟩ := h
  obtain ⟨x4, _, r4, rfl, h⟩ := h
  obtain ⟨x5, _, r5, rfl, h⟩ := h
  obtain ⟨x6, _, r6, rfl, h⟩ := h
  obtain ⟨x7, h7, r7, rfl, h⟩ := h
  simp only [LitEnc] at h
  subst h
  rw [foldEncodings_gt_self] at h7
  simp only [List.mem_singleton] at h7
  subst h7
  exact ⟨x1 ++ x2 ++ x3 ++ x4 ++ x5 ++ x6, by simp⟩

theorem dictOpen_first (o : Bytes) (h : DictOpen o) : ∃ o2, o = 0x3C :: o2 := by
  obtain ⟨e1, enc, tag, ho, hl1, _, _, _⟩ := h
  obtain ⟨x, hx, e2, he1, _⟩ := hl1
  rw [foldEncodings_lt_self] at hx
  simp only [List.mem_singleton] at hx
  subst hx
  exact ⟨e2 ++ enc ++ tag ++ [0x3E], by rw [ho, he1]; simp⟩

/-- The normalizer in terms of the working body. -/
theorem normalize_eq_working (body : Bytes) (hne : TrimSpace body ≠ []) :
    normalizeXMLPlistBody body =
      if 0 < (extractEmbeddedDict (workingBody (TrimSpace body))).length then
        extractEmbeddedDict (workingBody (TrimSpace body))
      else if Contains (workingBody (TrimSpace body)) (ascii "<key>") then
        ascii "<dict>" ++ workingBody (TrimSpace body) ++ ascii "</dict>"
      else workingBody (TrimSpace body) := by
  have hlen : (TrimSpace body).length ≠ 0 := by
    intro h; exact hne (List.length_eq_zero.mp h)
  unfold normalizeXMLPlistBody workingBody
  simp only [hlen, if_false]

/-- The dict step returns a text that starts with `<`, ends with `>`, and that
the dict pattern finds again as a whole. -/
theorem extractEmbeddedDict_fixed (w : Bytes) (h : 0 < (extractEmbeddedDict w).length) :
    (∃ m, extractEmbeddedDict w = 0x3C :: (m ++ [0x3E])) ∧
      extractEmbeddedDict (extractEmbeddedDict w) = extractEmbeddedDict w := by
  have hfind : dictXMLPattern.Find w ≠ [] := by
    intro e
    unfold extractEmbeddedDict at h
    simp [e] at h
  obtain ⟨pre, o, u, c, rest, _, hf, ho, hc, hlast⟩ := find_dict_shape w hfind
  obtain ⟨o2, ho2⟩ := dictOpen_first o ho
  obtain ⟨c2, hc2⟩ := litEnc_dictClose_last c hc
  have htag : o ++ u ++ c = 0x3C :: ((o2 ++ u ++ c2) ++ [0x3E]) := by
    rw [ho2, hc2]; simp
  have hlen : ¬ (o ++ u ++ c).length = 0 := by rw [htag]; simp
  have htrim : TrimSpace (o ++ u ++ c) = o ++ u ++ c := by
    rw [htag]; exact TrimSpace_tagged _
  have hval : extractEmbeddedDict w = o ++ u ++ c := by
    unfold extractEmbeddedDict
    simp only [hf, hlen, if_false, htrim]
  have hlast2 : ∀ v1 v2, c = v1 ++ v2 → v1 ≠ [] → matchHere (lit "</dict>") none v2 = none := by
    intro v1 v2 e ne
    exact matchHere_dict_close_mono v2 rest none
      (hlast v1 (v2 ++ rest) (by rw [e, List.append_assoc]) ne)
  refine ⟨⟨o2 ++ u ++ c2, by rw [hval, htag]⟩, ?_⟩
  rw [hval]
  unfold extractEmbeddedDict
  simp only [find_dict_of_shape o u c ho hc hlast2, hlen, if_false, htrim]

/-! ## What a match of the plist pattern looks like -/

/-- Where a lazy `.*?` stops: at the first position the continuation accepts. -/
theorem starLoop_lazy_some {α : Type} (k : Option Nat → Bytes → Option α)
    (hk : ∀ p q s, k p s = k q s) (s : Bytes) (p q : Option Nat) (r : α)
    (h : starLoop anyChar false k p s = some r) :
    ∃ u v, s = u ++ v ∧ k q v = some r ∧
      ∀ u1 u2, u = u1 ++ u2 → u2 ≠ [] → k q (u2 ++ v) = none := by
  induction s generalizing p with
  | nil =>
    refine ⟨[], [], rfl, by rw [hk q p]; exact h, ?_⟩
    intro u1 u2 e ne
    exact absurd (List.append_eq_nil.mp e.symm).2 ne
  | cons b s ih =>
    rw [starLoop_any_lazy_cons] at h
    cases hs : k p (b :: s) with
    | some r2 =>
      rw [hs] at h
      simp only [Option.some.injEq] at h
      subst h
      refine ⟨[], b :: s, rfl, by rw [hk q p]; exact hs, ?_⟩
      intro u1 u2 e ne
      exact absurd (List.append_eq_nil.mp e.symm).2 ne
    | none =>
      rw [hs] at h
      simp only [] at h
      obtain ⟨u, v, e, hv, hfirst⟩ := ih (some b) h
      refine ⟨b :: u, v, by rw [e]; rfl, hv, ?_⟩
      intro u1 u2 e2 ne
      rcases u1 with _ | ⟨c, u1⟩
      · simp only [List.nil_append] at e2
        rw [← e2, List.cons_append, ← e, hk q p]
        exact hs
      · simp only [List.cons_append, List.cons.injEq] at e2
        exact hfirst u1 u2 e2.2 ne

/-- A lazy `.*?` stops at a position the continuation accepts when it accepts
no earlier one. -/
theorem starLoop_lazy_intro {α : Type} (k : Option Nat → Bytes → Option α)
    (hk : ∀ p q s, k p s = k q s) (u v : Bytes) (p q : Option Nat) (r : α)
    (hv : k q v = some r) (hfirst : ∀ u1 u2, u = u1 ++ u2 → u2 ≠ [] → k q (u2 ++ v) = none) :
    starLoop anyChar false k p (u ++ v) = some r := by
  rw [starLoop_lazy_append k hk u v p
    (fun u1 u2 e ne => by rw [hk p q]; exact hfirst u1 u2 e ne)]
  cases v with
  | nil => rw [starLoop, hk p q]; exact hv
  | cons b v => rw [starLoop_any_lazy_cons, hk p q, hv]

/-- A lazy `.*?` succeeds as soon as the continuation accepts some position. -/
theorem starLoop_lazy_isSome {α : Type} (k : Option Nat → Bytes → Option α)
    (hk : ∀ p q s, k p s = k q s) (u v : Bytes) (p q : Option Nat)
    (hv : (k q v).isSome = true) : (starLoop anyChar false k p (u ++ v)).isSome = true := by
  induction u generalizing p with
  | nil =>
    cases v with
    | nil => rw [List.nil_append, starLoop, hk p q]; exact hv
    | cons b v =>
      rw [List.nil_append, starLoop_any_lazy_cons, hk p q]
      cases hkv : k q (b :: v) with
      | none => rw [hkv] at hv; simp at hv
      | some r => rfl
  | cons b u ih =>
    rw [List.cons_append, starLoop_any_lazy_cons]
    cases k p (b :: (u ++ v)) with
    | some r => rfl
    | none => exact ih (some b)

theorem plistXMLPattern_nodes : plistXMLPattern =
    plistOpenRunes.map Node.literal ++
      (.literal 0x74 :: .wordBoundary :: .star notGt true :: .literal 0x3E ::
        .star anyChar false :: (plistCloseRunes.map Node.literal ++ [])) := rfl

theorem lit_plist_close_runes : lit "</plist>" = plistCloseRunes.map Node.literal := rfl

theorem matchHere_plist_close_intro (c rest : Bytes) (p : Option Nat)
    (hc : LitEnc plistCloseRunes c) : matchHere (lit "</plist>") p (c ++ rest) = some [rest] := by
  rw [lit_plist_close_runes, ← List.append_nil (List.map Node.literal plistCloseRunes),
    matchHere_literals_intro plistCloseRunes [] matchHere_nil_prev p none c rest hc]
  simp only [matchHere]

/-- A closing plist tag that matches a text matches it whatever follows. -/
theorem matchHere_plist_close_mono (v rest : Bytes) (p : Option Nat)
    (h : matchHere (lit "</plist>") p (v ++ rest) = none) :
    matchHere (lit "</plist>") p v = none := by
  cases hm : matchHere (lit "</plist>") p v with
  | none => rfl
  | some mk =>
    exfalso
    rw [lit_plist_close_runes, ← List.append_nil (List.map Node.literal plistCloseRunes)] at hm
    obtain ⟨c, r, q, hl, hs, _⟩ := matchHere_literals_inv _ _ _ _ _ hm
    rw [hs, List.append_assoc, matchHere_plist_close_intro c (r ++ rest) p hl] at h
    simp at h

theorem plist_close_prev (p q : Option Nat) (s : Bytes) :
    (fun p t => matchHere (lit "</plist>") p t) p s
      = (fun p t => matchHere (lit "</plist>") p t) q s :=
  matchHere_lit_prev "</plist>" p q s (by decide)

/-- What a match of the plist pattern is made of: an opening tag, a text in
which no closing tag starts, a closing tag. -/
theorem plist_match_shape (p : Option Nat) (st : Bytes) (mk : List Bytes)
    (h : matchHere plistXMLPattern p st = some mk) :
    ∃ o u c rest, st = o ++ u ++ c ++ rest ∧ mk = [rest] ∧ PlistOpen o ∧
      LitEnc plistCloseRunes c ∧
      ∀ u1 u2, u = u1 ++ u2 → u2 ≠ [] →
        matchHere (lit "</plist>") none (u2 ++ (c ++ rest)) = none := by
  rw [plistXMLPattern_nodes] at h
  obtain ⟨o, t, hst, ho, hm3⟩ := tag_open_inv _ _ _ _ _ h
  have hm4 : starLoop anyChar false (fun p t => matchHere (lit "</plist>") p t) (some 0x3E) t
      = some mk := by
    rw [lit_plist_close_runes, ← List.append_nil (List.map Node.literal plistCloseRunes)]
    simpa only [matchHere] using hm3
  obtain ⟨u, v, hs4, hv, hfirst⟩ := starLoop_lazy_some _ plist_close_prev t (some 0x3E) none mk hm4
  have hv2 : matchHere (plistCloseRunes.map Node.literal ++ []) none v = some mk := by
    rw [List.append_nil, ← lit_plist_close_runes]; exact hv
  obtain ⟨c, rest, q2, hl3, hs5, hm5⟩ := matchHere_literals_inv _ _ _ _ _ hv2
  simp only [matchHere, Option.some.injEq] at hm5
  refine ⟨o, u, c, rest, ?_, hm5.symm, ho, hl3, ?_⟩
  · rw [hst, hs4, hs5]
    simp
  · intro u1 u2 e ne
    rw [← hs5]
    exact hfirst u1 u2 e ne

/-- An opening tag, a text in which no closing tag starts and a closing tag
make a match of the plist pattern. -/
theorem plist_match_intro (p : Option Nat) (o u c rest : Bytes) (ho : PlistOpen o)
    (hc : LitEnc plistCloseRunes c)
    (hfirst : ∀ u1 u2, u = u1 ++ u2 → u2 ≠ [] →
      matchHere (lit "</plist>") none (u2 ++ (c ++ rest)) = none) :
    matchHere plistXMLPattern p (o ++ u ++ c ++ rest) = some [rest] := by
  have e0 : o ++ u ++ c ++ rest = o ++ (u ++ (c ++ rest)) := by simp
  rw [e0, plistXMLPattern_nodes, tag_open_intro plistOpenRunes _ p o _ ho]
  show starLoop anyChar false (fun p t => matchHere (lit "</plist>") p t) (some 0x3E)
    (u ++ (c ++ rest)) = some [rest]
  exact starLoop_lazy_intro _ plist_close_prev u (c ++ rest) (some 0x3E) none [rest]
    (matchHere_plist_close_intro c rest none hc) hfirst

/-- An opening tag with a closing tag somewhere after it makes the plist
pattern match. -/
theorem plist_match_isSome (p : Option Nat) (o u c rest : Bytes) (ho : PlistOpen o)
    (hc : LitEnc plistCloseRunes c) :
    (matchHere plistXMLPattern p (o ++ u ++ c ++ rest)).isSome = true := by
  have e0 : o ++ u ++ c ++ rest = o ++ (u ++ (c ++ rest)) := by simp
  rw [e0, plistXMLPattern_nodes, tag_open_intro plistOpenRunes _ p o _ ho]
  show (starLoop anyChar false (fun p t => matchHere (lit "</plist>") p t) (some 0x3E)
    (u ++ (c ++ rest))).isSome = true
  exact starLoop_lazy_isSome _ plist_close_prev u (c ++ rest) (some 0x3E) none
    (by rw [matchHere_plist_close_intro c rest none hc]; rfl)

theorem plistXMLPattern_prev (p q : Option Nat) (s : Bytes) :
    matchHere plistXMLPattern p s = matchHere plistXMLPattern q s := by
  rw [plistXMLPattern_nodes]
  exact matchHere_literal_prev _ _ p q s

/-- A match at some position makes the search succeed. -/
theorem findAt_isSome_intro (re : Regexp) (hre : ∀ p q s, matchHere re p s = matchHere re q s)
    (x st : Bytes) (p : Option Nat) (h : (matchHere re none st).isSome = true) :
    (findAt re p (x ++ st)).isSome = true := by
  induction x generalizing p with
  | nil =>
    cases st with
    | nil =>
      rw [List.nil_append, findAt_nil, hre p none]
      cases hm : matchHere re none [] with
      | none => rw [hm] at h; simp at h
      | some m => rfl
    | cons b st =>
      rw [List.nil_append, findAt_cons, hre p none]
      cases hm : matchHere re none (b :: st) with
      | none => rw [hm] at h; simp at h
      | some m => rfl
  | cons b x ih =>
    rw [List.cons_append, findAt_cons]
    cases matchHere re p (b :: (x ++ st)) with
    | some m => rfl
    | none => exact ih (some b)

/-- A text that holds an opening plist tag with a closing plist tag somewhere
after it matches the plist pattern. -/
theorem plist_element_match (x o u c z : Bytes) (ho : PlistOpen o)
    (hc : LitEnc plistCloseRunes c) : plistXMLPattern.Match (x ++ (o ++ u ++ c) ++ z) = true := by
  unfold Regexp.Match
  rw [List.append_assoc]
  apply findAt_isSome_intro plistXMLPattern plistXMLPattern_prev
  exact plist_match_isSome none o u c z ho hc

theorem litEnc_plistClose_last (c : Bytes) (h : LitEnc plistCloseRunes c) :
    ∃ c2, c = c2 ++ [0x3E] := by
  obtain ⟨x1, _, r1, rfl, h⟩ := h
  obtain ⟨x2, _, r2, rfl, h⟩ := h
  obtain ⟨x3, _, r3, rfl, h⟩ := h
  obtain ⟨x4, _, r4, rfl, h⟩ := h
  obtain ⟨x5, _, r5, rfl, h⟩ := h
  obtain ⟨x6, _, r6, rfl, h⟩ := h
  obtain ⟨x7, _, r7, rfl, h⟩ := h
  obtain ⟨x8, h8, r8, rfl, h⟩ := h
  simp only [LitEnc] at h
  subst h
  rw [foldEncodings_gt_self] at h8
  simp only [List.mem_singleton] at h8
  subst h8
  exact ⟨x1 ++ x2 ++ x3 ++ x4 ++ x5 ++ x6 ++ x7, by simp⟩

theorem plistOpen_first (o : Bytes) (h : PlistOpen o) : ∃ o2, o = 0x3C :: o2 := by
  obtain ⟨e1, enc, tag, ho, hl1, _, _, _⟩ := h
  obtain ⟨x, hx, e2, he1, _⟩ := hl1
  rw [foldEncodings_lt_self] at hx
  simp only [List.mem_singleton] at hx
  subst hx
  exact ⟨e2 ++ enc ++ tag ++ [0x3E], by rw [ho, he1]; simp⟩

/-- A plist element starts with `<` and ends with `>`. -/
theorem plist_element_tagged (o u c : Bytes) (ho : PlistOpen o) (hc : LitEnc plistCloseRunes c) :
    ∃ m, o ++ u ++ c = 0x3C :: (m ++ [0x3E]) := by
  obtain ⟨o2, ho2⟩ := plistOpen_first o ho
  obtain ⟨c2, hc2⟩ := litEnc_plistClose_last c hc
  exact ⟨o2 ++ u ++ c2, by rw [ho2, hc2]; simp⟩

/-- The text `Find` returns for the plist pattern, when it returns one: an
opening tag, a text in which no closing tag starts, a closing tag. -/
theorem find_plist_shape (w : Bytes) (h : plistXMLPattern.Find w ≠ []) :
    ∃ pre o u c rest, w = pre ++ (o ++ u ++ c) ++ rest ∧ plistXMLPattern.Find w = o ++ u ++ c ∧
      PlistOpen o ∧ LitEnc plistCloseRunes c ∧
      ∀ u1 u2, u = u1 ++ u2 → u2 ≠ [] → matchHere (lit "</plist>") none (u2 ++ c) = none := by
  unfold Regexp.Find at h ⊢
  cases hf : findAt plistXMLPattern none w with
  | none => rw [hf] at h; exact absurd rfl h
  | some r =>
    obtain ⟨st, mk⟩ := r
    obtain ⟨pre, q, hw, hm⟩ := findAt_some _ _ _ _ _ hf
    obtain ⟨o, u, c, rest, hst, hmk, ho, hc, hfirst⟩ := plist_match_shape q st mk hm
    refine ⟨pre, o, u, c, rest, by rw [hw, hst]; simp, ?_, ho, hc, ?_⟩
    · simp only [hmk, hst, List.headD]
      exact span_append _ _
    · intro u1 u2 e ne
      apply matchHere_plist_close_mono (u2 ++ c) rest none
      rw [List.append_assoc]
      exact hfirst u1 u2 e ne

/-- The plist step returns nothing exactly when the pattern does not match. -/
theorem extractEmbeddedPlist_nil (w : Bytes) (h : extractEmbeddedPlist w = []) :
    plistXMLPattern.Match w = false := by
  by_cases hf : plistXMLPattern.Find w = []
  · cases hm : plistXMLPattern.Match w with
    | false => rfl
    | true =>
      exfalso
      unfold Regexp.Match at hm
      unfold Regexp.Find at hf
      cases hfa : findAt plistXMLPattern none w with
      | none => rw [hfa] at hm; simp at hm
      | some r =>
        obtain ⟨st, mk⟩ := r
        obtain ⟨pre, q, hw, hmm⟩ := findAt_some _ _ _ _ _ hfa
        obtain ⟨o, u, c, rest, hst, hmk, ho, hc, _⟩ := plist_match_shape q st mk hmm
        rw [hfa] at hf
        simp only [hmk, hst, List.headD] at hf
        rw [span_append] at hf
        obtain ⟨m, hm2⟩ := plist_element_tagged o u c ho hc
        rw [hm2] at hf
        simp at hf
  · exfalso
    obtain ⟨pre, o, u, c, rest, _, hfind, ho, hc, _⟩ := find_plist_shape w hf
    obtain ⟨m, hm2⟩ := plist_element_tagged o u c ho hc
    unfold extractEmbeddedPlist at h
    simp only [hfind] at h
    rw [hm2] at h
    simp only [List.length_cons, Nat.succ_ne_zero, if_false, TrimSpace_tagged] at h
    simp at h

/-- The plist step, when it returns a text, returns a plist element in whose
inside no closing tag starts. -/
theorem extractEmbeddedPlist_shape (w : Bytes) (h : 0 < (extractEmbeddedPlist w).length) :
    ∃ o u c, extractEmbeddedPlist w = o ++ u ++ c ∧ PlistOpen o ∧ LitEnc plistCloseRunes c ∧
      ∀ u1 u2, u = u1 ++ u2 → u2 ≠ [] → matchHere (lit "</plist>") none (u2 ++ c) = none := by
  have hf : plistXMLPattern.Find w ≠ [] := by
    intro e
    unfold extractEmbeddedPlist at h
    simp [e] at h
  obtain ⟨pre, o, u, c, rest, _, hfind, ho, hc, hfirst⟩ := find_plist_shape w hf
  obtain ⟨m, hm2⟩ := plist_element_tagged o u c ho hc
  refine ⟨o, u, c, ?_, ho, hc, hfirst⟩
  unfold extractEmbeddedPlist
  simp only [hfind]
  rw [hm2]
  simp only [List.length_cons, Nat.succ_ne_zero, if_false, TrimSpace_tagged]

/-! ## Plist elements inside the working body -/

/-- Only the literal `>` itself has `>` among the bytes of its folded forms. -/
theorem foldEncodings_gt (r : Nat) (enc : Bytes) (he : enc ∈ foldEncodings r)
    (h : 0x3E ∈ enc) : r = 0x3E := by
  unfold foldEncodings at he
  simp only at he
  repeat' split at he
  all_goals simp at he
  all_goals
    first
      | (subst he; simp at h; omega)
      | (rcases he with rfl | rfl <;> simp at h <;> omega)
      | (rcases he with rfl | rfl | rfl <;> simp at h <;> omega)

/-- A byte that no rune of a run of literals folds to is not in what the run
matches. -/
theorem litEnc_not_mem (b0 : Nat) (hb : ∀ r enc, enc ∈ foldEncodings r → b0 ∈ enc → r = b0)
    (rs : List Nat) (hrs : ∀ r ∈ rs, r ≠ b0) (e : Bytes) (h : LitEnc rs e) : b0 ∉ e := by
  induction rs generalizing e with
  | nil =>
    simp only [LitEnc] at h
    subst h
    simp
  | cons r rs ih =>
    obtain ⟨enc, he, e2, rfl, h2⟩ := h
    intro hmem
    rcases List.mem_append.mp hmem with h1 | h1
    · exact hrs r (List.mem_cons_self _ _) (hb r enc he h1)
    · exact ih (fun x hx => hrs x (List.mem_cons_of_mem _ hx)) e2 h2 h1

/-- Two texts a run of literals matches, each in front of some text, are the
same when the whole texts are. -/
theorem litEnc_prefix_unique (rs : List Nat) (c1 c2 z1 z2 : Bytes) (h1 : LitEnc rs c1)
    (h2 : LitEnc rs c2) (h : c1 ++ z1 = c2 ++ z2) : c1 = c2 ∧ z1 = z2 := by
  induction rs generalizing c1 c2 with
  | nil =>
    simp only [LitEnc] at h1 h2
    subst h1; subst h2
    exact ⟨rfl, by simpa using h⟩
  | cons r rs ih =>
    obtain ⟨e1, he1, r1, rfl, hr1⟩ := h1
    obtain ⟨e2, he2, r2, rfl, hr2⟩ := h2
    rw [List.append_assoc, List.append_assoc] at h
    have := foldEncodings_unique r e1 e2 _ _ he1 he2 h
    subst this
    have h3 := List.append_cancel_left h
    obtain ⟨h4, h5⟩ := ih r1 r2 hr1 hr2 h3
    exact ⟨by rw [h4], h5⟩

/-- Up to the first `>`: when a text without `>` followed by `>` starts a text
that also reads as something followed by `>`, what follows the second `>`
is a tail of what follows the first. -/
theorem first_gt (t y A B : Bytes) (ht : 0x3E ∉ t) (h : t ++ 0x3E :: A = y ++ 0x3E :: B) :
    ∃ a0, A = a0 ++ B := by
  rcases List.append_eq_append_iff.mp h with ⟨a, ha, hb⟩ | ⟨c, hc, hd⟩
  · rcases a with _ | ⟨a0, a⟩
    · simp only [List.nil_append, List.cons.injEq, true_and] at hb
      exact ⟨[], by rw [hb]; rfl⟩
    · simp only [List.cons_append, List.cons.injEq] at hb
      exact ⟨a ++ [0x3E], by rw [hb.2]; simp⟩
  · rcases c with _ | ⟨c0, c⟩
    · simp only [List.nil_append, List.cons.injEq, true_and] at hd
      exact ⟨[], by rw [hd]; rfl⟩
    · exfalso
      simp only [List.cons_append, List.cons.injEq] at hd
      apply ht
      rw [hc, ← hd.1]
      simp

theorem tagOpen_split (openRunes : List Nat) (hrs : ∀ r ∈ openRunes, r ≠ 0x3E) (o : Bytes)
    (h : TagOpen openRunes o) : ∃ t, o = t ++ [0x3E] ∧ 0x3E ∉ t := by
  obtain ⟨e1, enc, tag, ho, hl1, he, htag, _⟩ := h
  refine ⟨e1 ++ enc ++ tag, ho, ?_⟩
  intro hmem
  rcases List.mem_append.mp hmem with h1 | h1
  · rcases List.mem_append.mp h1 with h2 | h2
    · exact litEnc_not_mem 0x3E foldEncodings_gt openRunes hrs e1 hl1 h2
    · have := foldEncodings_gt 0x74 enc he h2
      omega
  · exact htag _ h1 rfl

theorem litEnc_plistClose_lt (c : Bytes) (h : LitEnc plistCloseRunes c) :
    ∃ c2, c = 0x3C :: c2 ∧ 0x3C ∉ c2 := by
  obtain ⟨x, hx, e2, he1, h2⟩ := h
  rw [foldEncodings_lt_self] at hx
  simp only [List.mem_singleton] at hx
  subst hx
  refine ⟨e2, by rw [he1]; rfl, ?_⟩
  exact litEnc_not_mem 0x3C foldEncodings_lt _ (by decide) e2 h2

/-- A text the plist step could have returned holds no plist element that ends
before its end. -/
theorem tight_of_element (o u c : Bytes) (ho : PlistOpen o) (hc : LitEnc plistCloseRunes c)
    (hfirst : ∀ u1 u2, u = u1 ++ u2 → u2 ≠ [] →
      matchHere (lit "</plist>") none (u2 ++ c) = none) :
    PlistTight (o ++ u ++ c) := by
  intro x o2 u2 c2 z hw ho2 hc2
  obtain ⟨t, hot, htno⟩ := tagOpen_split plistOpenRunes (by decide) o ho
  obtain ⟨t2, hot2, _⟩ := tagOpen_split plistOpenRunes (by decide) o2 ho2
  have h1 : t ++ 0x3E :: (u ++ c) = (x ++ t2) ++ 0x3E :: (u2 ++ c2 ++ z) := by
    have : o ++ u ++ c = t ++ 0x3E :: (u ++ c) := by rw [hot]; simp
    rw [← this, hw, hot2]
    simp
  obtain ⟨a0, ha0⟩ := first_gt t (x ++ t2) _ _ htno h1
  have h2 : u ++ c = (a0 ++ u2) ++ (c2 ++ z) := by rw [ha0]; simp
  have hsome : matchHere (lit "</plist>") none (c2 ++ z) = some [z] :=
    matchHere_plist_close_intro c2 z none hc2
  rcases List.append_eq_append_iff.mp h2 with ⟨a, ha, hb⟩ | ⟨d, hd1, hd2⟩
  · -- `a0 ++ u2 = u ++ a`, `c = a ++ (c2 ++ z)`
    rcases a with _ | ⟨b0, a⟩
    · simp only [List.nil_append] at hb
      have := litEnc_prefix_unique plistCloseRunes c c2 [] z hc hc2 (by rw [List.append_nil, hb])
      exact this.2.symm
    · exfalso
      obtain ⟨c3, hc3, hno⟩ := litEnc_plistClose_lt c hc
      obtain ⟨c4, hc4, _⟩ := litEnc_plistClose_lt c2 hc2
      rw [hc3, hc4] at hb
      simp only [List.cons_append, List.cons.injEq] at hb
      apply hno
      rw [hb.2]
      simp
  · -- `u = (a0 ++ u2) ++ d`, `c2 ++ z = d ++ c`
    rcases d with _ | ⟨d0, d⟩
    · simp only [List.nil_append] at hd2
      have := litEnc_prefix_unique plistCloseRunes c c2 [] z hc hc2 (by rw [List.append_nil, hd2])
      exact this.2.symm
    · exfalso
      have := hfirst (a0 ++ u2) (d0 :: d) hd1 (by simp)
      rw [← hd2, hsome] at this
      simp at this

theorem tight_of_no_match (w : Bytes) (h : plistXMLPattern.Match w = false) : PlistTight w := by
  intro x o u c z hw ho hc
  exfalso
  have := plist_element_match x o u c z ho hc
  rw [← hw, h] at this
  simp at this

/-- The working body is a plist element in whose inside no closing plist tag
starts, or it matches the plist pattern nowhere. -/
theorem workingBody_plist_cases (t : Bytes) :
    (∃ o u c, workingBody t = o ++ u ++ c ∧ PlistOpen o ∧ LitEnc plistCloseRunes c ∧
      ∀ u1 u2, u = u1 ++ u2 → u2 ≠ [] → matchHere (lit "</plist>") none (u2 ++ c) = none) ∨
    plistXMLPattern.Match (workingBody t) = false := by
  unfold workingBody
  simp only []
  generalize (if 0 < (extractDocumentInnerBody t).length then extractDocumentInnerBody t else t)
    = n0
  by_cases h : 0 < (extractEmbeddedPlist n0).length
  · simp only [h, if_true]
    left
    exact extractEmbeddedPlist_shape _ h
  · simp only [h, if_false]
    right
    apply extractEmbeddedPlist_nil
    exact List.length_eq_zero.mp (Nat.eq_zero_of_not_pos h)

theorem workingBody_tight (t : Bytes) : PlistTight (workingBody t) := by
  rcases workingBody_plist_cases t with ⟨o, u, c, hw, ho, hc, hfirst⟩ | h
  · rw [hw]; exact tight_of_element o u c ho hc hfirst
  · exact tight_of_no_match _ h

theorem foldEncodings_s : foldEncodings 0x73 = [[0x73], [0x53], [0xC5, 0xBF]] := by decide

theorem foldEncodings_t : foldEncodings 0x74 = [[0x74], [0x54]] := by decide

theorem foldEncodings_c : foldEncodings 0x63 = [[0x63], [0x43]] := by decide

theorem foldEncodings_p : foldEncodings 0x70 = [[0x70], [0x50]] := by decide

/-- How a closing plist tag ends: a folded `s`, a folded `t`, `>`. -/
theorem litEnc_plistClose_tail (c : Bytes) (h : LitEnc plistCloseRunes c) :
    ∃ c2 x y, c = c2 ++ [x, y, 0x3E] ∧ (x = 0x73 ∨ x = 0x53 ∨ x = 0xBF) := by
  obtain ⟨x1, _, r1, rfl, h⟩ := h
  obtain ⟨x2, _, r2, rfl, h⟩ := h
  obtain ⟨x3, _, r3, rfl, h⟩ := h
  obtain ⟨x4, _, r4, rfl, h⟩ := h
  obtain ⟨x5, _, r5, rfl, h⟩ := h
  obtain ⟨x6, h6, r6, rfl, h⟩ := h
  obtain ⟨x7, h7, r7, rfl, h⟩ := h
  obtain ⟨x8, h8, r8, rfl, h⟩ := h
  simp only [LitEnc] at h
  subst h
  rw [foldEncodings_gt_self] at h8
  rw [foldEncodings_t] at h7
  rw [foldEncodings_s] at h6
  simp only [List.mem_cons, List.mem_singleton, List.not_mem_nil, or_false] at h6 h7 h8
  subst h8
  rcases h6 with rfl | rfl | rfl <;> rcases h7 with rfl | rfl
  · exact ⟨x1 ++ x2 ++ x3 ++ x4 ++ x5, 0x73, 0x74, by simp, Or.inl rfl⟩
  · exact ⟨x1 ++ x2 ++ x3 ++ x4 ++ x5, 0x73, 0x54, by simp, Or.inl rfl⟩
  · exact ⟨x1 ++ x2 ++ x3 ++ x4 ++ x5, 0x53, 0x74, by simp, Or.inr (Or.inl rfl)⟩
  · exact ⟨x1 ++ x2 ++ x3 ++ x4 ++ x5, 0x53, 0x54, by simp, Or.inr (Or.inl rfl)⟩
  · exact ⟨x1 ++ x2 ++ x3 ++ x4 ++ x5 ++ [0xC5], 0xBF, 0x74, by simp, Or.inr (Or.inr rfl)⟩
  · exact ⟨x1 ++ x2 ++ x3 ++ x4 ++ x5 ++ [0xC5], 0xBF, 0x54, by simp, Or.inr (Or.inr rfl)⟩

/-- How a closing dict tag ends: a folded `c`, a folded `t`, `>`. -/
theorem litEnc_dictClose_tail (c : Bytes) (h : LitEnc dictCloseRunes c) :
    ∃ c2 x y, c = c2 ++ [x, y, 0x3E] ∧ (x = 0x63 ∨ x = 0x43) := by
  obtain ⟨x1, _, r1, rfl, h⟩ := h
  obtain ⟨x2, _, r2, rfl, h⟩ := h
  obtain ⟨x3, _, r3, rfl, h⟩ := h
  obtain ⟨x4, _, r4, rfl, h⟩ := h
  obtain ⟨x5, h5, r5, rfl, h⟩ := h
  obtain ⟨x6, h6, r6, rfl, h⟩ := h
  obtain ⟨x7, h7, r7, rfl, h⟩ := h
  simp only [LitEnc] at h
  subst h
  rw [foldEncodings_gt_self] at h7
  rw [foldEncodings_t] at h6
  rw [foldEncodings_c] at h5
  simp only [List.mem_cons, List.mem_singleton, List.not_mem_nil, or_false] at h5 h6 h7
  subst h7
  rcases h5 with rfl | rfl <;> rcases h6 with rfl | rfl
  · exact ⟨x1 ++ x2 ++ x3 ++ x4, 0x63, 0x74, by simp, Or.inl rfl⟩
  · exact ⟨x1 ++ x2 ++ x3 ++ x4, 0x63, 0x54, by simp, Or.inl rfl⟩
  · exact ⟨x1 ++ x2 ++ x3 ++ x4, 0x43, 0x74, by simp, Or.inr rfl⟩
  · exact ⟨x1 ++ x2 ++ x3 ++ x4, 0x43, 0x54, by simp, Or.inr rfl⟩

/-- A text cannot end with a closing plist tag and with a closing dict tag. -/
theorem close_tags_differ (a c b d : Bytes) (hc : LitEnc plistCloseRunes c)
    (hd : LitEnc dictCloseRunes d) : a ++ c ≠ b ++ d := by
  intro h
  obtain ⟨c2, x, y, rfl, hx⟩ := litEnc_plistClose_tail c hc
  obtain ⟨d2, x2, y2, rfl, hx2⟩ := litEnc_dictClose_tail d hd
  rw [← List.append_assoc, ← List.append_assoc] at h
  have := (List.append_inj' h rfl).2
  simp only [List.cons.injEq, and_true] at this
  omega

/-- The dict step on a working body returns a text in which the plist step
finds nothing. -/
theorem extractEmbeddedPlist_of_dict (w : Bytes) (ht : PlistTight w)
    (hd : 0 < (extractEmbeddedDict w).length) :
    extractEmbeddedPlist (extractEmbeddedDict w) = [] := by
  have hfind : dictXMLPattern.Find w ≠ [] := by
    intro e
    unfold extractEmbeddedDict at hd
    simp [e] at hd
  obtain ⟨pre, o, u, c, rest, hw, hf, ho, hc, _⟩ := find_dict_shape w hfind
  obtain ⟨o2, ho2⟩ := dictOpen_first o ho
  obtain ⟨c2, hc2⟩ := litEnc_dictClose_last c hc
  have htag : o ++ u ++ c = 0x3C :: ((o2 ++ u ++ c2) ++ [0x3E]) := by
    rw [ho2, hc2]; simp
  have hval : extractEmbeddedDict w = o ++ u ++ c := by
    unfold extractEmbeddedDict
    simp only [hf]
    rw [htag]
    simp only [List.length_cons, Nat.succ_ne_zero, if_false, TrimSpace_tagged]
  rw [hval]
  apply extractEmbeddedPlist_of_not_match
  cases hm : plistXMLPattern.Match (o ++ u ++ c) with
  | false => rfl
  | true =>
    exfalso
    unfold Regexp.Match at hm
    cases hfa : findAt plistXMLPattern none (o ++ u ++ c) with
    | none => rw [hfa] at hm; simp at hm
    | some r =>
      obtain ⟨st, mk⟩ := r
      obtain ⟨a, q, hn, hmm⟩ := findAt_some _ _ _ _ _ hfa
      obtain ⟨po, pu, pc, pr, hst, _, hpo, hpc, _⟩ := plist_match_shape q st mk hmm
      have hw2 : w = (pre ++ a) ++ (po ++ pu ++ pc) ++ (pr ++ rest) := by
        rw [hw, hn, hst]; simp
      have hz := ht _ _ _ _ _ hw2 hpo hpc
      obtain ⟨hpr, _⟩ := List.append_eq_nil.mp hz
      subst hpr
      rw [hst, List.append_nil] at hn
      have h1 : (a ++ po ++ pu) ++ pc = (o ++ u) ++ c := by rw [hn]; simp
      exact close_tags_differ _ pc _ c hpc hc h1

/-! ## Plist elements inside a wrapped fragment -/

theorem plistOpen_first2 (o : Bytes) (h : PlistOpen o) :
    ∃ p o3, o = 0x3C :: p :: o3 ∧ (p = 0x70 ∨ p = 0x50) := by
  obtain ⟨e1, enc, tag, ho, hl1, _, _, _⟩ := h
  obtain ⟨x1, hx1, r1, rfl, hl2⟩ := hl1
  obtain ⟨x2, hx2, r2, rfl, _⟩ := hl2
  rw [foldEncodings_lt_self] at hx1
  rw [foldEncodings_p] at hx2
  simp only [List.mem_cons, List.mem_singleton, List.not_mem_nil, or_false] at hx1 hx2
  subst hx1
  rcases hx2 with rfl | rfl
  · exact ⟨0x70, r2 ++ enc ++ tag ++ [0x3E], by rw [ho]; simp, Or.inl rfl⟩
  · exact ⟨0x50, r2 ++ enc ++ tag ++ [0x3E], by rw [ho]; simp, Or.inr rfl⟩

/-- A plist element that starts somewhere in `<dict>` followed by a text starts
in that text. -/
theorem prefix_split (a w st : Bytes) (p : Nat) (hp : p = 0x70 ∨ p = 0x50)
    (h : ascii "<dict>" ++ w = a ++ 0x3C :: p :: st) :
    ∃ a2, a = ascii "<dict>" ++ a2 ∧ w = a2 ++ 0x3C :: p :: st := by
  rw [ascii_dict_open] at h ⊢
  rcases a with _ | ⟨a0, _ | ⟨a1, _ | ⟨a2, _ | ⟨a3, _ | ⟨a4, _ | ⟨a5, a⟩⟩⟩⟩⟩⟩
  · simp at h; omega
  · simp at h
  · simp at h
  · simp at h
  · simp at h
  · simp at h
  · simp only [List.cons_append, List.nil_append, List.cons.injEq] at h
    obtain ⟨h0, h1, h2, h3, h4, h5, h6⟩ := h
    exact ⟨a, by rw [← h0, ← h1, ← h2, ← h3, ← h4, ← h5]; rfl, h6⟩

/-- A plist element that ends somewhere in a text followed by `</dict>` ends in
that text. -/
theorem suffix_split (M r W : Bytes) (x y : Nat) (hx : x = 0x73 ∨ x = 0x53 ∨ x = 0xBF)
    (h : M ++ [x, y, 0x3E] ++ r = W ++ ascii "</dict>") :
    ∃ r2, r = r2 ++ ascii "</dict>" ∧ W = M ++ [x, y, 0x3E] ++ r2 := by
  rw [ascii_dict_close] at h ⊢
  have h2 := congrArg List.reverse h
  simp only [List.reverse_append, List.reverse_cons, List.reverse_nil, List.nil_append,
    List.cons_append, List.append_assoc] at h2
  have hr : r = r.reverse.reverse := (List.reverse_reverse r).symm
  generalize r.reverse = R at h2 hr
  rcases R with _ | ⟨r0, _ | ⟨r1, _ | ⟨r2, _ | ⟨r3, _ | ⟨r4, _ | ⟨r5, _ | ⟨r6, R⟩⟩⟩⟩⟩⟩⟩
  · simp at h2; omega
  · simp at h2
  · simp at h2
  · simp at h2
  · simp at h2
  · simp at h2
  · simp at h2
  · simp only [List.cons_append, List.cons.injEq] at h2
    obtain ⟨h0, h1, h2', h3, h4, h5, h6, h7⟩ := h2
    subst h0 h1 h2' h3 h4 h5 h6
    refine ⟨R.reverse, by rw [hr]; simp, ?_⟩
    have h8 := congrArg List.reverse h7
    simp only [List.reverse_append, List.reverse_cons, List.reverse_nil, List.nil_append,
      List.reverse_reverse, List.append_assoc, List.cons_append] at h8
    rw [← h8]
    simp

/-- Wrapping a text in `<dict>` and `</dict>` adds no plist element. -/
theorem no_plist_in_wrapped (w : Bytes) (h : plistXMLPattern.Match w = false) :
    plistXMLPattern.Match (ascii "<dict>" ++ w ++ ascii "</dict>") = false := by
  cases hm : plistXMLPattern.Match (ascii "<dict>" ++ w ++ ascii "</dict>") with
  | false => rfl
  | true =>
    exfalso
    unfold Regexp.Match at hm
    cases hfa : findAt plistXMLPattern none (ascii "<dict>" ++ w ++ ascii "</dict>") with
    | none => rw [hfa] at hm; simp at hm
    | some r =>
      obtain ⟨st, mk⟩ := r
      obtain ⟨a, q, hn, hmm⟩ := findAt_some _ _ _ _ _ hfa
      obtain ⟨o, u, c, r, hst, _, ho, hc, _⟩ := plist_match_shape q st mk hmm
      obtain ⟨p, o3, ho3, hp⟩ := plistOpen_first2 o ho
      obtain ⟨c2, x, y, hc2, hx⟩ := litEnc_plistClose_tail c hc
      have h1 : ascii "<dict>" ++ (w ++ ascii "</dict>") = a ++ 0x3C :: p :: (o3 ++ u ++ c ++ r) := by
        rw [← List.append_assoc, hn, hst, ho3]; simp
      obtain ⟨a2, ha2, hw1⟩ := prefix_split a _ _ p hp h1
      have h2 : (a2 ++ o ++ u ++ c2) ++ [x, y, 0x3E] ++ r = w ++ ascii "</dict>" := by
        rw [hw1, ho3, hc2]; simp
      obtain ⟨r2, hr2, hw2⟩ := suffix_split _ r w x y hx h2
      have hw3 : w = a2 ++ (o ++ u ++ c) ++ r2 := by
        rw [hw2, hc2]; simp
      have := plist_element_match a2 o u c r2 ho hc
      rw [← hw3, h] at this
      simp at this

theorem noHit_plist_dict_open (y : Bytes) :
    NoHit (fun t => matchHere plistXMLPattern none t) (ascii "<dict>") y := by
  unfold plistXMLPattern
  rw [ascii_dict_open, lit_plist_open]
  repeat' apply noHit_cons
  all_goals first
    | exact noHit_nil _ _
    | simp [matchHere, firstAlt, foldEncodings, stripPrefix]

/-- The plist step on a plist element wrapped in `<dict>` and `</dict>` returns
the element. -/
theorem extractEmbeddedPlist_wrapped_element (o u c : Bytes) (ho : PlistOpen o)
    (hc : LitEnc plistCloseRunes c)
    (hfirst : ∀ u1 u2, u = u1 ++ u2 → u2 ≠ [] →
      matchHere (lit "</plist>") none (u2 ++ c) = none) :
    extractEmbeddedPlist (ascii "<dict>" ++ (o ++ u ++ c) ++ ascii "</dict>") = o ++ u ++ c := by
  have hfirst2 : ∀ u1 u2, u = u1 ++ u2 → u2 ≠ [] →
      matchHere (lit "</plist>") none (u2 ++ (c ++ ascii "</dict>")) = none := by
    intro u1 u2 e ne
    cases hm : matchHere (lit "</plist>") none (u2 ++ (c ++ ascii "</dict>")) with
    | none => rfl
    | some mk =>
      exfalso
      have hs := closing_stops_at_lt [0x2F, 0x70, 0x6C, 0x69, 0x73, 0x74, 0x3E] (by decide)
        (u2 ++ c) [0x2F, 0x64, 0x69, 0x63, 0x74, 0x3E] (by simp [ne]) none (by
          have e1 : lit "</plist>" = (0x3C :: [0x2F, 0x70, 0x6C, 0x69, 0x73, 0x74, 0x3E]).map
            Node.literal := rfl
          have e2 : u2 ++ c ++ 0x3C :: [0x2F, 0x64, 0x69, 0x63, 0x74, 0x3E]
              = u2 ++ (c ++ ascii "</dict>") := by
            rw [ascii_dict_close]; simp
          rw [← e1, e2, hm]; rfl)
      have e1 : lit "</plist>" = (0x3C :: [0x2F, 0x70, 0x6C, 0x69, 0x73, 0x74, 0x3E]).map
        Node.literal := rfl
      rw [← e1, hfirst u1 u2 e ne] at hs
      simp at hs
  have hm := plist_match_intro none o u c (ascii "</dict>") ho hc hfirst2
  obtain ⟨o2, ho2⟩ := plistOpen_first o ho
  obtain ⟨m, hm2⟩ := plist_element_tagged o u c ho hc
  have hf : plistXMLPattern.Find (ascii "<dict>" ++ (o ++ u ++ c) ++ ascii "</dict>")
      = o ++ u ++ c := by
    unfold Regexp.Find
    rw [List.append_assoc (ascii "<dict>"),
      findAt_skip plistXMLPattern plistXMLPattern_prev _ _ none (noHit_plist_dict_open _)]
    have hcons : o ++ u ++ c ++ ascii "</dict>" = 0x3C :: (o2 ++ u ++ c ++ ascii "</dict>") := by
      rw [ho2]; simp
    rw [hcons] at hm ⊢
    rw [findAt_cons, hm]
    simp only [List.headD]
    rw [← hcons]
    exact span_append _ _
  unfold extractEmbeddedPlist
  simp only [hf]
  rw [hm2]
  simp only [List.length_cons, Nat.succ_ne_zero, if_false, TrimSpace_tagged]

/-! ## C1: normalizing twice -/

set_option maxRecDepth 100000 in
/-- C1, as stated, fails: the body
`<Document><dict><Document>x</Document></dict></Document>` normalizes, by the
dict step, to the dict `<dict><Document>x</Document></dict>`, and normalizing
that dict gives `x`. -/
theorem normalize_not_idempotent :
    0 < (extractEmbeddedDict (workingBody (TrimSpace
        (ascii "<Document><dict><Document>x</Document></dict></Document>")))).length ∧
      normalizeXMLPlistBody (ascii "<Document><dict><Document>x</Document></dict></Document>")
        = ascii "<dict><Document>x</Document></dict>" ∧
      normalizeXMLPlistBody (normalizeXMLPlistBody
          (ascii "<Document><dict><Document>x</Document></dict></Document>"))
        = ascii "x" := by
  refine ⟨by decide, by decide, by decide⟩

/-- C1, amended: when the normalizer returned a dict, from the dict step or by
wrapping a `<key>` fragment, and the Document step finds nothing in that dict,
normalizing the dict returns it unchanged. -/
theorem normalize_idempotent_on_dict (b : Bytes)
    (hstep : 0 < (extractEmbeddedDict (workingBody (TrimSpace b))).length ∨
      Contains (workingBody (TrimSpace b)) (ascii "<key>") = true)
    (hdoc : extractDocumentInnerBody (normalizeXMLPlistBody b) = []) :
    normalizeXMLPlistBody (normalizeXMLPlistBody b) = normalizeXMLPlistBody b := by
  by_cases hne : TrimSpace b = []
  · have h0 : normalizeXMLPlistBody b = [] := by
      unfold normalizeXMLPlistBody
      simp [hne]
    rw [h0]
    decide
  · by_cases hd : 0 < (extractEmbeddedDict (workingBody (TrimSpace b))).length
    · -- returned by the dict step
      have hn : normalizeXMLPlistBody b = extractEmbeddedDict (workingBody (TrimSpace b)) := by
        rw [normalize_eq_working b hne]
        simp only [hd, if_true]
      obtain ⟨⟨m, hm⟩, hfix⟩ := extractEmbeddedDict_fixed _ hd
      have hplist := extractEmbeddedPlist_of_dict _ (workingBody_tight (TrimSpace b)) hd
      rw [hn] at hdoc ⊢
      have htrim : TrimSpace (extractEmbeddedDict (workingBody (TrimSpace b)))
          = extractEmbeddedDict (workingBody (TrimSpace b)) := by
        rw [hm]; exact TrimSpace_tagged _
      have hne2 : TrimSpace (extractEmbeddedDict (workingBody (TrimSpace b))) ≠ [] := by
        rw [htrim, hm]; simp
      rw [normalize_of_no_wrapper _ hne2 (by rw [htrim]; exact hdoc) (by rw [htrim]; exact hplist),
        htrim, hfix]
      simp only [hd, if_true]
    · -- returned by wrapping a `<key>` fragment
      have hk : Contains (workingBody (TrimSpace b)) (ascii "<key>") = true := by
        rcases hstep with h | h
        · exact absurd h hd
        · exact h
      have hn : normalizeXMLPlistBody b
          = ascii "<dict>" ++ workingBody (TrimSpace b) ++ ascii "</dict>" := by
        rw [normalize_eq_working b hne]
        simp only [hd, if_false, hk, if_true]
      rw [hn] at hdoc ⊢
      have htrim := trimSpace_dict_bare (workingBody (TrimSpace b))
      have hlen : 0 < (ascii "<dict>" ++ workingBody (TrimSpace b) ++ ascii "</dict>").length := by
        rw [ascii_dict_open]; simp
      have hne2 : TrimSpace (ascii "<dict>" ++ workingBody (TrimSpace b) ++ ascii "</dict>")
          ≠ [] := by
        rw [htrim, ascii_dict_open]; simp
      rcases workingBody_plist_cases (TrimSpace b) with ⟨o, u, c, hw, ho, hc, hfirst⟩ | hnone
      · -- the fragment is a plist element: the plist step unwraps it, the
        -- `<key>` fallback wraps it again
        have hp := extractEmbeddedPlist_wrapped_element o u c ho hc hfirst
        rw [← hw] at hp
        obtain ⟨m, hm2⟩ := plist_element_tagged o u c ho hc
        have hwlen : 0 < (workingBody (TrimSpace b)).length := by
          rw [hw, hm2]; simp
        have hlen0 : ¬ (ascii "<dict>" ++ workingBody (TrimSpace b) ++ ascii "</dict>").length = 0 :=
          Nat.pos_iff_ne_zero.mp hlen
        have hdoclen : ¬ 0 < ([] : Bytes).length := by simp
        unfold normalizeXMLPlistBody
        simp only [htrim, hlen0, if_false, hdoc, hdoclen, hp, hwlen, if_true, hd, hk]
      · have hplist : extractEmbeddedPlist
            (ascii "<dict>" ++ workingBody (TrimSpace b) ++ ascii "</dict>") = [] :=
          extractEmbeddedPlist_of_not_match _ (no_plist_in_wrapped _ hnone)
        rw [normalize_of_no_wrapper _ hne2 (by rw [htrim]; exact hdoc)
            (by rw [htrim]; exact hplist),
          htrim, extractEmbeddedDict_bare]
        simp only [hlen, if_true]

set_option maxRecDepth 100000 in
/-- Witness of `normalize_idempotent_on_dict`: the dict returned for a plist
that holds two dicts in an array. -/
theorem normalize_idempotent_on_dict_witness :
    0 < (extractEmbeddedDict (workingBody (TrimSpace
        (ascii "<plist><array><dict>a</dict><dict>b</dict></array></plist>")))).length ∧
      extractDocumentInnerBody (normalizeXMLPlistBody
        (ascii "<plist><array><dict>a</dict><dict>b</dict></array></plist>")) = [] ∧
      normalizeXMLPlistBody (normalizeXMLPlistBody
          (ascii "<plist><array><dict>a</dict><dict>b</dict></array></plist>"))
        = normalizeXMLPlistBody
          (ascii "<plist><array><dict>a</dict><dict>b</dict></array></plist>") :=
  ⟨by decide, by decide,
   normalize_idempotent_on_dict
     (ascii "<plist><array><dict>a</dict><dict>b</dict></array></plist>")
     (Or.inl (by decide)) (by decide)⟩

/-! ## The return statements of `Send` -/

theorem send_cases {R : Type} [Inhabited R] (c : client R) (req : Request)
    (P : SendOutcome R → Prop)
    (hPayload : ∀ err, req.payloadData = .error err →
      P { result := Result.zero R, err := some (.wrap "failed to get payload data" err),
          events := [] })
    (hCreate : ∀ data err, req.payloadData = .ok data →
      c.NewRequest req.Method req.URL data = .error err →
      P { result := Result.zero R, err := some (.wrap "failed to create request" err),
          events := [] })
    (hDo : ∀ data request err, req.payloadData = .ok data →
      c.NewRequest req.Method req.URL data = .ok request →
      c.Do (applyHeaders request req.Headers) = .error err →
      P { result := Result.zero R, err := some (.wrap "request failed" err),
          events := [.networkCall (applyHeaders request req.Headers)] })
    (hSave : ∀ data request res err, req.payloadData = .ok data →
      c.NewRequest req.Method req.URL data = .ok request →
      c.Do (applyHeaders request req.Headers) = .ok res → c.Save = some err →
      P { result := Result.zero R, err := some (.wrap "failed to save cookies" err),
          events := [.networkCall (applyHeaders request req.Headers), .cookieSave] })
    (hJSON : ∀ data request res, req.payloadData = .ok data →
      c.NewRequest req.Method req.URL data = .ok request →
      c.Do (applyHeaders request req.Headers) = .ok res → c.Save = none →
      req.ResponseFormat = ResponseFormatJSON →
      P { result := (c.handleJSONResponse res).1, err := (c.handleJSONResponse res).2,
          events := [.networkCall (applyHeaders request req.Headers), .cookieSave] })
    (hXML : ∀ data request res, req.payloadData = .ok data →
      c.NewRequest req.Method req.URL data = .ok request →
      c.Do (applyHeaders request req.Headers) = .ok res → c.Save = none →
      req.ResponseFormat ≠ ResponseFormatJSON → req.ResponseFormat = ResponseFormatXML →
      P { result := (c.handleXMLResponse res).1, err := (c.handleXMLResponse res).2,
          events := [.networkCall (applyHeaders request req.Headers), .cookieSave] })
    (hOther : ∀ data request res, req.payloadData = .ok data →
      c.NewRequest req.Method req.URL data = .ok request →
      c.Do (applyHeaders request req.Headers) = .ok res → c.Save = none →
      req.ResponseFormat ≠ ResponseFormatJSON → req.ResponseFormat ≠ ResponseFormatXML →
      P { result := Result.zero R,
          err := some (.new ("content type is not supported (" ++ req.ResponseFormat ++ ")")),
          events := [.networkCall (applyHeaders request req.Headers), .cookieSave] }) :
    P (c.Send req) := by
  unfold client.Send
  cases hp : req.payloadData with
  | error err => exact hPayload err hp
  | ok data =>
    simp only []
    cases hn : c.NewRequest req.Method req.URL data with
    | error err => exact hCreate data err hp hn
    | ok request =>
      simp only []
      cases hd : c.Do (applyHeaders request req.Headers) with
      | error err => exact hDo data request err hp hn hd
      | ok res =>
        simp only []
        cases hs : c.Save with
        | some err => exact hSave data request res err hp hn hd hs
        | none =>
          simp only []
          by_cases hj : req.ResponseFormat = ResponseFormatJSON
          · simp only [hj, if_true]
            exact hJSON data request res hp hn hd hs hj
          · by_cases hx : req.ResponseFormat = ResponseFormatXML
            · simp only [hj, hx, if_true, if_false]
              have := hXML data request res hp hn hd hs hj hx
              simpa [hx] using this
            · simp only [hj, hx, if_false]
              exact hOther data request res hp hn hd hs hj hx

theorem handleJSON_error_zero {R : Type} [Inhabited R] (c : client R) (res : HttpResponse)
    (h : (c.handleJSONResponse res).2 ≠ none) : (c.handleJSONResponse res).1 = Result.zero R := by
  revert h
  unfold client.handleJSONResponse
  cases res.Body with
  | error err => intro _; rfl
  | ok body =>
    simp only []
    cases c.jsonUnmarshal body with
    | error err => intro _; rfl
    | ok data => intro h; exact absurd rfl h

theorem handleXML_error_zero {R : Type} [Inhabited R] (c : client R) (res : HttpResponse)
    (h : (c.handleXMLResponse res).2 ≠ none) : (c.handleXMLResponse res).1 = Result.zero R := by
  revert h
  unfold client.handleXMLResponse
  cases res.Body with
  | error err => intro _; rfl
  | ok body =>
    simp only []
    cases c.plistUnmarshal (normalizeXMLPlistBody body) with
    | error err => intro _; rfl
    | ok data => intro h; exact absurd rfl h

/-! ## C2: an unsupported response format -/

/-- C2, as stated, fails: with the format "yaml" and every collaborator
succeeding, `Send` reports "content type is not supported (yaml)" only after it
has issued the network call and saved the cookies. -/
theorem send_unsupported_format_after_network :
    (happyClient.Send yamlRequest).events
        = [.networkCall { Method := "GET", URL := "https://example.com", Header := [], Body := [] },
           .cookieSave]
      ∧ (happyClient.Send yamlRequest).err
        = some (.new "content type is not supported (yaml)") := by
  constructor <;> rfl

/-- C2, amended: with a format that is neither JSON nor XML `Send` always
returns an error with the zero Result, and the format is looked at last. A
failure of an earlier stage is reported with the message of that stage around
the error of the stage: "failed to get payload data" and "failed to create
request" before any network call, "request failed" after the network call,
"failed to save cookies" after the network call and the cookie save. When all
four stages succeed, the error is "content type is not supported (<format>)",
raised after exactly one network call and one cookie save. -/
theorem send_unsupported_format {R : Type} [Inhabited R] (c : client R) (req : Request)
    (hj : req.ResponseFormat ≠ ResponseFormatJSON) (hx : req.ResponseFormat ≠ ResponseFormatXML) :
    (c.Send req).err ≠ none ∧ (c.Send req).result = Result.zero R ∧
    (∀ e, req.payloadData = .error e →
      (c.Send req).err = some (.wrap "failed to get payload data" e) ∧
        (c.Send req).events = []) ∧
    (∀ data e, req.payloadData = .ok data →
      c.NewRequest req.Method req.URL data = .error e →
      (c.Send req).err = some (.wrap "failed to create request" e) ∧
        (c.Send req).events = []) ∧
    (∀ data request e, req.payloadData = .ok data →
      c.NewRequest req.Method req.URL data = .ok request →
      c.Do (applyHeaders request req.Headers) = .error e →
      (c.Send req).err = some (.wrap "request failed" e) ∧
        (c.Send req).events = [.networkCall (applyHeaders request req.Headers)]) ∧
    (∀ data request res e, req.payloadData = .ok data →
      c.NewRequest req.Method req.URL data = .ok request →
      c.Do (applyHeaders request req.Headers) = .ok res →
      c.Save = some e →
      (c.Send req).err = some (.wrap "failed to save cookies" e) ∧
        (c.Send req).events = [.networkCall (applyHeaders request req.Headers), .cookieSave]) ∧
    (∀ data request res,
      req.payloadData = .ok data →
      c.NewRequest req.Method req.URL data = .ok request →
      c.Do (applyHeaders request req.Headers) = .ok res →
      c.Save = none →
      (c.Send req).err
          = some (.new ("content type is not supported (" ++ req.ResponseFormat ++ ")")) ∧
        (∀ e, (c.Send req).err = some e →
          containsSubstring e.message "content type is not supported") ∧
        (c.Send req).events = [.networkCall (applyHeaders request req.Headers), .cookieSave]) := by
  refine ⟨?_, ?_, ?_, ?_, ?_, ?_, ?_⟩
  · refine send_cases c req (fun o => o.err ≠ none) ?_ ?_ ?_ ?_ ?_ ?_ ?_
    · intro _ _; simp
    · intro _ _ _ _; simp
    · intro _ _ _ _ _ _; simp
    · intro _ _ _ _ _ _ _ _; simp
    · intro _ _ _ _ _ _ _ h; exact absurd h hj
    · intro _ _ _ _ _ _ _ _ h; exact absurd h hx
    · intro _ _ _ _ _ _ _ _ _; simp
  · refine send_cases c req (fun o => o.result = Result.zero R) ?_ ?_ ?_ ?_ ?_ ?_ ?_
    · intro _ _; rfl
    · intro _ _ _ _; rfl
    · intro _ _ _ _ _ _; rfl
    · intro _ _ _ _ _ _ _ _; rfl
    · intro _ _ _ _ _ _ _ h; exact absurd h hj
    · intro _ _ _ _ _ _ _ _ h; exact absurd h hx
    · intro _ _ _ _ _ _ _ _ _; rfl
  · intro e hp
    have hsend : c.Send req =
        { result := Result.zero R, err := some (.wrap "failed to get payload data" e),
          events := [] } := by
      unfold client.Send
      simp only [hp]
    rw [hsend]
    exact ⟨rfl, rfl⟩
  · intro data e hp hn
    have hsend : c.Send req =
        { result := Result.zero R, err := some (.wrap "failed to create request" e),
          events := [] } := by
      unfold client.Send
      simp only [hp, hn]
    rw [hsend]
    exact ⟨rfl, rfl⟩
  · intro data request e hp hn hd
    have hsend : c.Send req =
        { result := Result.zero R, err := some (.wrap "request failed" e),
          events := [.networkCall (applyHeaders request req.Headers)] } := by
      unfold client.Send
      simp only [hp, hn, hd]
    rw [hsend]
    exact ⟨rfl, rfl⟩
  · intro data request res e hp hn hd hs
    have hsend : c.Send req =
        { result := Result.zero R, err := some (.wrap "failed to save cookies" e),
          events := [.networkCall (applyHeaders request req.Headers), .cookieSave] } := by
      unfold client.Send
      simp only [hp, hn, hd, hs]
    rw [hsend]
    exact ⟨rfl, rfl⟩
  · intro data request res hp hn hd hs
    have hsend : c.Send req =
        { result := Result.zero R,
          err := some (.new ("content type is not supported (" ++ req.ResponseFormat ++ ")")),
          events := [.networkCall (applyHeaders request req.Headers), .cookieSave] } := by
      unfold client.Send
      simp only [hp, hn, hd, hs, hj, hx, if_false]
    rw [hsend]
    refine ⟨rfl, ?_, rfl⟩
    intro e he
    cases he
    show containsSubstring ("content type is not supported (" ++ req.ResponseFormat ++ ")") _
    have h0 : containsSubstring ("content type is not supported" ++ " (")
        "content type is not supported" :=
      ⟨[], " (".data, by simp⟩
    have h1 : ("content type is not supported (" : String)
        = "content type is not supported" ++ " (" := by decide
    rw [h1]
    exact containsSubstring_append_left _ _ _ (containsSubstring_append_left _ _ _ h0)

/-- Witness of `send_unsupported_format`: the format "yaml" on a client whose
collaborators all succeed, and on a client whose network call fails. -/
theorem send_unsupported_format_witness :
    yamlRequest.ResponseFormat ≠ ResponseFormatJSON ∧
      yamlRequest.ResponseFormat ≠ ResponseFormatXML ∧
      (happyClient.Send yamlRequest).result = Result.zero Unit ∧
      (happyClient.Send yamlRequest).err
        = some (.new "content type is not supported (yaml)") ∧
      (happyClient.Send yamlRequest).events
        = [.networkCall { Method := "GET", URL := "https://example.com", Header := [],
                          Body := [] },
           .cookieSave] ∧
      (offlineClient.Send yamlRequest).err = some (.wrap "request failed" (.new "offline")) ∧
      (offlineClient.Send yamlRequest).events
        = [.networkCall { Method := "GET", URL := "https://example.com", Header := [],
                          Body := [] }] :=
  have h := send_unsupported_format happyClient yamlRequest (by decide) (by decide)
  have h2 := send_unsupported_format offlineClient yamlRequest (by decide) (by decide)
  ⟨by decide, by decide, h.2.1,
   (h.2.2.2.2.2.2 [] _ _ rfl rfl rfl rfl).1,
   (h.2.2.2.2.2.2 [] _ _ rfl rfl rfl rfl).2.2,
   (h2.2.2.2.2.1 [] _ _ rfl rfl rfl).1,
   (h2.2.2.2.2.1 [] _ _ rfl rfl rfl).2⟩

/-! ## C6: the JSON decode path -/

/-- C6 at a failing input: for a JSON response with the status 200 and a
Content-Type header whose body decodes, `handleJSONResponse` returns the status
code but no header at all, while `handleXMLResponse` returns the header. -/
theorem handleJSONResponse_drops_headers :
    (happyClient.handleJSONResponse jsonResponse).2 = none ∧
      (happyClient.handleJSONResponse jsonResponse).1.StatusCode = 200 ∧
      (happyClient.handleJSONResponse jsonResponse).1.Headers = [] ∧
      (happyClient.handleXMLResponse jsonResponse).1.Headers
        = [("Content-Type", "application/json")] := by
  refine ⟨rfl, rfl, rfl, ?_⟩
  decide

/-! ## C7: the default User-Agent -/

/-- C7, as stated, fails: a caller that set the User-Agent header to the empty
string does not keep its value, the transport below receives the default. -/
theorem roundTrip_replaces_empty_user_agent :
    emptyAgentRequest.Header.Get "User-Agent" = "" ∧
      emptyAgentRequest.Header.lookup "User-Agent" = some [""] ∧
      (AddHeaderTransport.RoundTrip "Configurator/2.15" offlineTransport emptyAgentRequest).handed.Header
        = [("User-Agent", ["Configurator/2.15"])] := by
  refine ⟨by decide, by decide, by decide⟩

/-- C7, amended: the transport below receives the default User-Agent whenever
`Header.Get` finds none or an empty one on the request, in particular when the
request has no User-Agent header at all, and the request untouched whenever the
caller set a non-empty User-Agent. -/
theorem roundTrip_user_agent (DefaultUserAgent : String)
    (T : HttpRequest → Except Error HttpResponse) (req : HttpRequest) :
    (req.Header.Get "User-Agent" = "" →
      (AddHeaderTransport.RoundTrip DefaultUserAgent T req).handed.Header.Get "User-Agent"
          = DefaultUserAgent ∧
        (AddHeaderTransport.RoundTrip DefaultUserAgent T req).handed
          = { req with Header := req.Header.Set "User-Agent" DefaultUserAgent }) ∧
    (req.Header.lookup "User-Agent" = none →
      (AddHeaderTransport.RoundTrip DefaultUserAgent T req).handed.Header.Get "User-Agent"
          = DefaultUserAgent) ∧
    (req.Header.Get "User-Agent" ≠ "" →
      (AddHeaderTransport.RoundTrip DefaultUserAgent T req).handed = req) := by
  have hset : req.Header.Get "User-Agent" = "" →
      (AddHeaderTransport.RoundTrip DefaultUserAgent T req).handed
        = { req with Header := req.Header.Set "User-Agent" DefaultUserAgent } := by
    intro h
    unfold AddHeaderTransport.RoundTrip
    simp only [h, if_true]
    split <;> rfl
  refine ⟨?_, ?_, ?_⟩
  · intro h
    rw [hset h]
    exact ⟨header_get_set _ _ _, rfl⟩
  · intro h
    have hcanon : CanonicalMIMEHeaderKey "User-Agent" = "User-Agent" := by decide
    have hget : req.Header.Get "User-Agent" = "" := by
      unfold Header.Get
      rw [hcanon, h]
    rw [hset hget]
    exact header_get_set _ _ _
  · intro h
    unfold AddHeaderTransport.RoundTrip
    simp only [h, if_false]
    split <;> rfl

/-- Witness of `roundTrip_user_agent`: a caller with the User-Agent `curl/8.0`
keeps it. -/
theorem roundTrip_user_agent_witness :
    ownAgentRequest.Header.Get "User-Agent" ≠ "" ∧
      (AddHeaderTransport.RoundTrip "Configurator/2.15" offlineTransport ownAgentRequest).handed
        = ownAgentRequest :=
  ⟨by decide,
   (roundTrip_user_agent "Configurator/2.15" offlineTransport ownAgentRequest).2.2 (by decide)⟩

/-! ## C8: the redirect policy -/

/-- C8: `CheckRedirect` returns `ErrUseLastResponse` exactly when the Referer
equals the authentication URL, character for character, and nil for every
other Referer: another letter case, a trailing slash, the domain alone, the
empty Referer. -/
theorem checkRedirect_iff (req : HttpRequest) (via : List HttpRequest) :
    (CheckRedirect req via = some ErrUseLastResponse ↔
        req.Referer = "https://buy.itunes.apple.com/WebObjects/MZFinance.woa/wa/authenticate") ∧
      (CheckRedirect req via = none ↔
        req.Referer ≠ "https://buy.itunes.apple.com/WebObjects/MZFinance.woa/wa/authenticate") ∧
      CheckRedirect (refererRequest
        "https://buy.itunes.apple.com/WebObjects/MZFinance.woa/wa/authenticate") via
          = some ErrUseLastResponse ∧
      CheckRedirect (refererRequest
        "https://BUY.itunes.apple.com/WebObjects/MZFinance.woa/wa/authenticate") via = none ∧
      CheckRedirect (refererRequest
        "https://buy.itunes.apple.com/WebObjects/MZFinance.woa/wa/authenticate/") via = none ∧
      CheckRedirect (refererRequest "https://buy.itunes.apple.com") via = none ∧
      CheckRedirect (refererRequest "") via = none := by
  refine ⟨?_, ?_, ?_, ?_, ?_, ?_, ?_⟩
  · unfold CheckRedirect appStoreAuthURL
    split <;> simp_all
  · unfold CheckRedirect appStoreAuthURL
    split <;> simp_all
  all_goals (unfold CheckRedirect; decide)

/-! ## C9: no Result next to an error -/

/-- C9: whenever `Send` returns an error, the Result it returns is the zero
Result, whatever the collaborators did. -/
theorem send_error_zero_result {R : Type} [Inhabited R] (c : client R) (req : Request)
    (h : (c.Send req).err ≠ none) : (c.Send req).result = Result.zero R := by
  revert h
  refine send_cases c req (fun o => o.err ≠ none → o.result = Result.zero R) ?_ ?_ ?_ ?_ ?_ ?_ ?_
  · intro _ _ _; rfl
  · intro _ _ _ _ _; rfl
  · intro _ _ _ _ _ _ _; rfl
  · intro _ _ _ _ _ _ _ _ _; rfl
  · intro _ _ res _ _ _ _ _ h; exact handleJSON_error_zero c res h
  · intro _ _ res _ _ _ _ _ _ h; exact handleXML_error_zero c res h
  · intro _ _ _ _ _ _ _ _ _ _; rfl

/-- Witness of `send_error_zero_result`: a JSON request on a client whose
network call fails. -/
theorem send_error_zero_result_witness :
    (offlineClient.Send lookupLikeRequest).err ≠ none ∧
      (offlineClient.Send lookupLikeRequest).result = Result.zero Unit :=
  ⟨by decide, send_error_zero_result offlineClient lookupLikeRequest (by decide)⟩

/-! ## C10: the request of the bag endpoint -/

theorem replaceAllAux_single (c : Char) (s : List Char) :
    replaceAllAux [c] [] 0 s = s.filter (fun x => x != c) := by
  induction s with
  | nil => rfl
  | cons x s ih =>
    by_cases h : x = c
    · subst h
      simp [replaceAllAux, List.isPrefixOf, ih]
    · have h2 : (c == x) = false := by simpa using fun e => h e.symm
      simp [replaceAllAux, List.isPrefixOf, ih, h, h2]

/-- C10: when the machine reports the MAC address `m`, `Bag` passes exactly one
request to `Send`: a GET that asks for XML, with the one header
Accept = "application/xml", no payload, and the URL
"https://init.itunes.apple.com/bag.xml?guid=" followed by the upper-cased `m`
without its colons. -/
theorem bag_request_shape (t : appstore) (m : String) (h : t.MacAddress = .ok m) :
    ∃ req, (t.Bag {}).sent = [req] ∧
      req.Method = MethodGET ∧
      req.ResponseFormat = ResponseFormatXML ∧
      req.Headers = [("Accept", "application/xml")] ∧
      req.Payload.isNone = true ∧
      req.URL = "https://init.itunes.apple.com/bag.xml?guid=" ++
        String.mk ((t.ToUpper m).data.filter (fun x => x != ':')) := by
  refine ⟨appstore.bagRequest (ReplaceAll (t.ToUpper m) ":" ""), ?_, rfl, rfl, rfl, rfl, ?_⟩
  · unfold appstore.Bag
    simp only [h]
    split
    · rfl
    · split <;> rfl
  · have hpre : "https://" ++ PrivateInitDomain ++ PrivateInitPath ++ "?guid="
        = "https://init.itunes.apple.com/bag.xml?guid=" := by decide
    have hrep : ReplaceAll (t.ToUpper m) ":" ""
        = String.mk ((t.ToUpper m).data.filter (fun x => x != ':')) := by
      unfold ReplaceAll
      exact congrArg String.mk (replaceAllAux_single ':' _)
    show "https://" ++ PrivateInitDomain ++ PrivateInitPath ++ "?guid=" ++ _ = _
    rw [hpre, hrep]

/-- Witness of `bag_request_shape`: the MAC address `aa:bb:cc:dd:ee:ff` gives the
URL that ends in `guid=AABBCCDDEEFF`. -/
theorem bag_request_shape_witness :
    sampleStore.MacAddress = .ok "aa:bb:cc:dd:ee:ff" ∧
      ∃ req, (sampleStore.Bag {}).sent = [req] ∧
        req.Method = MethodGET ∧
        req.ResponseFormat = ResponseFormatXML ∧
        req.Headers = [("Accept", "application/xml")] ∧
        req.Payload.isNone = true ∧
        req.URL = "https://init.itunes.apple.com/bag.xml?guid=AABBCCDDEEFF" := by
  refine ⟨rfl, ?_⟩
  obtain ⟨req, h1, h2, h3, h4, h5, h6⟩ :=
    bag_request_shape sampleStore "aa:bb:cc:dd:ee:ff" rfl
  refine ⟨req, h1, h2, h3, h4, h5, ?_⟩
  rw [h6]
  decide

/-! ## C11: what `Bag` returns -/

theorem containsSubstring_refl (s : String) : containsSubstring s s := List.infix_refl _

theorem containsSubstring_wrap (context : String) (cause : Error) :
    containsSubstring (Error.wrap context cause).message context :=
  containsSubstring_append_left _ _ _
    (containsSubstring_append_left _ _ _ (containsSubstring_refl context))

theorem bag_of_mac_error (t : appstore) (input : BagInput) (e : Error)
    (h : t.MacAddress = .error e) :
    t.Bag input = { out := {}, err := some (.wrap "failed to get mac address" e), sent := [] } := by
  unfold appstore.Bag
  simp only [h]

theorem bag_of_send_error (t : appstore) (input : BagInput) (m : String) (res : Result bagResult)
    (e : Error) (h : t.MacAddress = .ok m)
    (hs : t.bagSend (appstore.bagRequest (ReplaceAll (t.ToUpper m) ":" "")) = (res, some e)) :
    t.Bag input = { out := {}, err := some (.wrap "failed to send http request" e),
                    sent := [appstore.bagRequest (ReplaceAll (t.ToUpper m) ":" "")] } := by
  unfold appstore.Bag
  simp only [h, hs]

theorem bag_of_send_ok (t : appstore) (input : BagInput) (m : String) (res : Result bagResult)
    (h : t.MacAddress = .ok m)
    (hs : t.bagSend (appstore.bagRequest (ReplaceAll (t.ToUpper m) ":" "")) = (res, none)) :
    t.Bag input =
      if res.StatusCode ≠ 200 then
        { out := {},
          err := some (.new ("received unexpected status code: " ++ toString res.StatusCode)),
          sent := [appstore.bagRequest (ReplaceAll (t.ToUpper m) ":" "")] }
      else
        { out := { AuthEndpoint := res.Data.URLBag.AuthEndpoint }, err := none,
          sent := [appstore.bagRequest (ReplaceAll (t.ToUpper m) ":" "")] } := by
  unfold appstore.Bag
  simp only [h, hs]

/-- C11: `Bag` returns without error exactly when the MAC address is read,
`Send` returns no error and the status code is 200, and the output then holds
`Result.Data.URLBag.AuthEndpoint`; a failed MAC read gives an error that
contains "failed to get mac address" without any call of `Send`, a failed
`Send` one that contains "failed to send http request", and every status code
other than 200 one that contains "received unexpected status code". -/
theorem bag_outcome (t : appstore) (input : BagInput) :
    ((t.Bag input).err = none ↔
      ∃ m, t.MacAddress = .ok m ∧
        (t.bagSend (appstore.bagRequest (ReplaceAll (t.ToUpper m) ":" ""))).2 = none ∧
        (t.bagSend (appstore.bagRequest (ReplaceAll (t.ToUpper m) ":" ""))).1.StatusCode = 200) ∧
    (∀ m, t.MacAddress = .ok m →
      (t.bagSend (appstore.bagRequest (ReplaceAll (t.ToUpper m) ":" ""))).2 = none →
      (t.bagSend (appstore.bagRequest (ReplaceAll (t.ToUpper m) ":" ""))).1.StatusCode = 200 →
      (t.Bag input).out.AuthEndpoint =
        (t.bagSend (appstore.bagRequest (ReplaceAll (t.ToUpper m) ":" ""))).1.Data.URLBag.AuthEndpoint) ∧
    (∀ e, t.MacAddress = .error e →
      (t.Bag input).sent = [] ∧
      ∃ err, (t.Bag input).err = some err ∧
        containsSubstring err.message "failed to get mac address") ∧
    (∀ m e, t.MacAddress = .ok m →
      (t.bagSend (appstore.bagRequest (ReplaceAll (t.ToUpper m) ":" ""))).2 = some e →
      ∃ err, (t.Bag input).err = some err ∧
        containsSubstring err.message "failed to send http request") ∧
    (∀ m, t.MacAddress = .ok m →
      (t.bagSend (appstore.bagRequest (ReplaceAll (t.ToUpper m) ":" ""))).2 = none →
      (t.bagSend (appstore.bagRequest (ReplaceAll (t.ToUpper m) ":" ""))).1.StatusCode ≠ 200 →
      ∃ err, (t.Bag input).err = some err ∧
        containsSubstring err.message "received unexpected status code") := by
  have hmacErr : ∀ e, t.MacAddress = .error e →
      (t.Bag input).sent = [] ∧
      ∃ err, (t.Bag input).err = some err ∧
        containsSubstring err.message "failed to get mac address" := by
    intro e h
    rw [bag_of_mac_error t input e h]
    exact ⟨rfl, _, rfl, containsSubstring_wrap _ _⟩
  have hsendErr : ∀ m e, t.MacAddress = .ok m →
      (t.bagSend (appstore.bagRequest (ReplaceAll (t.ToUpper m) ":" ""))).2 = some e →
      ∃ err, (t.Bag input).err = some err ∧
        containsSubstring err.message "failed to send http request" := by
    intro m e h hs
    rw [bag_of_send_error t input m _ e h (Prod.ext rfl hs)]
    exact ⟨_, rfl, containsSubstring_wrap _ _⟩
  have hstatus : ∀ m, t.MacAddress = .ok m →
      (t.bagSend (appstore.bagRequest (ReplaceAll (t.ToUpper m) ":" ""))).2 = none →
      (t.bagSend (appstore.bagRequest (ReplaceAll (t.ToUpper m) ":" ""))).1.StatusCode ≠ 200 →
      ∃ err, (t.Bag input).err = some err ∧
        containsSubstring err.message "received unexpected status code" := by
    intro m h hs hc
    rw [bag_of_send_ok t input m _ h (Prod.ext rfl hs)]
    simp only [hc, ne_eq, not_false_eq_true, if_true]
    refine ⟨_, rfl, ?_⟩
    show containsSubstring ("received unexpected status code: " ++ _) _
    exact containsSubstring_append_left _ _ _ ⟨[], ": ".data, by decide⟩
  have hok : ∀ m, t.MacAddress = .ok m →
      (t.bagSend (appstore.bagRequest (ReplaceAll (t.ToUpper m) ":" ""))).2 = none →
      (t.bagSend (appstore.bagRequest (ReplaceAll (t.ToUpper m) ":" ""))).1.StatusCode = 200 →
      (t.Bag input).err = none ∧ (t.Bag input).out.AuthEndpoint =
        (t.bagSend (appstore.bagRequest (ReplaceAll (t.ToUpper m) ":" ""))).1.Data.URLBag.AuthEndpoint := by
    intro m h hs hc
    rw [bag_of_send_ok t input m _ h (Prod.ext rfl hs)]
    simp only [hc, ne_eq, not_true_eq_false, if_false, and_self]
  refine ⟨⟨?_, ?_⟩, fun m h hs hc => (hok m h hs hc).2, hmacErr, hsendErr, hstatus⟩
  · intro hnone
    cases hm : t.MacAddress with
    | error e =>
      obtain ⟨_, err, he, _⟩ := hmacErr e hm
      rw [he] at hnone; cases hnone
    | ok m =>
      refine ⟨m, rfl, ?_⟩
      cases hs : (t.bagSend (appstore.bagRequest (ReplaceAll (t.ToUpper m) ":" ""))).2 with
      | some e =>
        obtain ⟨err, he, _⟩ := hsendErr m e hm hs
        rw [he] at hnone; cases hnone
      | none =>
        refine ⟨rfl, ?_⟩
        by_contra hc
        obtain ⟨err, he, _⟩ := hstatus m hm hs hc
        rw [he] at hnone; cases hnone
  · rintro ⟨m, hm, hs, hc⟩
    exact (hok m hm hs hc).1

/-- Witness of `bag_outcome`: a store whose bag endpoint answers 200. -/
theorem bag_outcome_witness :
    (bagStore.Bag {}).err = none ∧ (bagStore.Bag {}).out.AuthEndpoint = "https://example.com" :=
  ⟨(bag_outcome bagStore {}).1.2 ⟨"aa:bb:cc:dd:ee:ff", rfl, rfl, rfl⟩,
   (bag_outcome bagStore {}).2.1 "aa:bb:cc:dd:ee:ff" rfl rfl rfl⟩

/-! ## C13: a payload that cannot be serialized -/

/-- C13: when the payload of a request is set and its `data()` fails, `Send`
returns the zero Result and the error "failed to get payload data" wrapped
around the payload's error, without any network call or cookie save. -/
theorem send_payload_failure {R : Type} [Inhabited R] (c : client R) (req : Request)
    (p : Payload) (e : Error) (hp : req.Payload = some p) (hd : p.data = .error e) :
    (c.Send req).err = some (.wrap "failed to get payload data" e) ∧
      (∀ err, (c.Send req).err = some err →
        containsSubstring err.message "payload data" ∧ err.unwrap = some e) ∧
      (c.Send req).events = [] ∧
      (c.Send req).result = Result.zero R := by
  have hpd : req.payloadData = .error e := by
    unfold Request.payloadData
    simp only [hp, hd]
  have hsend : c.Send req =
      { result := Result.zero R, err := some (.wrap "failed to get payload data" e),
        events := [] } := by
    unfold client.Send
    simp only [hpd]
  rw [hsend]
  refine ⟨rfl, ?_, rfl, rfl⟩
  intro err he
  cases he
  refine ⟨?_, rfl⟩
  show containsSubstring ("failed to get payload data" ++ ": " ++ e.message) "payload data"
  exact containsSubstring_append_left _ _ _
    (containsSubstring_append_left _ _ _ ⟨"failed to get ".data, [], by decide⟩)

/-- Witness of `send_payload_failure`: a request whose payload reports
"no data". -/
theorem send_payload_failure_witness :
    brokenPayloadRequest.Payload.isSome = true ∧
      (happyClient.Send brokenPayloadRequest).err
        = some (.wrap "failed to get payload data" (.new "no data")) ∧
      (happyClient.Send brokenPayloadRequest).events = [] :=
  ⟨rfl,
   (send_payload_failure happyClient brokenPayloadRequest
      { data := .error (.new "no data") } (.new "no data") rfl rfl).1,
   (send_payload_failure happyClient brokenPayloadRequest
      { data := .error (.new "no data") } (.new "no data") rfl rfl).2.2.1⟩

/-! ## C14: the Result of the XML path -/

theorem lookup_map_join (k : String) (h : Header) :
    (h.map (fun e => (e.1, "; ".intercalate e.2))).lookup k
      = (h.lookup k).map (fun vs => "; ".intercalate vs) := by
  induction h with
  | nil => rfl
  | cons e h ih =>
    obtain ⟨k2, vs⟩ := e
    simp only [List.map, List.lookup]
    cases hk : k == k2 with
    | true => rfl
    | false => exact ih

/-- C14: when the normalized body decodes, `handleXMLResponse` returns the
status code of the response, the decoded data, and headers that hold, under
each name of the response and under no other, the values of that name joined in
their order with "; "; one value alone is kept as it is. -/
theorem handleXML_result {R : Type} [Inhabited R] (c : client R) (res : HttpResponse)
    (body : Bytes) (data : R) (hb : res.Body = .ok body)
    (hu : c.plistUnmarshal (normalizeXMLPlistBody body) = .ok data) :
    (c.handleXMLResponse res).2 = none ∧
      (c.handleXMLResponse res).1.StatusCode = res.StatusCode ∧
      (c.handleXMLResponse res).1.Data = data ∧
      (c.handleXMLResponse res).1.Headers.map Prod.fst = res.Header.map Prod.fst ∧
      (∀ k, (c.handleXMLResponse res).1.Headers.lookup k
        = (res.Header.lookup k).map (fun vs => "; ".intercalate vs)) ∧
      (∀ v : String, "; ".intercalate [v] = v) ∧
      (∀ v1 v2 v3 : String, "; ".intercalate [v1, v2, v3] = v1 ++ "; " ++ v2 ++ "; " ++ v3) := by
  have h : c.handleXMLResponse res =
      ({ StatusCode := res.StatusCode,
         Headers := res.Header.map (fun e => (e.1, "; ".intercalate e.2)),
         Data := data }, none) := by
    unfold client.handleXMLResponse
    simp only [hb, hu]
  rw [h]
  refine ⟨rfl, rfl, rfl, ?_, fun k => lookup_map_join k res.Header, fun _ => rfl,
    fun _ _ _ => rfl⟩
  simp only [List.map_map]
  rfl

/-- Witness of `handleXML_result`: a response with two Set-Cookie values and
one Pod value. -/
theorem handleXML_result_witness :
    xmlResponse.Body = .ok (ascii "<dict></dict>") ∧
      (happyClient.handleXMLResponse xmlResponse).1.StatusCode = 200 ∧
      (happyClient.handleXMLResponse xmlResponse).1.Headers.lookup "Set-Cookie"
        = some "a=1; b=2" ∧
      (happyClient.handleXMLResponse xmlResponse).1.Headers.lookup "Pod" = some "25" := by
  have h := handleXML_result happyClient xmlResponse (ascii "<dict></dict>") () rfl rfl
  refine ⟨rfl, h.2.1, ?_, ?_⟩
  · rw [h.2.2.2.2.1]; decide
  · rw [h.2.2.2.2.1]; decide

/-! ## C16: what `lookup` returns -/

theorem lookupRequest_of_invalid_family {App : Type} (a : lookupStore App)
    (bundleID countryCode deviceFamily : String)
    (h : ¬ (deviceFamily = a.DeviceFamilyPhone ∨ deviceFamily = a.DeviceFamilyPad)) :
    appstore.lookupRequest a bundleID countryCode deviceFamily
      = .error (Wrap a.ErrInvalidDeviceFamily a.ErrURL.message) := by
  have h1 : ¬ deviceFamily = a.DeviceFamilyPhone := fun e => h (Or.inl e)
  have h2 : ¬ deviceFamily = a.DeviceFamilyPad := fun e => h (Or.inr e)
  unfold appstore.lookupRequest appstore.lookupURL
  simp only [h1, h2, if_false]

theorem lookupRequest_of_valid_family {App : Type} (a : lookupStore App)
    (bundleID countryCode deviceFamily : String)
    (h : deviceFamily = a.DeviceFamilyPhone ∨ deviceFamily = a.DeviceFamilyPad) :
    ∃ request, appstore.lookupRequest a bundleID countryCode deviceFamily = .ok request := by
  unfold appstore.lookupRequest appstore.lookupURL
  by_cases h1 : deviceFamily = a.DeviceFamilyPhone
  · simp only [h1, if_true]
    exact ⟨_, rfl⟩
  · have h2 : deviceFamily = a.DeviceFamilyPad := by
      rcases h with h | h
      · exact absurd h h1
      · exact h
    rw [if_neg h1, if_pos h2]
    exact ⟨_, rfl⟩

theorem lookup_of_request {App : Type} [Inhabited App] (a : lookupStore App)
    (bundleID countryCode deviceFamily : String) (request : Request)
    (hc : a.StoreFronts countryCode ≠ "")
    (hr : appstore.lookupRequest a bundleID countryCode deviceFamily = .ok request) :
    appstore.lookup a bundleID countryCode deviceFamily =
      match a.searchSend request with
      | (_, some err) =>
        { app := default, err := some (Wrap err a.ErrRequest.message), sent := [request] }
      | (res, none) =>
        if res.StatusCode ≠ 200 then
          { app := default, err := some a.ErrRequest, sent := [request] }
        else
          match res.Data.Results with
          | [] => { app := default, err := some a.ErrAppNotFound, sent := [request] }
          | app :: _ => { app := app, err := none, sent := [request] } := by
  unfold appstore.lookup
  simp only [hc, if_false, hr]

/-- C16: `lookup` returns without error exactly when `StoreFronts` has a
non-empty entry for the country code, the device family is one of the two
constants, `Send` returns no error, the status code is 200 and `Results` is
not empty, and the app is then the first of `Results`; a country code without
entry gives `ErrInvalidCountryCode`, empty `Results` give `ErrAppNotFound`, and
with an invalid country code or device family no request is sent. -/
theorem lookup_outcome {App : Type} [Inhabited App] (a : lookupStore App)
    (bundleID countryCode deviceFamily : String) :
    ((appstore.lookup a bundleID countryCode deviceFamily).err = none ↔
      a.StoreFronts countryCode ≠ "" ∧
      (deviceFamily = a.DeviceFamilyPhone ∨ deviceFamily = a.DeviceFamilyPad) ∧
      ∃ request, appstore.lookupRequest a bundleID countryCode deviceFamily = .ok request ∧
        (a.searchSend request).2 = none ∧ (a.searchSend request).1.StatusCode = 200 ∧
        (a.searchSend request).1.Data.Results ≠ []) ∧
    (∀ request, (appstore.lookup a bundleID countryCode deviceFamily).err = none →
      appstore.lookupRequest a bundleID countryCode deviceFamily = .ok request →
      (a.searchSend request).1.Data.Results.head?
        = some (appstore.lookup a bundleID countryCode deviceFamily).app) ∧
    (a.StoreFronts countryCode = "" →
      (appstore.lookup a bundleID countryCode deviceFamily).err = some a.ErrInvalidCountryCode ∧
      (appstore.lookup a bundleID countryCode deviceFamily).sent = []) ∧
    (¬ (deviceFamily = a.DeviceFamilyPhone ∨ deviceFamily = a.DeviceFamilyPad) →
      (appstore.lookup a bundleID countryCode deviceFamily).err ≠ none ∧
      (appstore.lookup a bundleID countryCode deviceFamily).sent = []) ∧
    (∀ request, a.StoreFronts countryCode ≠ "" →
      appstore.lookupRequest a bundleID countryCode deviceFamily = .ok request →
      (a.searchSend request).2 = none → (a.searchSend request).1.StatusCode = 200 →
      (a.searchSend request).1.Data.Results = [] →
      (appstore.lookup a bundleID countryCode deviceFamily).err = some a.ErrAppNotFound) := by
  have hcc : a.StoreFronts countryCode = "" →
      (appstore.lookup a bundleID countryCode deviceFamily).err = some a.ErrInvalidCountryCode ∧
      (appstore.lookup a bundleID countryCode deviceFamily).sent = [] := by
    intro h
    unfold appstore.lookup
    simp only [h, if_true, and_self]
  have hdf : ¬ (deviceFamily = a.DeviceFamilyPhone ∨ deviceFamily = a.DeviceFamilyPad) →
      (appstore.lookup a bundleID countryCode deviceFamily).err ≠ none ∧
      (appstore.lookup a bundleID countryCode deviceFamily).sent = [] := by
    intro h
    by_cases hc : a.StoreFronts countryCode = ""
    · obtain ⟨h1, h2⟩ := hcc hc
      exact ⟨by rw [h1]; simp, h2⟩
    · unfold appstore.lookup
      simp only [hc, if_false, lookupRequest_of_invalid_family a _ _ _ h]
      exact ⟨by simp, trivial⟩
  have hreq : ∀ request, a.StoreFronts countryCode ≠ "" →
      appstore.lookupRequest a bundleID countryCode deviceFamily = .ok request →
      ((appstore.lookup a bundleID countryCode deviceFamily).err = none ↔
        (a.searchSend request).2 = none ∧ (a.searchSend request).1.StatusCode = 200 ∧
        (a.searchSend request).1.Data.Results ≠ []) ∧
      ((appstore.lookup a bundleID countryCode deviceFamily).err = none →
        (a.searchSend request).1.Data.Results.head?
          = some (appstore.lookup a bundleID countryCode deviceFamily).app) ∧
      ((a.searchSend request).2 = none → (a.searchSend request).1.StatusCode = 200 →
        (a.searchSend request).1.Data.Results = [] →
        (appstore.lookup a bundleID countryCode deviceFamily).err = some a.ErrAppNotFound) := by
    intro request hc hr
    rw [lookup_of_request a _ _ _ request hc hr]
    rcases hs : a.searchSend request with ⟨res, _ | e⟩
    · simp only []
      by_cases hst : res.StatusCode = 200
      · simp only [hst, ne_eq, not_true_eq_false, if_false]
        rcases hres : res.Data.Results with _ | ⟨app, apps⟩
        · simp
        · simp
      · simp [hst]
    · simp
  refine ⟨⟨?_, ?_⟩, ?_, hcc, hdf, ?_⟩
  · intro hnone
    have hc : a.StoreFronts countryCode ≠ "" := by
      intro h
      rw [(hcc h).1] at hnone
      cases hnone
    have hfam : deviceFamily = a.DeviceFamilyPhone ∨ deviceFamily = a.DeviceFamilyPad := by
      by_contra h
      exact (hdf h).1 hnone
    obtain ⟨request, hr⟩ := lookupRequest_of_valid_family a bundleID countryCode deviceFamily hfam
    exact ⟨hc, hfam, request, hr, ((hreq request hc hr).1).1 hnone⟩
  · rintro ⟨hc, _, request, hr, hs⟩
    exact ((hreq request hc hr).1).2 hs
  · intro request hnone hr
    have hc : a.StoreFronts countryCode ≠ "" := by
      intro h
      rw [(hcc h).1] at hnone
      cases hnone
    exact (hreq request hc hr).2.1 hnone
  · intro request hc hr hs hst hres
    exact (hreq request hc hr).2.2 hs hst hres

set_option maxRecDepth 100000 in
/-- Witness of `lookup_outcome`: the country code `US` and the family `iPhone`
give the first app of the answer, the country code `XX` gives
`ErrInvalidCountryCode` without a request. -/
theorem lookup_outcome_witness :
    (appstore.lookup sampleLookupStore "com.example.app" "US" "iPhone").err = none ∧
      (appstore.lookup sampleLookupStore "com.example.app" "US" "iPhone").app = 7 ∧
      (appstore.lookup sampleLookupStore "com.example.app" "XX" "iPhone").err
        = some sampleLookupStore.ErrInvalidCountryCode ∧
      (appstore.lookup sampleLookupStore "com.example.app" "XX" "iPhone").sent = [] := by
  have h := lookup_outcome sampleLookupStore "com.example.app" "US" "iPhone"
  have h2 := lookup_outcome sampleLookupStore "com.example.app" "XX" "iPhone"
  have hnone := h.1.2 ⟨by decide, Or.inl rfl, _, rfl, rfl, rfl, by decide⟩
  have hhead := h.2.1 _ hnone rfl
  refine ⟨hnone, ?_, (h2.2.2.1 (by decide)).1, (h2.2.2.1 (by decide)).2⟩
  have e : (sampleLookupStore.searchSend
      { URL := "", Method := "", ResponseFormat := "" }).1.Data.Results.head? = some 7 := rfl
  exact (Option.some.inj (hhead.symm.trans e))

/-! ## Facts about `TrimSpace` -/

theorem trimLeft_cons (b : Nat) (s : Bytes) :
    trimLeft (b :: s) =
      if asciiSpace b then trimLeft s
      else match s with
        | c :: d :: s2 =>
          if b == 0xC2 && spaceAfterC2 c then trimLeft (d :: s2)
          else if b == 0xE1 && c == 0x9A && d == 0x80 then trimLeft s2
          else if b == 0xE2 && c == 0x80 && spaceAfterE280 d then trimLeft s2
          else if b == 0xE2 && c == 0x81 && d == 0x9F then trimLeft s2
          else if b == 0xE3 && c == 0x80 && d == 0x80 then trimLeft s2
          else b :: s
        | [c] => if b == 0xC2 && spaceAfterC2 c then [] else b :: s
        | [] => b :: s := by
  rcases s with _ | ⟨c, _ | ⟨d, s⟩⟩ <;> rfl

theorem trimLeftRev_cons (b : Nat) (s : Bytes) :
    trimLeftRev (b :: s) =
      if asciiSpace b then trimLeftRev s
      else match s with
        | c :: d :: s2 =>
          if spaceAfterC2 b && c == 0xC2 then trimLeftRev (d :: s2)
          else if b == 0x80 && c == 0x9A && d == 0xE1 then trimLeftRev s2
          else if spaceAfterE280 b && c == 0x80 && d == 0xE2 then trimLeftRev s2
          else if b == 0x9F && c == 0x81 && d == 0xE2 then trimLeftRev s2
          else if b == 0x80 && c == 0x80 && d == 0xE3 then trimLeftRev s2
          else b :: s
        | [c] => if spaceAfterC2 b && c == 0xC2 then [] else b :: s
        | [] => b :: s := by
  rcases s with _ | ⟨c, _ | ⟨d, s⟩⟩ <;> rfl

theorem spaceEncodings_pos (e : Bytes) (he : e ∈ spaceEncodings) : 0 < e.length := by
  revert e
  decide

/-- Dropping leading white space takes a white-space rune off the front. -/
theorem trimLeft_space (e s : Bytes) (he : e ∈ spaceEncodings) :
    trimLeft (e ++ s) = trimLeft s := by
  simp only [spaceEncodings, List.mem_cons, List.mem_singleton, List.not_mem_nil, or_false] at he
  rcases he with h | h | h | h | h | h | h | h | h | h | h | h | h | h | h | h | h | h | h | h |
    h | h | h | h | h
  all_goals subst h
  all_goals
    rcases s with _ | ⟨d, s⟩ <;>
      simp only [List.cons_append, List.nil_append] <;>
      rw [trimLeft_cons] <;>
      simp [asciiSpace, spaceAfterC2, spaceAfterE280] <;> rfl

/-- Seen from the end: a reversed white-space rune is dropped the same way. -/
theorem trimLeftRev_space (e s : Bytes) (he : e ∈ spaceEncodings) :
    trimLeftRev (e.reverse ++ s) = trimLeftRev s := by
  simp only [spaceEncodings, List.mem_cons, List.mem_singleton, List.not_mem_nil, or_false] at he
  rcases he with h | h | h | h | h | h | h | h | h | h | h | h | h | h | h | h | h | h | h | h |
    h | h | h | h | h
  all_goals subst h
  all_goals
    rcases s with _ | ⟨d, s⟩ <;>
      simp only [List.reverse_cons, List.reverse_nil, List.cons_append, List.nil_append] <;>
      rw [trimLeftRev_cons] <;>
      simp [asciiSpace, spaceAfterC2, spaceAfterE280] <;> rfl

theorem asciiSpace_mem (b : Nat) (h : asciiSpace b = true) : [b] ∈ spaceEncodings := by
  simp [asciiSpace] at h
  rcases h with ((((h | h) | h) | h) | h) | h <;> subst h <;> decide

theorem spaceAfterC2_mem (c : Nat) (h : spaceAfterC2 c = true) : [0xC2, c] ∈ spaceEncodings := by
  simp [spaceAfterC2] at h
  rcases h with h | h <;> subst h <;> decide

theorem spaceAfterE280_mem (d : Nat) (h : spaceAfterE280 d = true) :
    [0xE2, 0x80, d] ∈ spaceEncodings := by
  simp [spaceAfterE280] at h
  rcases h with ((⟨h1, h2⟩ | h) | h) | h
  · interval_cases d <;> decide
  · subst h; decide
  · subst h; decide
  · subst h; decide

/-- A text that `trimLeft` changes starts with a white-space rune. -/
theorem trimLeft_step (s : Bytes) : trimLeft s = s ∨ LeadingSpace s := by
  rcases s with _ | ⟨b, s⟩
  · exact Or.inl rfl
  rw [trimLeft_cons]
  by_cases hb : asciiSpace b = true
  · exact Or.inr ⟨[b], asciiSpace_mem b hb, by simp⟩
  rw [if_neg hb]
  rcases s with _ | ⟨c, _ | ⟨d, s⟩⟩
  · exact Or.inl rfl
  · by_cases h : (b == 0xC2 && spaceAfterC2 c) = true
    · simp at h
      obtain ⟨rfl, h⟩ := h
      exact Or.inr ⟨_, spaceAfterC2_mem c h, by simp⟩
    · simp only [h]
      exact Or.inl rfl
  · by_cases h1 : (b == 0xC2 && spaceAfterC2 c) = true
    · simp at h1
      obtain ⟨rfl, h⟩ := h1
      exact Or.inr ⟨_, spaceAfterC2_mem c h, by simp⟩
    by_cases h2 : (b == 0xE1 && c == 0x9A && d == 0x80) = true
    · simp at h2
      obtain ⟨⟨rfl, rfl⟩, rfl⟩ := h2
      exact Or.inr ⟨[0xE1, 0x9A, 0x80], by decide, by simp⟩
    by_cases h3 : (b == 0xE2 && c == 0x80 && spaceAfterE280 d) = true
    · simp at h3
      obtain ⟨⟨rfl, rfl⟩, h⟩ := h3
      exact Or.inr ⟨_, spaceAfterE280_mem d h, by simp⟩
    by_cases h4 : (b == 0xE2 && c == 0x81 && d == 0x9F) = true
    · simp at h4
      obtain ⟨⟨rfl, rfl⟩, rfl⟩ := h4
      exact Or.inr ⟨[0xE2, 0x81, 0x9F], by decide, by simp⟩
    by_cases h5 : (b == 0xE3 && c == 0x80 && d == 0x80) = true
    · simp at h5
      obtain ⟨⟨rfl, rfl⟩, rfl⟩ := h5
      exact Or.inr ⟨[0xE3, 0x80, 0x80], by decide, by simp⟩
    simp only [h1, h2, h3, h4, h5]
    exact Or.inl rfl

/-- A reversed text that `trimLeftRev` changes starts with a reversed
white-space rune. -/
theorem trimLeftRev_step (s : Bytes) :
    trimLeftRev s = s ∨ ∃ e ∈ spaceEncodings, e.reverse <+: s := by
  rcases s with _ | ⟨b, s⟩
  · exact Or.inl rfl
  rw [trimLeftRev_cons]
  by_cases hb : asciiSpace b = true
  · exact Or.inr ⟨[b], asciiSpace_mem b hb, by simp⟩
  rw [if_neg hb]
  rcases s with _ | ⟨c, _ | ⟨d, s⟩⟩
  · exact Or.inl rfl
  · by_cases h : (spaceAfterC2 b && c == 0xC2) = true
    · simp at h
      obtain ⟨h, rfl⟩ := h
      exact Or.inr ⟨_, spaceAfterC2_mem b h, by simp⟩
    · simp only [h]
      exact Or.inl rfl
  · by_cases h1 : (spaceAfterC2 b && c == 0xC2) = true
    · simp at h1
      obtain ⟨h, rfl⟩ := h1
      exact Or.inr ⟨_, spaceAfterC2_mem b h, by simp⟩
    by_cases h2 : (b == 0x80 && c == 0x9A && d == 0xE1) = true
    · simp at h2
      obtain ⟨⟨rfl, rfl⟩, rfl⟩ := h2
      exact Or.inr ⟨[0xE1, 0x9A, 0x80], by decide, by simp⟩
    by_cases h3 : (spaceAfterE280 b && c == 0x80 && d == 0xE2) = true
    · simp at h3
      obtain ⟨⟨h, rfl⟩, rfl⟩ := h3
      exact Or.inr ⟨_, spaceAfterE280_mem b h, by simp⟩
    by_cases h4 : (b == 0x9F && c == 0x81 && d == 0xE2) = true
    · simp at h4
      obtain ⟨⟨rfl, rfl⟩, rfl⟩ := h4
      exact Or.inr ⟨[0xE2, 0x81, 0x9F], by decide, by simp⟩
    by_cases h5 : (b == 0x80 && c == 0x80 && d == 0xE3) = true
    · simp at h5
      obtain ⟨⟨rfl, rfl⟩, rfl⟩ := h5
      exact Or.inr ⟨[0xE3, 0x80, 0x80], by decide, by simp⟩
    simp only [h1, h2, h3, h4, h5]
    exact Or.inl rfl

theorem trimLeft_suffix (s : Bytes) : trimLeft s <:+ s := by
  generalize h : s.length = n
  induction n using Nat.strong_induction_on generalizing s with
  | _ n ih =>
    rcases trimLeft_step s with h0 | ⟨e, he, t, rfl⟩
    · rw [h0]
    · rw [trimLeft_space e t he]
      have := spaceEncodings_pos e he
      exact (ih t.length (by simp at h; omega) t rfl).trans (List.suffix_append e t)

theorem trimLeftRev_suffix (s : Bytes) : trimLeftRev s <:+ s := by
  generalize h : s.length = n
  induction n using Nat.strong_induction_on generalizing s with
  | _ n ih =>
    rcases trimLeftRev_step s with h0 | ⟨e, he, t, rfl⟩
    · rw [h0]
    · rw [trimLeftRev_space e t he]
      have := spaceEncodings_pos e he
      exact (ih t.length (by simp at h; omega) t rfl).trans (List.suffix_append _ t)

/-- What `trimLeft` returns has no white space in front. -/
theorem not_leading_trimLeft (s : Bytes) : ¬ LeadingSpace (trimLeft s) := by
  generalize h : s.length = n
  induction n using Nat.strong_induction_on generalizing s with
  | _ n ih =>
    rcases trimLeft_step s with h0 | ⟨e, he, t, rfl⟩
    · rw [h0]
      rintro ⟨e, he, t, rfl⟩
      have h1 := (trimLeft_suffix t).length_le
      rw [← trimLeft_space e t he, h0] at h1
      have := spaceEncodings_pos e he
      rw [List.length_append] at h1
      omega
    · rw [trimLeft_space e t he]
      have := spaceEncodings_pos e he
      exact ih t.length (by simp at h; omega) t rfl

theorem not_leading_trimLeftRev (s : Bytes) :
    ¬ ∃ e ∈ spaceEncodings, e.reverse <+: trimLeftRev s := by
  generalize h : s.length = n
  induction n using Nat.strong_induction_on generalizing s with
  | _ n ih =>
    rcases trimLeftRev_step s with h0 | ⟨e, he, t, rfl⟩
    · rw [h0]
      rintro ⟨e, he, t, rfl⟩
      have h1 := (trimLeftRev_suffix t).length_le
      rw [← trimLeftRev_space e t he, h0] at h1
      have := spaceEncodings_pos e he
      rw [List.length_append, List.length_reverse] at h1
      omega
    · rw [trimLeftRev_space e t he]
      have := spaceEncodings_pos e he
      exact ih t.length (by simp at h; omega) t rfl

theorem trimLeft_of_onlySpace (s : Bytes) (h : OnlySpace s) : trimLeft s = [] := by
  induction h with
  | nil => rfl
  | cons e s he _ ih => rw [trimLeft_space e s he, ih]

theorem onlySpace_of_trimLeft (s : Bytes) (h0 : trimLeft s = []) : OnlySpace s := by
  generalize h : s.length = n
  induction n using Nat.strong_induction_on generalizing s with
  | _ n ih =>
    rcases trimLeft_step s with h1 | ⟨e, he, t, rfl⟩
    · rw [h0] at h1
      rw [← h1]
      exact OnlySpace.nil
    · rw [trimLeft_space e t he] at h0
      have := spaceEncodings_pos e he
      exact OnlySpace.cons e t he (ih t.length (by simp at h; omega) t h0 rfl)

/-- A non-empty reversed text that `trimLeftRev` empties: the text itself
starts with a white-space rune. -/
theorem leading_of_trimLeftRev_nil (z : Bytes) (h0 : trimLeftRev z = []) (hz : z ≠ []) :
    LeadingSpace z.reverse := by
  generalize h : z.length = n
  induction n using Nat.strong_induction_on generalizing z with
  | _ n ih =>
    rcases trimLeftRev_step z with h1 | ⟨e, he, t, rfl⟩
    · rw [h0] at h1
      exact absurd h1.symm hz
    · rw [trimLeftRev_space e t he] at h0
      have := spaceEncodings_pos e he
      by_cases ht : t = []
      · subst ht
        exact ⟨e, he, by simp⟩
      · obtain ⟨e1, he1, hp⟩ := ih t.length (by simp at h; omega) t h0 ht rfl
        refine ⟨e1, he1, ?_⟩
        rw [List.reverse_append]
        exact hp.trans (List.prefix_append _ _)

theorem trimRight_initial (s : Bytes) : trimRight s <+: s := by
  unfold trimRight
  have := trimLeftRev_suffix s.reverse
  rw [← List.reverse_prefix] at this
  simpa using this

/-- What `TrimSpace` returns is a contiguous part of its argument. -/
theorem TrimSpace_within (s : Bytes) : TrimSpace s <:+: s :=
  (trimRight_initial _).isInfix.trans (trimLeft_suffix s).isInfix

/-- What `TrimSpace` returns has no white space in front. -/
theorem not_leading_TrimSpace (s : Bytes) : ¬ LeadingSpace (TrimSpace s) := by
  rintro ⟨e, he, hp⟩
  exact not_leading_trimLeft s ⟨e, he, hp.trans (trimRight_initial _)⟩

/-- What `TrimSpace` returns has no white space at the end. -/
theorem not_trailing_TrimSpace (s : Bytes) : ¬ TrailingSpace (TrimSpace s) := by
  rintro ⟨e, he, hp⟩
  apply not_leading_trimLeftRev (trimLeft s).reverse
  refine ⟨e, he, ?_⟩
  unfold TrimSpace trimRight at hp
  rw [← List.reverse_prefix] at hp
  simpa using hp

/-- The function `TrimSpace` returns the empty text exactly for white space. -/
theorem TrimSpace_eq_nil_iff (s : Bytes) : TrimSpace s = [] ↔ OnlySpace s := by
  constructor
  · intro h
    apply onlySpace_of_trimLeft
    by_contra hne
    unfold TrimSpace trimRight at h
    have h2 : trimLeftRev (trimLeft s).reverse = [] := by simpa using h
    have := leading_of_trimLeftRev_nil _ h2 (by simpa using hne)
    rw [List.reverse_reverse] at this
    exact not_leading_trimLeft s this
  · intro h
    unfold TrimSpace
    rw [trimLeft_of_onlySpace s h]
    rfl

/-! ## The empty body -/

theorem workingBody_ne_nil (t : Bytes) (ht : t ≠ []) : workingBody t ≠ [] := by
  have pos : ∀ x : Bytes, 0 < x.length → x ≠ [] := by
    intro x hx e
    rw [e] at hx
    exact Nat.lt_irrefl 0 hx
  unfold workingBody
  simp only []
  split_ifs with h1 h2 h2
  · exact pos _ h2
  · exact pos _ h1
  · exact pos _ h2
  · exact ht

theorem normalize_ne_nil (body : Bytes) (hne : TrimSpace body ≠ []) :
    normalizeXMLPlistBody body ≠ [] := by
  rw [normalize_eq_working body hne]
  split_ifs with h1 h2
  · intro e
    rw [e] at h1
    exact Nat.lt_irrefl 0 h1
  · rw [ascii_dict_open]
    simp
  · exact workingBody_ne_nil _ hne

theorem normalize_of_trim_nil (body : Bytes) (h : TrimSpace body = []) :
    normalizeXMLPlistBody body = [] := by
  unfold normalizeXMLPlistBody
  simp [h]

/-- C12: the normalizer returns the empty byte string exactly for the bodies
that consist of white space only, the empty body included: every such body
normalizes to empty, and a body with anything else in it does not. -/
theorem normalize_empty_iff (body : Bytes) :
    normalizeXMLPlistBody body = [] ↔ OnlySpace body := by
  rw [← TrimSpace_eq_nil_iff]
  constructor
  · intro h
    by_contra hne
    exact normalize_ne_nil body hne h
  · exact normalize_of_trim_nil body

/-! ## Where the output of the normalizer comes from -/

/-- A starred class hands over to its continuation at some later position of
the text. -/
theorem starLoop_some_suffix {α : Type} (cls : Nat → Bool) (greedy : Bool)
    (k : Option Nat → Bytes → Option α) (p : Option Nat) (s : Bytes) (r : α)
    (h : starLoop cls greedy k p s = some r) : ∃ q v, v <:+ s ∧ k q v = some r := by
  induction s generalizing p with
  | nil => exact ⟨p, [], List.suffix_refl _, h⟩
  | cons b s ih =>
    unfold starLoop at h
    by_cases hc : cls b = true
    · rw [if_pos hc] at h
      cases greedy with
      | true =>
        simp only [if_true] at h
        cases hs : starLoop cls true k (some b) s with
        | some r2 =>
          rw [hs] at h
          simp only [Option.some.injEq] at h
          subst h
          obtain ⟨q, v, hv, hk⟩ := ih _ hs
          exact ⟨q, v, hv.trans (List.suffix_cons b s), hk⟩
        | none =>
          rw [hs] at h
          exact ⟨p, b :: s, List.suffix_refl _, h⟩
      | false =>
        simp only [Bool.false_eq_true, if_false] at h
        cases hk : k p (b :: s) with
        | some r2 =>
          rw [hk] at h
          simp only [Option.some.injEq] at h
          subst h
          exact ⟨p, b :: s, List.suffix_refl _, hk⟩
        | none =>
          rw [hk] at h
          obtain ⟨q, v, hv, hk2⟩ := ih _ h
          exact ⟨q, v, hv.trans (List.suffix_cons b s), hk2⟩
    · rw [if_neg hc] at h
      exact ⟨p, b :: s, List.suffix_refl _, h⟩

/-- Every remainder a match reports is an end part of the text matched. -/
theorem matchHere_marks_suffix (re : Regexp) (p : Option Nat) (s : Bytes) (mk : List Bytes)
    (h : matchHere re p s = some mk) : ∀ m ∈ mk, m <:+ s := by
  induction re generalizing p s mk with
  | nil =>
    simp only [matchHere, Option.some.injEq] at h
    subst h
    intro m hm
    rw [List.mem_singleton.mp hm]
  | cons n ns ih =>
    cases n with
    | literal r =>
      rw [matchHere_literal_cons] at h
      obtain ⟨enc, _, rest, hs, hm⟩ := firstAlt_some _ _ _ _ h
      intro m hmem
      rw [hs]
      exact (ih _ _ _ hm m hmem).trans (List.suffix_append _ _)
    | wordBoundary =>
      simp only [matchHere] at h
      split at h
      · exact ih _ _ _ h
      · exact absurd h (by simp)
    | star cls greedy =>
      simp only [matchHere] at h
      obtain ⟨q, v, hv, hk⟩ := starLoop_some_suffix _ _ _ _ _ _ h
      intro m hmem
      exact (ih _ _ _ hk m hmem).trans hv
    | mark =>
      simp only [matchHere] at h
      cases hm : matchHere ns p s with
      | none => rw [hm] at h; simp at h
      | some m0 =>
        rw [hm] at h
        simp only [Option.map_some', Option.some.injEq] at h
        subst h
        intro m hmem
        rcases List.mem_append.mp hmem with h1 | h1
        · exact ih _ _ _ hm m h1
        · rw [List.mem_singleton.mp h1]

theorem span_within (opn close s : Bytes) (h : opn <:+ s) : span opn close <:+: s :=
  (List.take_prefix _ _).isInfix.trans h.isInfix

theorem groups_within (s : Bytes) (ms : List Bytes) (h : ∀ m ∈ ms, m <:+ s) :
    ∀ g ∈ groups ms, g <:+: s := by
  generalize hn : ms.length = n
  induction n using Nat.strong_induction_on generalizing ms with
  | _ n ih =>
    rcases ms with _ | ⟨close, _ | ⟨opn, ms⟩⟩
    · intro g hg; simp [groups] at hg
    · intro g hg; simp [groups] at hg
    · intro g hg
      simp only [groups, List.mem_append, List.mem_singleton] at hg
      rcases hg with hg | hg
      · exact ih ms.length (by simp at hn; omega) ms
          (fun m hm => h m (List.mem_cons_of_mem _ (List.mem_cons_of_mem _ hm))) rfl g hg
      · rw [hg]
        exact span_within _ _ _ (h opn (by simp))

/-- What `Find` returns is a contiguous part of the text searched. -/
theorem find_within (re : Regexp) (x : Bytes) : re.Find x <:+: x := by
  unfold Regexp.Find
  cases hf : findAt re none x with
  | none => exact List.nil_infix
  | some r =>
    obtain ⟨st, mk⟩ := r
    obtain ⟨pre, q, hx, _⟩ := findAt_some _ _ _ _ _ hf
    exact span_within _ _ _ ⟨pre, hx.symm⟩

/-- Each text `FindSubmatch` returns is a contiguous part of the text
searched. -/
theorem findSubmatch_within (re : Regexp) (x : Bytes) : ∀ g ∈ re.FindSubmatch x, g <:+: x := by
  unfold Regexp.FindSubmatch
  cases hf : findAt re none x with
  | none => intro g hg; simp at hg
  | some r =>
    obtain ⟨st, mk⟩ := r
    obtain ⟨pre, q, hx, hm⟩ := findAt_some _ _ _ _ _ hf
    have hst : st <:+ x := ⟨pre, hx.symm⟩
    intro g hg
    rcases List.mem_cons.mp hg with h1 | h1
    · rw [h1]
      exact span_within _ _ _ hst
    · apply groups_within x mk.tail _ g h1
      intro m hmem
      exact (matchHere_marks_suffix _ _ _ _ hm m (List.mem_of_mem_tail hmem)).trans hst

theorem getD_within (l : List Bytes) (x : Bytes) (h : ∀ g ∈ l, g <:+: x) (i : Nat) :
    l.getD i [] <:+: x := by
  rw [List.getD_eq_getElem?_getD]
  cases hi : l[i]? with
  | none => exact List.nil_infix
  | some g => exact h g (List.getElem?_mem hi)

theorem extractDocumentInnerBody_within (x : Bytes) : extractDocumentInnerBody x <:+: x := by
  unfold extractDocumentInnerBody
  simp only []
  split_ifs
  · exact List.nil_infix
  · exact List.nil_infix
  · exact (TrimSpace_within _).trans (getD_within _ _ (findSubmatch_within _ x) 1)

theorem extractEmbeddedPlist_within (x : Bytes) : extractEmbeddedPlist x <:+: x := by
  unfold extractEmbeddedPlist
  simp only []
  split_ifs
  · exact List.nil_infix
  · exact (TrimSpace_within _).trans (find_within _ x)

theorem extractEmbeddedDict_within (x : Bytes) : extractEmbeddedDict x <:+: x := by
  unfold extractEmbeddedDict
  simp only []
  split_ifs
  · exact List.nil_infix
  · exact (TrimSpace_within _).trans (find_within _ x)

theorem workingBody_within (t : Bytes) : workingBody t <:+: t := by
  unfold workingBody
  simp only []
  split_ifs
  · exact (extractEmbeddedPlist_within _).trans (extractDocumentInnerBody_within t)
  · exact extractDocumentInnerBody_within t
  · exact extractEmbeddedPlist_within t
  · exact List.infix_refl t

theorem not_leading_nil : ¬ LeadingSpace [] := by
  rintro ⟨e, he, hp⟩
  have := spaceEncodings_pos e he
  rw [List.prefix_nil] at hp
  rw [hp] at this
  exact Nat.lt_irrefl 0 this

theorem not_trailing_nil : ¬ TrailingSpace [] := by
  rintro ⟨e, he, hp⟩
  have := spaceEncodings_pos e he
  rw [List.suffix_nil] at hp
  rw [hp] at this
  exact Nat.lt_irrefl 0 this

/-- A text that starts with `<` has no white space in front. -/
theorem not_leading_lt (s : Bytes) : ¬ LeadingSpace (0x3C :: s) := by
  rintro ⟨e, he, hp⟩
  simp only [spaceEncodings, List.mem_cons, List.mem_singleton, List.not_mem_nil, or_false] at he
  rcases he with h | h | h | h | h | h | h | h | h | h | h | h | h | h | h | h | h | h | h | h |
    h | h | h | h | h
  all_goals subst h
  all_goals simp at hp

/-- A text that ends with `>` has no white space at its end. -/
theorem not_trailing_gt (s : Bytes) : ¬ TrailingSpace (s ++ [0x3E]) := by
  rintro ⟨e, he, hp⟩
  rw [← List.reverse_prefix] at hp
  simp only [spaceEncodings, List.mem_cons, List.mem_singleton, List.not_mem_nil, or_false] at he
  rcases he with h | h | h | h | h | h | h | h | h | h | h | h | h | h | h | h | h | h | h | h |
    h | h | h | h | h
  all_goals subst h
  all_goals simp at hp

theorem extractDocumentInnerBody_trimmed (x : Bytes) :
    ¬ LeadingSpace (extractDocumentInnerBody x) ∧ ¬ TrailingSpace (extractDocumentInnerBody x) := by
  unfold extractDocumentInnerBody
  simp only []
  split_ifs
  · exact ⟨not_leading_nil, not_trailing_nil⟩
  · exact ⟨not_leading_nil, not_trailing_nil⟩
  · exact ⟨not_leading_TrimSpace _, not_trailing_TrimSpace _⟩

theorem extractEmbeddedPlist_trimmed (x : Bytes) :
    ¬ LeadingSpace (extractEmbeddedPlist x) ∧ ¬ TrailingSpace (extractEmbeddedPlist x) := by
  unfold extractEmbeddedPlist
  simp only []
  split_ifs
  · exact ⟨not_leading_nil, not_trailing_nil⟩
  · exact ⟨not_leading_TrimSpace _, not_trailing_TrimSpace _⟩

theorem extractEmbeddedDict_trimmed (x : Bytes) :
    ¬ LeadingSpace (extractEmbeddedDict x) ∧ ¬ TrailingSpace (extractEmbeddedDict x) := by
  unfold extractEmbeddedDict
  simp only []
  split_ifs
  · exact ⟨not_leading_nil, not_trailing_nil⟩
  · exact ⟨not_leading_TrimSpace _, not_trailing_TrimSpace _⟩

theorem workingBody_trimmed (body : Bytes) :
    ¬ LeadingSpace (workingBody (TrimSpace body)) ∧
      ¬ TrailingSpace (workingBody (TrimSpace body)) := by
  unfold workingBody
  simp only []
  split_ifs
  · exact extractEmbeddedPlist_trimmed _
  · exact extractDocumentInnerBody_trimmed _
  · exact extractEmbeddedPlist_trimmed _
  · exact ⟨not_leading_TrimSpace _, not_trailing_TrimSpace _⟩

theorem wrapped_trimmed (w : Bytes) :
    ¬ LeadingSpace (ascii "<dict>" ++ w ++ ascii "</dict>") ∧
      ¬ TrailingSpace (ascii "<dict>" ++ w ++ ascii "</dict>") := by
  constructor
  · rw [ascii_dict_open]
    exact not_leading_lt _
  · have e : ascii "<dict>" ++ w ++ ascii "</dict>"
        = (ascii "<dict>" ++ w ++ [0x3C, 0x2F, 0x64, 0x69, 0x63, 0x74]) ++ [0x3E] := by
      rw [ascii_dict_close]; simp
    rw [e]
    exact not_trailing_gt _

/-- C17: the normalizer never invents or rewrites content. Its output is a
contiguous part of the body, or `<dict>` and `</dict>` put around a contiguous
part of the body that contains `<key>`; in both cases the output neither
starts nor ends with white space. -/
theorem normalize_invents_nothing (b : Bytes) :
    (normalizeXMLPlistBody b <:+: b ∨
      ∃ s, s <:+: b ∧ Contains s (ascii "<key>") = true ∧
        normalizeXMLPlistBody b = ascii "<dict>" ++ s ++ ascii "</dict>") ∧
    ¬ LeadingSpace (normalizeXMLPlistBody b) ∧ ¬ TrailingSpace (normalizeXMLPlistBody b) := by
  by_cases hne : TrimSpace b = []
  · rw [normalize_of_trim_nil b hne]
    exact ⟨Or.inl List.nil_infix, not_leading_nil, not_trailing_nil⟩
  · have hw : workingBody (TrimSpace b) <:+: b :=
      (workingBody_within _).trans (TrimSpace_within b)
    rw [normalize_eq_working b hne]
    split_ifs with h1 h2
    · exact ⟨Or.inl ((extractEmbeddedDict_within _).trans hw), extractEmbeddedDict_trimmed _⟩
    · exact ⟨Or.inr ⟨_, hw, h2, rfl⟩, wrapped_trimmed _⟩
    · exact ⟨Or.inl hw, workingBody_trimmed b⟩

/-! ## The span the dict step returns -/

/-- The search returns the first start at which the pattern matches: no start
before it does. -/
theorem findAt_leftmost (re : Regexp) (hre : ∀ p q s, matchHere re p s = matchHere re q s)
    (s : Bytes) (p : Option Nat) (st : Bytes) (mk : List Bytes)
    (h : findAt re p s = some (st, mk)) :
    ∃ pre, s = pre ++ st ∧ NoHit (fun t => matchHere re none t) pre st ∧
      matchHere re none st = some mk := by
  induction s generalizing p with
  | nil =>
    rw [findAt_nil] at h
    cases hm : matchHere re p [] with
    | none => rw [hm] at h; simp at h
    | some m =>
      rw [hm] at h
      simp only [Option.map_some', Option.some.injEq, Prod.mk.injEq] at h
      refine ⟨[], by rw [← h.1]; rfl, noHit_nil _ _, ?_⟩
      rw [← h.1, ← h.2, hre none p]
      exact hm
  | cons b s ih =>
    rw [findAt_cons] at h
    cases hm : matchHere re p (b :: s) with
    | some m =>
      rw [hm] at h
      simp only [Option.some.injEq, Prod.mk.injEq] at h
      refine ⟨[], by rw [← h.1]; rfl, noHit_nil _ _, ?_⟩
      rw [← h.1, ← h.2, hre none p]
      exact hm
    | none =>
      rw [hm] at h
      obtain ⟨pre, hs, hno, hst⟩ := ih _ h
      refine ⟨b :: pre, by rw [hs]; rfl, ?_, hst⟩
      apply noHit_cons _ b pre st _ hno
      show matchHere re none (b :: (pre ++ st)) = none
      rw [← hs, hre none p]
      exact hm

/-- The dict step returns what the dict pattern finds: a match starts with `<`
and ends with `>`, so trimming leaves it alone. -/
theorem extractEmbeddedDict_eq_find (w : Bytes) :
    extractEmbeddedDict w = dictXMLPattern.Find w := by
  by_cases hfind : dictXMLPattern.Find w = []
  · unfold extractEmbeddedDict
    simp [hfind]
  · obtain ⟨pre, o, u, c, rest, _, hf, ho, hc, _⟩ := find_dict_shape w hfind
    obtain ⟨o2, ho2⟩ := dictOpen_first o ho
    obtain ⟨c2, hc2⟩ := litEnc_dictClose_last c hc
    have htag : o ++ u ++ c = 0x3C :: ((o2 ++ u ++ c2) ++ [0x3E]) := by
      rw [ho2, hc2]; simp
    have hlen : ¬ (o ++ u ++ c).length = 0 := by rw [htag]; simp
    have htrim : TrimSpace (o ++ u ++ c) = o ++ u ++ c := by
      rw [htag]; exact TrimSpace_tagged _
    unfold extractEmbeddedDict
    simp only [hf, hlen, if_false, htrim]

/-- The leftmost match of the dict pattern: where it starts, where it ends, and
that it is the first start and the last end. -/
theorem find_dict_span (w : Bytes) (h : dictXMLPattern.Match w = true) :
    ∃ pre o u c post,
      w = pre ++ (o ++ u ++ c) ++ post ∧ dictXMLPattern.Find w = o ++ u ++ c ∧
      DictOpen o ∧ LitEnc dictCloseRunes c ∧
      (∀ p1 o1 s1, w = p1 ++ o1 ++ s1 → DictOpen o1 → pre.length ≤ p1.length) ∧
      (∀ q1 c1 s1, w = q1 ++ c1 ++ s1 → LitEnc dictCloseRunes c1 →
        q1.length ≤ (pre ++ o ++ u).length) := by
  unfold Regexp.Match at h
  cases hf : findAt dictXMLPattern none w with
  | none => rw [hf] at h; simp at h
  | some r =>
    obtain ⟨st, mk⟩ := r
    obtain ⟨pre, hw, hno, hm⟩ := findAt_leftmost _ dictXMLPattern_prev _ _ _ _ hf
    obtain ⟨o, u, c, rest, hst, hmk, ho, hc, hlast⟩ := dict_match_shape none st mk hm
    have hwhole : w = pre ++ (o ++ u ++ c) ++ rest := by rw [hw, hst]; simp
    refine ⟨pre, o, u, c, rest, hwhole, ?_, ho, hc, ?_, ?_⟩
    · unfold Regexp.Find
      simp only [hf, hmk, hst, List.headD]
      exact span_append _ _
    · intro p1 o1 s1 e ho1
      by_contra hlt
      have e2 : pre ++ st = p1 ++ (o1 ++ s1) := by rw [← hw, e, List.append_assoc]
      rcases List.append_eq_append_iff.mp e2 with ⟨a, ha, hb⟩ | ⟨a, ha, hb⟩
      · rw [ha] at hlt
        simp at hlt
      · have hane : a ≠ [] := by
          intro ea
          rw [ha, ea] at hlt
          simp at hlt
        obtain ⟨t1, ht1, hgt1⟩ := tagOpen_split dictOpenRunes (by decide) o1 ho1
        obtain ⟨t, ht, _⟩ := tagOpen_split dictOpenRunes (by decide) o ho
        have e3 : t1 ++ 0x3E :: s1 = (a ++ t) ++ 0x3E :: (u ++ c ++ rest) := by
          have : a ++ st = o1 ++ s1 := hb.symm ▸ rfl
          rw [hst, ht, ht1] at this
          simpa using this.symm
        obtain ⟨a0, ha0⟩ := first_gt t1 (a ++ t) s1 (u ++ c ++ rest) hgt1 e3
        have hhit := dict_match_intro none o1 (a0 ++ u) c rest ho1 hc hlast
        have hmiss := hno p1 a ha hane
        have e4 : a ++ st = o1 ++ (a0 ++ u) ++ c ++ rest := by
          rw [← hb, ha0]; simp
        simp only [e4, hhit] at hmiss
        exact absurd hmiss (by simp)
    · intro q1 c1 s1 e hc1
      by_contra hlt
      have e2 : (pre ++ o ++ u) ++ (c ++ rest) = q1 ++ (c1 ++ s1) := by
        rw [← List.append_assoc q1, ← e, hwhole]; simp
      rcases List.append_eq_append_iff.mp e2 with ⟨a, ha, hb⟩ | ⟨a, ha, hb⟩
      · have hane : a ≠ [] := by
          intro ea
          rw [ha, ea] at hlt
          simp at hlt
        have := hlast a (c1 ++ s1) hb hane
        rw [matchHere_dict_close_intro c1 s1 none hc1] at this
        exact absurd this (by simp)
      · rw [ha] at hlt
        simp at hlt

/-- C15: when the working value after the Document and plist steps contains a
match of the dict pattern, the normalizer returns the span of the working
value from its first dict opening tag to its last dict closing tag, taking no
later fallback: no opening tag starts before the span and no closing tag
starts after its last one. -/
theorem dict_span (body : Bytes)
    (h : dictXMLPattern.Match (workingBody (TrimSpace body)) = true) :
    ∃ pre o u c post,
      workingBody (TrimSpace body) = pre ++ (o ++ u ++ c) ++ post ∧
      normalizeXMLPlistBody body = o ++ u ++ c ∧
      DictOpen o ∧ LitEnc dictCloseRunes c ∧
      (∀ p1 o1 s1, workingBody (TrimSpace body) = p1 ++ o1 ++ s1 → DictOpen o1 →
        pre.length ≤ p1.length) ∧
      (∀ q1 c1 s1, workingBody (TrimSpace body) = q1 ++ c1 ++ s1 → LitEnc dictCloseRunes c1 →
        q1.length ≤ (pre ++ o ++ u).length) := by
  have hne : TrimSpace body ≠ [] := by
    intro e
    rw [e] at h
    revert h
    decide
  obtain ⟨pre, o, u, c, post, hw, hfind, ho, hc, hfirst, hlast⟩ := find_dict_span _ h
  refine ⟨pre, o, u, c, post, hw, ?_, ho, hc, hfirst, hlast⟩
  obtain ⟨o2, ho2⟩ := dictOpen_first o ho
  have hpos : 0 < (extractEmbeddedDict (workingBody (TrimSpace body))).length := by
    rw [extractEmbeddedDict_eq_find, hfind, ho2]
    simp
  rw [normalize_eq_working body hne, if_pos hpos, extractEmbeddedDict_eq_find, hfind]

set_option maxRecDepth 100000 in
/-- The array document of the claim: the dict pattern matches its working
value, and the normalizer returns the span from the first dict to the last. -/
theorem dict_span_witness :
    dictXMLPattern.Match (workingBody (TrimSpace arrayPlistBody)) = true ∧
    normalizeXMLPlistBody arrayPlistBody = ascii "<dict>a</dict><dict>b</dict>" ∧
    ∃ pre o u c post,
      workingBody (TrimSpace arrayPlistBody) = pre ++ (o ++ u ++ c) ++ post ∧
      normalizeXMLPlistBody arrayPlistBody = o ++ u ++ c ∧
      DictOpen o ∧ LitEnc dictCloseRunes c ∧
      (∀ p1 o1 s1, workingBody (TrimSpace arrayPlistBody) = p1 ++ o1 ++ s1 → DictOpen o1 →
        pre.length ≤ p1.length) ∧
      (∀ q1 c1 s1, workingBody (TrimSpace arrayPlistBody) = q1 ++ c1 ++ s1 →
        LitEnc dictCloseRunes c1 → q1.length ≤ (pre ++ o ++ u).length) :=
  ⟨by decide, by decide, dict_span arrayPlistBody (by decide)⟩

end Ipatool
